import Mathlib

/-!
Verification development for the OptiFlow backend (`backend/app.py`), a Flask
project-management tool whose core is a hierarchy engine over a forest of
tasks: WBS-code assignment, bottom-up date/estimate aggregation, depth-first
order indexing, bottom-up status propagation, and the indent/outdent/delete
mutators.

Two faithful embeddings of the same source are used:

* a rose-tree embedding (`TaskTree`) of the recursive pipeline passes
  (`recalculate_summary_dates`, `update_wbs_codes`,
  `recalculate_order_indices`, `recalculate_summary_status`).  Each of those
  passes builds a `children_map` (parent id → direct children, in query
  order) and then recurses over it; on a well-formed forest that recursion is
  exactly structural recursion over the materialized rose trees, so the tree
  functions below are direct transcriptions of the Python bodies with the
  `children_map.get(task.id, [])` lookups replaced by the node's child list.

* a flat-list embedding (`List Task`) with explicit fuel for the HTTP
  handlers that restructure the forest (`delete_task`, `indent_task`,
  `outdent_task`, `create_task`), where parent pointers and `order_index`
  ordering matter and the pipeline passes are re-run on the flat store.

Dates (`datetime.date`) are modelled as `Int` day ordinals (only `<`, `min`,
`max` and equality are used by the source).  `estimate` (a Python float that
the source only adds) is modelled as `Rat`.  SQLAlchemy integer columns are
`Int`, primary keys `Nat`.  `wbs_code` (nullable string, always overwritten
by the pass before being read) is a plain `String` with `""` for NULL.
-/

namespace OptiFlow

/-- Model of the `Task` SQLAlchemy row (`backend/app.py`, class `Task`). -/
structure Task where
  id : Nat
  task_id : String
  description : String
  start_date : Int
  end_date : Int
  estimate : Rat
  resource : Option String
  status : String
  task_type : String
  parent_ids : Option String
  progress : Int
  project_id : Nat
  order_index : Int
  parent_id : Option Nat
  level : Int
  wbs_code : String
  is_summary : Bool
  expanded : Bool
deriving Repr, DecidableEq

/-!
## Rose-tree embedding of the per-project task forest

A `TaskTree` is one task together with its direct children in sibling order;
a project's tasks form a `TaskForest`.  Sibling order models the order in
which children appear in the source's `children_map` lists (query order).
-/
/-- A task with its materialized children (one entry of the source's
`children_map`, recursively). -/
inductive TaskTree where
  | node (task : Task) (children : List TaskTree)
deriving Repr

/-- A project's tasks as a forest (the source's `root_tasks`, recursively). -/
abbrev TaskForest := List TaskTree

mutual
/-- Decidable equality on trees (the derive handler does not support the
nested inductive). -/
def taskTreeDecEq : (a b : TaskTree) → Decidable (a = b)
  | .node t cs, .node u ds =>
    if h1 : t = u then
      match taskForestDecEq cs ds with
      | isTrue h2 => isTrue (by rw [h1, h2])
      | isFalse h2 => isFalse (by intro h; injection h with e1 e2; exact h2 e2)
    else isFalse (by intro h; injection h with e1 e2; exact h1 e1)
/-- Decidable equality on forests. -/
def taskForestDecEq : (a b : List TaskTree) → Decidable (a = b)
  | [], [] => isTrue rfl
  | [], _ :: _ => isFalse (by intro h; exact List.noConfusion h)
  | _ :: _, [] => isFalse (by intro h; exact List.noConfusion h)
  | a :: as, b :: bs =>
    match taskTreeDecEq a b, taskForestDecEq as bs with
    | isTrue h1, isTrue h2 => isTrue (by rw [h1, h2])
    | isFalse h1, _ => isFalse (by intro h; injection h with e1 e2; exact h1 e1)
    | isTrue _, isFalse h2 => isFalse (by intro h; injection h with e1 e2; exact h2 e2)
end

instance : DecidableEq TaskTree := taskTreeDecEq

/-- The task stored at the root of a tree. -/
def TaskTree.root : TaskTree → Task
  | .node t _ => t

/-- The direct children of the root of a tree. -/
def TaskTree.children : TaskTree → List TaskTree
  | .node _ cs => cs

mutual
/-- Preorder list of the tasks of a tree. -/
def flattenT : TaskTree → List Task
  | .node t cs => t :: flattenF cs
/-- Preorder list of the tasks of a forest. -/
def flattenF : TaskForest → List Task
  | [] => []
  | c :: cs => flattenT c ++ flattenF cs
end

mutual
/-- Number of tasks in a tree. -/
def countT : TaskTree → Nat
  | .node _ cs => 1 + countF cs
/-- Number of tasks in a forest. -/
def countF : TaskForest → Nat
  | [] => 0
  | c :: cs => countT c + countF cs
end

mutual
/-- All subtrees of a tree (the tree itself first, then its children's
subtrees, preorder). -/
def subtreesT : TaskTree → List TaskTree
  | .node t cs => .node t cs :: subtreesF cs
/-- All subtrees of all trees of a forest. -/
def subtreesF : TaskForest → List TaskTree
  | [] => []
  | c :: cs => subtreesT c ++ subtreesF cs
end

mutual
/-- The tasks at the childless nodes of a tree, in preorder (the descendant
leaves of the root, or the root itself if it is a leaf). -/
def leavesT : TaskTree → List Task
  | .node t [] => [t]
  | .node _ (c :: cs) => leavesF (c :: cs)
/-- The tasks at the childless nodes of a forest. -/
def leavesF : TaskForest → List Task
  | [] => []
  | c :: cs => leavesT c ++ leavesF cs
end

/-!
## Date & Estimate Aggregator (`recalculate_summary_dates`, app.py 165-243)
-/
/-- One step of the source's accumulator loop over a child's aggregated
range: `if child_start: if min_start is None or child_start < min_start: ...`
and symmetrically for the max (a `datetime.date` is always truthy, so the
truthiness test is an `isSome` test). -/
def rangeStep (acc : Option Int × Option Int) (child : Option Int × Option Int) :
    Option Int × Option Int :=
  let mn := match child.1 with
    | none => acc.1
    | some s => match acc.1 with
      | none => some s
      | some m => if s < m then some s else some m
  let mx := match child.2 with
    | none => acc.2
    | some e => match acc.2 with
      | none => some e
      | some m => if m < e then some e else some m
  (mn, mx)

mutual
/-- Source `get_date_range`: a leaf returns its own dates; a summary node
folds `rangeStep` over its children's recursively aggregated ranges,
starting from `(None, None)` and ignoring its own stored dates. -/
def getDateRange : TaskTree → Option Int × Option Int
  | .node t cs =>
    match cs with
    | [] => (some t.start_date, some t.end_date)
    | c :: cs' => rangeFold (c :: cs') (none, none)
/-- The source's `for child in children` accumulator loop of
`get_date_range`. -/
def rangeFold : List TaskTree → Option Int × Option Int → Option Int × Option Int
  | [], acc => acc
  | c :: cs, acc => rangeFold cs (rangeStep acc (getDateRange c))
end

mutual
/-- Source `get_total_estimate`: a leaf returns its own estimate (the
source's `or 0` guard is the identity here because `estimate` is modelled
as a plain `Rat`); a summary node sums its children's totals. -/
def getTotalEstimate : TaskTree → Rat
  | .node t cs =>
    match cs with
    | [] => t.estimate
    | c :: cs' => estFold (c :: cs') 0
/-- The source's `total += get_total_estimate(child.id)` loop. -/
def estFold : List TaskTree → Rat → Rat
  | [], acc => acc
  | c :: cs, acc => estFold cs (acc + getTotalEstimate c)
end

mutual
/-- Source `recalculate_summary_dates`, tree form: every task that has at
least one child (the `summary_ids`) gets `start_date`/`end_date` from
`get_date_range` when both are present (`if min_start and max_end`), its
`estimate` from `get_total_estimate`, and `is_summary = True`; childless
tasks are not in `summary_ids` and are untouched.  The helpers read only
leaf fields, which the pass never writes, so running them on the input
forest is exactly the source's behaviour on its live objects. -/
def recalcDatesT : TaskTree → TaskTree
  | .node t cs =>
    match cs with
    | [] => .node t []
    | c :: cs' =>
      let r := getDateRange (.node t (c :: cs'))
      let t1 := match r with
        | (some mn, some mx) => { t with start_date := mn, end_date := mx }
        | _ => t
      .node { t1 with estimate := getTotalEstimate (.node t (c :: cs')), is_summary := true }
        (recalcDatesF (c :: cs'))
/-- The date/estimate pass applied to every summary task of a forest. -/
def recalcDatesF : TaskForest → TaskForest
  | [] => []
  | c :: cs => recalcDatesT c :: recalcDatesF cs
end

/-!
## WBS Code Assigner (`update_wbs_codes`, app.py 246-275)
-/
/-- Source `wbs = f"{prefix}{idx}" if prefix else str(idx)`. -/
def wbsCodeOf (pfx : String) (idx : Nat) : String :=
  if pfx = "" then toString idx else pfx ++ toString idx

mutual
/-- Source `assign_wbs(task_list, prefix)` on one tree: the `idx`-th
(1-based) sibling gets code `prefix + str(idx)`; a task with children is
marked `is_summary = True` and its children are numbered with prefix
`wbs + "."`; a childless task is marked `is_summary = False`. -/
def assignWbsT (pfx : String) (idx : Nat) : TaskTree → TaskTree
  | .node t cs =>
    let wbs := wbsCodeOf pfx idx
    match cs with
    | [] => .node { t with wbs_code := wbs, is_summary := false } []
    | c :: cs' =>
      .node { t with wbs_code := wbs, is_summary := true }
        (assignWbsF (wbs ++ ".") 1 (c :: cs'))
/-- The `for idx, task in enumerate(task_list, 1)` loop of `assign_wbs`. -/
def assignWbsF (pfx : String) (idx : Nat) : List TaskTree → List TaskTree
  | [] => []
  | c :: cs => assignWbsT pfx idx c :: assignWbsF pfx (idx + 1) cs
end

/-!
## Sibling sort by `order_index`

`update_wbs_codes` and `recalculate_order_indices` query the tasks
`order_by(Task.order_index)` (a stable sort of the stored row order), and
`recalculate_order_indices` additionally `sort`s each children list and the
root list by `order_index` (Python's stable `list.sort`).  Both are modelled
by a stable insertion sort of each sibling list by the root's
`order_index`.
-/
/-- Stable insert: the inserted tree goes before the first existing sibling
whose `order_index` is not smaller (the inserted element precedes equal
keys, matching a stable sort where it occurred earlier in the original
list). -/
def insertTreeOrd (x : TaskTree) : List TaskTree → List TaskTree
  | [] => [x]
  | y :: ys =>
    if y.root.order_index < x.root.order_index then y :: insertTreeOrd x ys
    else x :: y :: ys

/-- Stable insertion sort of a sibling list by `order_index`. -/
def sortTreesByOrder : List TaskTree → List TaskTree
  | [] => []
  | x :: xs => insertTreeOrd x (sortTreesByOrder xs)

mutual
/-- Recursively sort every sibling list of a tree by `order_index`. -/
def sortTreeT : TaskTree → TaskTree
  | .node t cs => .node t (sortTreesByOrder (sortTreeF cs))
/-- Recursively sort the trees of a list (without reordering the list
itself). -/
def sortTreeF : List TaskTree → List TaskTree
  | [] => []
  | c :: cs => sortTreeT c :: sortTreeF cs
end

/-- Sort a forest and all of its sibling lists by `order_index` (the
order-sorted query together with the source's explicit children sorts). -/
def sortForestByOrder (f : TaskForest) : TaskForest :=
  sortTreesByOrder (sortTreeF f)

/-- Source `update_wbs_codes`: materialize in `order_index` order, then
`assign_wbs(root_tasks)` with empty prefix and 1-based numbering. -/
def updateWbsForest (f : TaskForest) : TaskForest :=
  assignWbsF "" 1 (sortForestByOrder f)

/-!
## Order Indexer (`recalculate_order_indices`, app.py 278-309)
-/
mutual
/-- Source `assign_order(task_list, counter)` on one tree: assign the
counter to the task, increment, then thread the counter through the
children (`if children: counter = assign_order(children, counter)`). -/
def assignOrderT : TaskTree → Nat → TaskTree × Nat
  | .node t cs, counter =>
    let t1 := { t with order_index := (counter : Int) }
    match cs with
    | [] => (.node t1 [], counter + 1)
    | c :: cs' =>
      let p := assignOrderF (c :: cs') (counter + 1)
      (.node t1 p.1, p.2)
/-- The `for task in task_list` loop of `assign_order`, threading the single
running counter left to right. -/
def assignOrderF : List TaskTree → Nat → List TaskTree × Nat
  | [], counter => ([], counter)
  | c :: cs, counter =>
    let p := assignOrderT c counter
    let q := assignOrderF cs p.2
    (p.1 :: q.1, q.2)
end

/-- Source `recalculate_order_indices`: sort roots and every children list
by the current `order_index`, then `assign_order(root_tasks)` starting
from 0. -/
def recalcOrderForest (f : TaskForest) : TaskForest :=
  (assignOrderF (sortForestByOrder f) 0).1

/-!
## Status Propagator (`recalculate_summary_status`, app.py 312-359)
-/
/-- The parent-status decision of `update_parent_status` (app.py 344-352),
applied to the list of the children's statuses:
any `"In Progress"` child wins, else all-`"Complete"`, else
all-`"Not Started"`, else the final `else` yields `"In Progress"`. -/
def statusRule (child_statuses : List String) : String :=
  if "In Progress" ∈ child_statuses then "In Progress"
  else if child_statuses.all (fun s => s = "Complete") then "Complete"
  else if child_statuses.all (fun s => s = "Not Started") then "Not Started"
  else "In Progress"

mutual
/-- Source `update_parent_status`: a childless task returns unchanged;
otherwise the children are updated first (post-order) and the task's status
is recomputed from the children's resulting statuses. -/
def statusT : TaskTree → TaskTree
  | .node t cs =>
    match cs with
    | [] => .node t []
    | c :: cs' =>
      let cs2 := statusF (c :: cs')
      .node { t with status := statusRule (cs2.map (fun x => x.root.status)) } cs2
/-- The status pass applied to every root of a forest
(`for task in root_tasks: update_parent_status(task)`). -/
def statusF : TaskForest → TaskForest
  | [] => []
  | c :: cs => statusT c :: statusF cs
end

/-- The recalculation pipeline in the order the handlers run it
(`update_wbs_codes`; `recalculate_summary_dates`;
`recalculate_order_indices`; `recalculate_summary_status`). -/
def runPipeline (f : TaskForest) : TaskForest :=
  statusF (recalcOrderForest (recalcDatesF (updateWbsForest f)))

/-- Status names seeded by `init_db` (app.py 872-894).  Note that the
seeded completion status is `"Completed"`, not the `"Complete"` string the
status propagator recognizes. -/
def initDbStatusNames : List String :=
  ["Not Started", "In Progress", "On Hold", "Completed", "Cancelled"]

/-!
## Flat-list embedding

The store of one project is a `List Task` in row order.  Mutating a live
SQLAlchemy object is modelled as rewriting every row with the matching id
(`updateById`); rows have distinct ids in any reachable store.  Recursions
that the source performs over parent links carry explicit fuel; `n + 1`
fuel is always enough for an `n`-row forest, and the handlers pass exactly
that.
-/
/-- Python truthiness of a nullable integer foreign key (`if t.parent_id:`):
`None` and `0` are falsy.  Real ids are `≥ 1`, so this is `isSome` on every
reachable store. -/
def optTruthy : Option Nat → Bool
  | none => false
  | some p => p != 0

/-- Source `Task.query.get(task_id)` within one project's rows. -/
def lookupTask (s : List Task) (tid : Nat) : Option Task :=
  s.find? (fun t => t.id == tid)

/-- Mutation of the live object with id `tid` (every row with that id is
rewritten; ids are unique in any reachable store). -/
def updateById (s : List Task) (tid : Nat) (g : Task → Task) : List Task :=
  s.map (fun t => if t.id == tid then g t else t)

/-- The `children_map` entry for `pid`: the source inserts `t` under key
`t.parent_id` only when `t.parent_id` is truthy, preserving traversal
order of `q`. -/
def childTasksOf (q : List Task) (pid : Nat) : List Task :=
  q.filter (fun t => optTruthy t.parent_id && t.parent_id == some pid)

/-- Source `root_tasks = [t for t in tasks if t.parent_id is None]`. -/
def rootTasksOf (q : List Task) : List Task :=
  q.filter (fun t => t.parent_id.isNone)

/-- Stable insert for the flat `order_by(Task.order_index)` query and
Python's stable `list.sort(key=order_index)`. -/
def insertTaskOrd (x : Task) : List Task → List Task
  | [] => [x]
  | y :: ys =>
    if y.order_index < x.order_index then y :: insertTaskOrd x ys
    else x :: y :: ys

/-- Stable insertion sort of rows by `order_index`. -/
def sortTasksByOrder : List Task → List Task
  | [] => []
  | x :: xs => insertTaskOrd x (sortTasksByOrder xs)

/-!
### Flat WBS pass (`update_wbs_codes`)
-/
/-- Source `assign_wbs(task_list, prefix)` over the flat store: `q` is the
order-sorted query snapshot the `children_map` was built from (parent links
are never changed by the pass, so the snapshot lookups agree with the live
session), `worklist` the sibling list being enumerated (1-based from
`idx`), `s` the mutating store. -/
def wbsAssign (fuel : Nat) (q : List Task) (worklist : List Task) (pfx : String)
    (idx : Nat) (s : List Task) : List Task :=
  match fuel with
  | 0 => s
  | fuel + 1 =>
    (worklist.foldl (fun acc t =>
      let wbs := wbsCodeOf pfx acc.1
      let s1 := updateById acc.2 t.id (fun u => { u with wbs_code := wbs })
      let s2 :=
        match childTasksOf q t.id with
        | [] => updateById s1 t.id (fun u => { u with is_summary := false })
        | c :: cs =>
          wbsAssign fuel q (c :: cs) (wbs ++ ".") 1
            (updateById s1 t.id (fun u => { u with is_summary := true }))
      (acc.1 + 1, s2)) (idx, s)).2

/-- Source `update_wbs_codes` over the flat store. -/
def updateWbsFlat (s : List Task) : List Task :=
  let q := sortTasksByOrder s
  wbsAssign (s.length + 1) q (rootTasksOf q) "" 1 s

/-!
### Flat order pass (`recalculate_order_indices`)
-/
/-- Source `assign_order(task_list, counter)` over the flat store,
threading the single counter; children lists are sorted by their original
`order_index` (the source sorts the `children_map` lists once before the
traversal, using pre-pass values — `q` is that untouched snapshot). -/
def orderAssign (fuel : Nat) (q : List Task) (worklist : List Task) (counter : Nat)
    (s : List Task) : List Task × Nat :=
  match fuel with
  | 0 => (s, counter)
  | fuel + 1 =>
    worklist.foldl (fun acc t =>
      let s1 := updateById acc.1 t.id (fun u => { u with order_index := (acc.2 : Int) })
      match sortTasksByOrder (childTasksOf q t.id) with
      | [] => (s1, acc.2 + 1)
      | c :: cs => orderAssign fuel q (c :: cs) (acc.2 + 1) s1) (s, counter)

/-- Source `recalculate_order_indices` over the flat store. -/
def recalcOrderFlat (s : List Task) : List Task :=
  let q := sortTasksByOrder s
  (orderAssign (s.length + 1) q (sortTasksByOrder (rootTasksOf q)) 0 s).1

/-!
### Flat dates pass (`recalculate_summary_dates`)
-/
/-- First-occurrence deduplication, modelling iteration over
`set(children_map.keys())` (keys in insertion order; the pass's result does
not depend on the iteration order because distinct keys touch distinct
rows). -/
def dedupFirst : List Nat → List Nat
  | [] => []
  | k :: ks => k :: (dedupFirst ks).filter (fun x => x != k)

/-- Source `summary_ids = set(children_map.keys())`. -/
def summaryIdsOf (s : List Task) : List Nat :=
  dedupFirst ((s.filter (fun t => optTruthy t.parent_id)).map (fun t => t.parent_id.getD 0))

/-- Source `get_date_range` over the flat store: `q` is the static
`task_dict`/`children_map` snapshot.  The recursion only ever reads the
dates of childless rows, which the surrounding pass never writes, so the
static snapshot agrees with the live session; the `for child in children`
accumulator loop is the fold. -/
def getDateRangeFlat (fuel : Nat) (q : List Task) (tid : Nat) :
    Option Int × Option Int :=
  match fuel with
  | 0 => (none, none)
  | fuel + 1 =>
    match lookupTask q tid with
    | none => (none, none)
    | some t =>
      match childTasksOf q tid with
      | [] => (some t.start_date, some t.end_date)
      | c :: cs =>
        (c :: cs).foldl (fun acc child => rangeStep acc (getDateRangeFlat fuel q child.id))
          (none, none)

/-- Source `get_total_estimate` over the flat store (missing rows
contribute 0; only leaf estimates are read; the
`total += get_total_estimate(child.id)` loop is the fold). -/
def getTotalEstimateFlat (fuel : Nat) (q : List Task) (tid : Nat) : Rat :=
  match fuel with
  | 0 => 0
  | fuel + 1 =>
    match lookupTask q tid with
    | none => 0
    | some t =>
      match childTasksOf q tid with
      | [] => t.estimate
      | c :: cs => (c :: cs).foldl (fun acc child => acc + getTotalEstimateFlat fuel q child.id) 0

/-- The body of the `for summary_id in summary_ids` loop of
`recalculate_summary_dates`: skip missing rows, write the aggregated dates
when both are present (`if min_start and max_end`), always write the
aggregated estimate and `is_summary = True`. -/
def datesApplyOne (s : List Task) (acc : List Task) (sid : Nat) : List Task :=
  match lookupTask s sid with
  | none => acc
  | some _ =>
    let acc1 :=
      match getDateRangeFlat (s.length + 1) s sid with
      | (some mn, some mx) =>
        updateById acc sid (fun u => { u with start_date := mn, end_date := mx })
      | _ => acc
    updateById acc1 sid
      (fun u => { u with estimate := getTotalEstimateFlat (s.length + 1) s sid,
                         is_summary := true })

/-- Source `recalculate_summary_dates` over the flat store. -/
def recalcDatesFlat (s : List Task) : List Task :=
  (summaryIdsOf s).foldl (datesApplyOne s) s

/-!
### Hierarchy mutators (`delete_task`, `indent_task`, `outdent_task`,
app.py 554-695)
-/
/-- Source `delete_task`: look the task up (404 otherwise), re-parent its
direct children to the task's own parent — with `level := task.level` when
the task has a (truthy) parent, else `level := 0` — remove the task's row,
then run WBS codes, summary dates and order indices. -/
def deleteTaskFlat (s : List Task) (tid : Nat) : Except String (List Task) :=
  match lookupTask s tid with
  | none => .error "Not Found"
  | some task =>
    let children := s.filter (fun t => t.parent_id == some tid)
    let s1 := children.foldl
      (fun acc c => updateById acc c.id
        (fun u => { u with parent_id := task.parent_id,
                           level := if optTruthy task.parent_id then task.level else 0 })) s
    let s2 := s1.eraseP (fun t => t.id == tid)
    .ok (recalcOrderFlat (recalcDatesFlat (updateWbsFlat s2)))

/-- Source `update_descendants` (used by both indent and outdent): set each
direct child's level to its parent's current level plus one, recursing; the
children query is re-issued from the current store at each call (parent
links are not modified by this recursion), and the `for child in children`
loop is the fold. -/
def updateDescendants (fuel : Nat) (s : List Task) (pid : Nat) (plvl : Int) :
    List Task :=
  match fuel with
  | 0 => s
  | fuel + 1 =>
    ((s.filter (fun t => t.parent_id == some pid)).map (fun t => t.id)).foldl
      (fun acc cid =>
        updateDescendants fuel (updateById acc cid (fun u => { u with level := plvl + 1 }))
          cid (plvl + 1)) s

/-- The backward scan of `indent_task` (app.py 604-607): starting at the
position just above the task, find the nearest preceding task whose level
is at most the task's level. -/
def findPotentialParent (tasks : List Task) : Nat → Int → Option Task
  | 0, _ => none
  | j + 1, lvl =>
    match tasks.get? j with
    | none => none
    | some u => if u.level ≤ lvl then some u else findPotentialParent tasks j lvl

/-- Source `indent_task`: fail on a missing task, on position 0 (the
source's `next(..., -1)` plus `task_index <= 0` check) and when no
potential parent precedes; otherwise re-parent the task under the found
parent one level deeper, mark the parent a summary, re-base the task's
descendants, and run the pipeline (WBS, dates, order). -/
def indentTaskFlat (s : List Task) (tid : Nat) : Except String (List Task) :=
  match lookupTask s tid with
  | none => .error "Not Found"
  | some task =>
    let tasks := sortTasksByOrder s
    match tasks.findIdx? (fun t => t.id == tid) with
    | none => .error "Cannot indent the first task"
    | some i =>
      if i = 0 then .error "Cannot indent the first task"
      else
        match findPotentialParent tasks i task.level with
        | none => .error "No valid parent found"
        | some pp =>
          let s1 := updateById s tid
            (fun u => { u with parent_id := some pp.id, level := pp.level + 1 })
          let s2 := updateById s1 pp.id (fun u => { u with is_summary := true })
          let s3 := updateDescendants (s.length + 1) s2 tid (pp.level + 1)
          .ok (recalcOrderFlat (recalcDatesFlat (updateWbsFlat s3)))

/-- The sibling-capture loop of `outdent_task` (app.py 663-670): walk the
order-sorted rows after the task; a row still parented to the old parent is
re-parented under the task one level deeper (marking the task a summary); a
row at or above the old parent's level stops the scan.  `newLvl` is the
task's level at loop time and `opLvl` the old parent's (both equal the old
parent's level in the handler). -/
def captureLoop (tid opId : Nat) (newLvl opLvl : Int) :
    List Task → List Task → List Task
  | [], s => s
  | u :: rest, s =>
    if u.parent_id == some opId then
      captureLoop tid opId newLvl opLvl rest
        (updateById (updateById s u.id
            (fun t => { t with parent_id := some tid, level := newLvl + 1 })) tid
          (fun t => { t with is_summary := true }))
    else if u.level ≤ opLvl then s
    else captureLoop tid opId newLvl opLvl rest s

/-- The position just after the task's row in the sorted list, where the
sibling-capture walk of `outdent_task` starts (source
`next((i for i, t in enumerate(all_tasks) if t.id == task_id)) + 1`, with
0 when the id is absent — it never is on a reachable store). -/
def dropStart (l : List Task) (tid : Nat) : Nat :=
  match l.findIdx? (fun t => t.id == tid) with
  | some i => i + 1
  | none => 0

/-- Source `outdent_task`: fail on a missing task, a level-0 or parentless
task, or a missing parent row; otherwise move the task to its old parent's
parent and level, capture later siblings of the old parent as the task's
children, re-base the task's descendants, clear the old parent's summary
flag if it lost all children, and run the pipeline (WBS, dates, order). -/
def outdentTaskFlat (s : List Task) (tid : Nat) : Except String (List Task) :=
  match lookupTask s tid with
  | none => .error "Not Found"
  | some task =>
    if task.level == 0 || task.parent_id.isNone then
      .error "Cannot outdent a top-level task"
    else
      match task.parent_id with
      | none => .error "Cannot outdent a top-level task"
      | some opId =>
        match lookupTask s opId with
        | none => .error "Parent task not found"
        | some old_parent =>
          let s1 := updateById s tid
            (fun u => { u with parent_id := old_parent.parent_id, level := old_parent.level })
          let all_tasks := sortTasksByOrder s1
          let start := dropStart all_tasks tid
          let s2 := captureLoop tid opId old_parent.level old_parent.level
            (all_tasks.drop start) s1
          let s3 := updateDescendants (s.length + 1) s2 tid old_parent.level
          let s4 :=
            if (s3.filter (fun t => t.parent_id == some opId)).length = 0 then
              updateById s3 opId (fun u => { u with is_summary := false })
            else s3
          .ok (recalcOrderFlat (recalcDatesFlat (updateWbsFlat s4)))

/-!
### Task creation (`create_task`, app.py 440-481)
-/
/-- Python `str(n).zfill(3)`. -/
def zfill3 (n : Nat) : String :=
  let str := toString n
  if str.length < 3 then String.mk (List.replicate (3 - str.length) '0') ++ str else str

/-- Request body of `create_task` (absent keys are `none`; the two dates
are required by the handler, which parses them unconditionally). -/
structure CreateData where
  description : Option String := none
  start_date : Int
  end_date : Int
  estimate : Option Rat := none
  resource : Option String := none
  status : Option String := none
  task_type : Option String := none
  parent_ids : Option String := none
  progress : Option Int := none
deriving Repr

/-- Source `create_task`: auto-generate `task_id` from the project code and
the current row count, reject `end_date < start_date`, append the new row
with the request's fields (`progress=data.get('progress', 0)` is stored as
given, with no clamping) and column defaults for the hierarchy fields, then
run `update_wbs_codes`.  `newId` models the store-assigned primary key. -/
def createTaskFlat (projCode : String) (projId : Nat) (newId : Nat) (s : List Task)
    (d : CreateData) : Except String (List Task) :=
  let task_count := s.length
  if d.end_date < d.start_date then .error "End date must be after start date"
  else
    let task : Task := {
      id := newId,
      task_id := projCode ++ "-" ++ zfill3 (task_count + 1),
      description := d.description.getD "",
      start_date := d.start_date,
      end_date := d.end_date,
      estimate := d.estimate.getD 0,
      resource := d.resource,
      status := d.status.getD "Not Started",
      task_type := d.task_type.getD "Task",
      parent_ids := d.parent_ids,
      progress := d.progress.getD 0,
      project_id := projId,
      order_index := (task_count : Int),
      parent_id := none,
      level := 0,
      wbs_code := "",
      is_summary := false,
      expanded := true }
    .ok (updateWbsFlat (s ++ [task]))

/-!
### Task update (`update_task`, app.py 491-551)

`update_task` never touches `parent_id` or `level`, so the forest shape is
fixed and the handler is embedded over the tree representation, with the
recalculation passes it triggers.
-/
/-- Request body of `update_task` (absent keys are `none`; the nullable
columns `resource` and `parent_ids` can be set to NULL, hence the nested
options). -/
structure UpdateData where
  description : Option String := none
  start_date : Option Int := none
  end_date : Option Int := none
  estimate : Option Rat := none
  resource : Option (Option String) := none
  status : Option String := none
  task_type : Option String := none
  parent_ids : Option (Option String) := none
  progress : Option Int := none
  order_index : Option Int := none
  expanded : Option Bool := none
deriving Repr

/-- The field-update block of `update_task` (app.py 499-529) on one task:
description always; dates and estimate only for non-summary tasks (setting
`dates_changed`); `estimate_changed = 'estimate' in data and not
task.is_summary`; then resource, status, task type, dependency list,
clamped progress (`max(0, min(100, data['progress']))`), order index and
expanded.  Returns the updated task with the `dates_changed` and
`estimate_changed` flags. -/
def applyUpdateFields (d : UpdateData) (t0 : Task) : Task × Bool × Bool :=
  let t := match d.description with | some v => { t0 with description := v } | none => t0
  let dct : Task × Bool :=
    if !t.is_summary then
      let a : Task × Bool := match d.start_date with
        | some v => ({ t with start_date := v }, true)
        | none => (t, false)
      let b : Task × Bool := match d.end_date with
        | some v => ({ a.1 with end_date := v }, true)
        | none => (a.1, a.2)
      match d.estimate with
      | some v => ({ b.1 with estimate := v }, b.2)
      | none => (b.1, b.2)
    else (t, false)
  let t := dct.1
  let estimate_changed := d.estimate.isSome && !t.is_summary
  let t := match d.resource with | some v => { t with resource := v } | none => t
  let t := match d.status with | some v => { t with status := v } | none => t
  let t := match d.task_type with | some v => { t with task_type := v } | none => t
  let t := match d.parent_ids with | some v => { t with parent_ids := v } | none => t
  let t := match d.progress with
    | some v => { t with progress := max 0 (min 100 v) }
    | none => t
  let t := match d.order_index with | some v => { t with order_index := v } | none => t
  let t := match d.expanded with | some v => { t with expanded := v } | none => t
  (t, dct.2, estimate_changed)

mutual
/-- Replace the task of every node whose id is `tid` (mutation of the live
object through the tree view). -/
def setTaskT (tid : Nat) (g : Task → Task) : TaskTree → TaskTree
  | .node t cs => .node (if t.id == tid then g t else t) (setTaskF tid g cs)
/-- `setTaskT` over a forest. -/
def setTaskF (tid : Nat) (g : Task → Task) : TaskForest → TaskForest
  | [] => []
  | c :: cs => setTaskT tid g c :: setTaskF tid g cs
end

mutual
/-- Source `Task.query.get(task_id)` through the tree view (first match in
preorder). -/
def findTaskT (tid : Nat) : TaskTree → Option Task
  | .node t cs => if t.id == tid then some t else findTaskF tid cs
/-- `findTaskT` over a forest. -/
def findTaskF (tid : Nat) : TaskForest → Option Task
  | [] => none
  | c :: cs =>
    match findTaskT tid c with
    | some t => some t
    | none => findTaskF tid cs
end

/-- Source `update_task`: look the task up (404 otherwise), apply the field
updates, reject a non-summary task whose dates are now inverted, commit,
then re-run the date aggregation when dates or a leaf estimate changed and
the status propagation when a status was supplied. -/
def updateTaskForest (f : TaskForest) (tid : Nat) (d : UpdateData) :
    Except String TaskForest :=
  match findTaskF tid f with
  | none => .error "Not Found"
  | some t0 =>
    let r := applyUpdateFields d t0
    let t1 := r.1
    if !t1.is_summary && t1.end_date < t1.start_date then
      .error "End date must be after start date"
    else
      let f1 := setTaskF tid (fun _ => t1) f
      let f2 := if r.2.1 || r.2.2 then recalcDatesF f1 else f1
      let f3 := if d.status.isSome then statusF f2 else f2
      .ok f3

/-!
## Specification-side vocabulary

Minimum, maximum and the claim-language predicates used to state the
properties.  These are the language of the claims, not transcriptions of
the source.
-/
/-- Minimum of a list of dates, `none` on the empty list. -/
def minOfList : List Int → Option Int
  | [] => none
  | x :: xs =>
    match minOfList xs with
    | none => some x
    | some m => some (min x m)

/-- Maximum of a list of dates, `none` on the empty list. -/
def maxOfList : List Int → Option Int
  | [] => none
  | x :: xs =>
    match maxOfList xs with
    | none => some x
    | some m => some (max x m)

/-- Combine an accumulated optional minimum with another optional
minimum. -/
def mergeMin : Option Int → Option Int → Option Int
  | acc, none => acc
  | none, some v => some v
  | some m, some v => some (min m v)

/-- Combine an accumulated optional maximum with another optional
maximum. -/
def mergeMax : Option Int → Option Int → Option Int
  | acc, none => acc
  | none, some v => some v
  | some m, some v => some (max m v)

/-- Relabel a list of tasks with consecutive `order_index` values starting
at `k` (the visit positions of a traversal). -/
def numberFrom : Nat → List Task → List Task
  | _, [] => []
  | k, t :: ts => { t with order_index := (k : Int) } :: numberFrom (k + 1) ts

/-- A sample leaf task used by concrete witnesses. -/
def sampleTask : Task :=
  { id := 1, task_id := "MIG-001", description := "", start_date := 0, end_date := 1,
    estimate := 0, resource := none, status := "Not Started", task_type := "Task",
    parent_ids := none, progress := 0, project_id := 1, order_index := 0,
    parent_id := none, level := 0, wbs_code := "", is_summary := false, expanded := true }

/-- A sample task record with the given id, parent, level, order index,
dates and status (all other fields as in `sampleTask`). -/
def mkSample (i : Nat) (pid : Option Nat) (lvl : Int) (oi : Int) (sd ed : Int)
    (st : String) : Task :=
  { sampleTask with
      id := i
      parent_id := pid
      level := lvl
      order_index := oi
      start_date := sd
      end_date := ed
      status := st }

/-!
## Claim C2 — WBS codes

`wbsOKT code c` states the postcondition of `assign_wbs` at a node whose
full code is `code`; `wbsOKF pfx idx cs` states it along a sibling list
numbered from `idx` at prefix `pfx`.
-/
mutual
/-- WBS postcondition at one node, given the node's full code. -/
def wbsOKT (code : String) : TaskTree → Prop
  | .node t cs => t.wbs_code = code ∧ t.is_summary = !cs.isEmpty ∧ wbsOKF (code ++ ".") 1 cs
/-- WBS postcondition along a sibling list at prefix `pfx`, numbered from
`idx`. -/
def wbsOKF (pfx : String) (idx : Nat) : List TaskTree → Prop
  | [] => True
  | c :: cs => wbsOKT (wbsCodeOf pfx idx) c ∧ wbsOKF pfx (idx + 1) cs
end

/-!
## Claim C4 — status propagator
-/
/-- The claim's case analysis for a parent's status in terms of its
children's resulting statuses. -/
def statusClaimOK (st : String) (child_statuses : List String) : Prop :=
  ("In Progress" ∈ child_statuses → st = "In Progress") ∧
  ("In Progress" ∉ child_statuses → (∀ x ∈ child_statuses, x = "Complete") →
    st = "Complete") ∧
  ("In Progress" ∉ child_statuses → ¬ (∀ x ∈ child_statuses, x = "Complete") →
    (∀ x ∈ child_statuses, x = "Not Started") → st = "Not Started") ∧
  ("In Progress" ∉ child_statuses → ¬ (∀ x ∈ child_statuses, x = "Complete") →
    ¬ (∀ x ∈ child_statuses, x = "Not Started") → st = "In Progress")

/-- Erase the one field the status pass writes. -/
def eraseStatus (t : Task) : Task := { t with status := "" }

/-!
## Claim C6 — pipeline idempotence

The pipeline is `statusF ∘ recalcOrderForest ∘ recalcDatesF ∘
updateWbsForest`.  Idempotence is proved stagewise: the first run leaves the
forest in a state where every sibling list is sorted by `order_index` and
every stage's postcondition holds, and each stage is the identity on such a
state.
-/
/-- Sibling comparison used by the `order_index` sorts. -/
def leOrd (a b : TaskTree) : Prop := a.root.order_index ≤ b.root.order_index

mutual
/-- Every sibling list inside the tree is sorted by `order_index`. -/
def treeSorted : TaskTree → Prop
  | .node _ cs => List.Chain' leOrd cs ∧ treesSorted cs
/-- Every tree of the list has sorted sibling lists. -/
def treesSorted : List TaskTree → Prop
  | [] => True
  | c :: cs => treeSorted c ∧ treesSorted cs
end

/-- The top-level list and every sibling list are sorted by
`order_index`. -/
def forestSorted (f : TaskForest) : Prop :=
  List.Chain' leOrd f ∧ treesSorted f

/-- Erase the one field the order pass writes. -/
def eraseOrder (t : Task) : Task := { t with order_index := 0 }

mutual
/-- Postcondition of the date pass at one node, phrased over the node's
children (the descendant leaves of a node with children are the leaves of
its child list). -/
def datesOKT : TaskTree → Prop
  | .node t cs =>
    (cs ≠ [] →
      minOfList ((leavesF cs).map Task.start_date) = some t.start_date ∧
      maxOfList ((leavesF cs).map Task.end_date) = some t.end_date ∧
      t.estimate = ((leavesF cs).map Task.estimate).sum ∧
      t.is_summary = true) ∧
    datesOKF cs
/-- Postcondition of the date pass along a sibling list. -/
def datesOKF : List TaskTree → Prop
  | [] => True
  | c :: cs => datesOKT c ∧ datesOKF cs
end

mutual
/-- Postcondition of the order pass at one tree given its starting
counter. -/
def orderOKT : Nat → TaskTree → Prop
  | k, .node t cs => t.order_index = (k : Int) ∧ orderOKF (k + 1) cs
/-- Postcondition of the order pass along a sibling list given its
starting counter. -/
def orderOKF : Nat → List TaskTree → Prop
  | _, [] => True
  | k, c :: cs => orderOKT k c ∧ orderOKF (k + countT c) cs
end

mutual
/-- Postcondition of the status pass at one tree. -/
def statusOKT : TaskTree → Prop
  | .node t cs =>
    (cs ≠ [] → t.status = statusRule (cs.map (fun x => x.root.status))) ∧ statusOKF cs
/-- Postcondition of the status pass along a sibling list. -/
def statusOKF : List TaskTree → Prop
  | [] => True
  | c :: cs => statusOKT c ∧ statusOKF cs
end

/-!
## Claim C8 — supplying a status for a summary task

`update_task` does **not** reject a status value for a task with children
(app.py 518-519 stores it unconditionally); the subsequent
`recalculate_summary_status` run overwrites it with the derived status, so
the caller-supplied value has no effect — but when it coincides with the
derived status the stored status *is* the supplied one, refuting the claim
as stated.
-/
mutual
/-- Two trees of the same shape whose tasks agree except possibly on the
status stored at internal (child-bearing) nodes; at childless nodes the
tasks are fully equal. -/
def almostEq : TaskTree → TaskTree → Prop
  | .node t cs, .node u ds =>
    eraseStatus t = eraseStatus u ∧ (cs = [] → t = u) ∧ almostEqF cs ds
/-- `almostEq`, pointwise along sibling lists. -/
def almostEqF : List TaskTree → List TaskTree → Prop
  | [], [] => True
  | c :: cs, d :: ds => almostEq c d ∧ almostEqF cs ds
  | _, _ => False
end

/-- The claim as stated: a summary task's stored status after an
`update_task` request that supplies a status is never the supplied
value. -/
def updateStatusNeverStored : Prop :=
  ∀ (f : TaskForest) (tid : Nat) (d : UpdateData) (v : String) (r : TaskForest),
    (∃ s ∈ subtreesF f, s.root.id = tid ∧ s.children ≠ []) →
    d.status = some v →
    updateTaskForest f tid d = .ok r →
    (findTaskF tid r).map Task.status ≠ some v

/-!
## Claim C5 — deleting a task promotes its children

Flat-store well-formedness and the projections that the recalculation
pipeline (WBS codes, summary dates, order indices) cannot change.
-/
/-- The fields of a row that the three recalculation passes are allowed to
write, reset to defaults; equality of `eraseDerived`-images of two stores
says they agree on everything those passes cannot touch. -/
def eraseDerived (t : Task) : Task :=
  { t with
      wbs_code := ""
      is_summary := false
      start_date := 0
      end_date := 0
      estimate := 0
      order_index := 0 }

/-- The hierarchy skeleton of a row: its id, parent reference and level. -/
def trip (t : Task) : Nat × Option Nat × Int := (t.id, t.parent_id, t.level)

/-- Well-formedness of a flat store: unique nonzero ids, parent references
that are nonzero and resolve to a row of the store, each child sitting
exactly one level below its parent, and roots at level 0. -/
structure WFStore (s : List Task) : Prop where
  nodup : (s.map Task.id).Nodup
  idNz : ∀ t ∈ s, t.id ≠ 0
  parentClosed : ∀ t ∈ s, ∀ p, t.parent_id = some p → p ≠ 0 ∧ ∃ v ∈ s, v.id = p
  childLevel : ∀ t ∈ s, ∀ p, t.parent_id = some p → ∀ v ∈ s, v.id = p →
    t.level = v.level + 1
  rootLevel : ∀ t ∈ s, t.parent_id = none → t.level = 0

/-- One parent-reference step between two rows of a store. -/
def parentStep (s : List Task) (a b : Task) : Prop :=
  a.parent_id = some b.id ∧ a ∈ s ∧ b ∈ s

/-- The re-parenting applied by `delete_task` to each direct child of the
deleted task (app.py 561-567). -/
def promoteChild (T : Task) (u : Task) : Task :=
  { u with
      parent_id := T.parent_id
      level := if optTruthy T.parent_id then T.level else 0 }

/-- The stored level of the row `cid` read back after deleting `tid`. -/
def levelAfterDelete (s : List Task) (tid cid : Nat) : Option Int :=
  match deleteTaskFlat s tid with
  | .ok s' => (lookupTask s' cid).map Task.level
  | .error _ => none

/-- Claim C5 as stated: after `Delete(T)` each child of `T` sits at
`T.parent.level` when `T` had a parent (and at 0 otherwise). -/
def deleteClaimAsStated : Prop :=
  ∀ (s : List Task) (tid : Nat) (T P : Task) (s' : List Task),
    WFStore s → lookupTask s tid = some T →
    T.parent_id = some P.id → P ∈ s →
    deleteTaskFlat s tid = .ok s' →
    ∀ c ∈ s, c.parent_id = some tid →
      ∀ c', lookupTask s' c.id = some c' → c'.level = P.level

/-- The three-task chain 1 ← 2 ← 3 used as a concrete store. -/
def chainA : Task := mkSample 1 none 0 0 0 10 "Not Started"

/-- Middle task of the chain, child of `chainA`. -/
def chainB : Task := mkSample 2 (some 1) 1 1 0 5 "Not Started"

/-- Deepest task of the chain, child of `chainB`. -/
def chainC : Task := mkSample 3 (some 2) 2 2 0 5 "Not Started"

/-!
## Claim C7 — indent followed by outdent restores parent and level

Infrastructure: the sort is a permutation, levels of a well-formed store
are nonnegative, and the two descendant-rebasing recursions only write
levels of rows strictly below the moved task's original level.
-/
/-- The id and parent reference of a row. -/
def idpar (t : Task) : Nat × Option Nat := (t.id, t.parent_id)

/-- The ids of the direct children of `pid` in store `s`, in store order
(the list the `update_descendants` recursion iterates). -/
def childIds (s : List Task) (pid : Nat) : List Nat :=
  (s.filter (fun t => t.parent_id == some pid)).map (fun t => t.id)

/-- A row with its level reset. -/
def eraseLvl (t : Task) : Task := { t with level := 0 }

/-- Erase the level of the rows selected by `B` (by id); equality of
`maskB`-images says two stores agree everywhere except possibly on the
levels of `B`-rows. -/
def maskB (B : Nat → Bool) (t : Task) : Task :=
  if B t.id then eraseLvl t else t

/-- The ids whose row in the reference store `s` sits strictly below level
`lvl` (false for ids not in `s`). -/
def deeperThan (s : List Task) (lvl : Int) (x : Nat) : Bool :=
  match lookupTask s x with
  | some v => decide (lvl < v.level)
  | none => false

/-- First of two level-0 sibling rows used by the round-trip witness. -/
def sibA : Task := mkSample 1 none 0 0 0 5 "Not Started"

/-- Second of two level-0 sibling rows used by the round-trip witness. -/
def sibB : Task := mkSample 2 none 0 1 0 5 "Not Started"

/-- Computation rule for `TaskTree.root`. -/
theorem root_node (t : Task) (cs : List TaskTree) : (TaskTree.node t cs).root = t := rfl

/-- Computation rule for `TaskTree.children`. -/
theorem children_node (t : Task) (cs : List TaskTree) :
    (TaskTree.node t cs).children = cs := rfl

/-!
## Claim C10 — unrecognized statuses fall through to "In Progress"
-/
/-- Unfolding of `statusRule` on the final `else` branch: no child is
`"In Progress"`, and the children are neither all `"Complete"` nor all
`"Not Started"`. -/
theorem statusRule_fallthrough (l : List String)
    (h1 : "In Progress" ∉ l)
    (h2 : ¬ ∀ x ∈ l, x = "Complete")
    (h3 : ¬ ∀ x ∈ l, x = "Not Started") :
    statusRule l = "In Progress" := by
  unfold statusRule
  rw [if_neg h1, if_neg, if_neg]
  · simp only [List.all_eq_true, decide_eq_true_eq]
    exact h3
  · simp only [List.all_eq_true, decide_eq_true_eq]
    exact h2

/-- Claim C10: in status propagation, any child status outside the three
recognized strings "In Progress", "Complete", "Not Started" — including the
application's own seeded defaults "Completed", "On Hold" and "Cancelled",
none of which except the first two recognized names appear in the rule —
falls through to the final else branch: a task whose children's resulting
statuses include no "In Progress" and are neither all "Complete" nor all
"Not Started" is set to "In Progress". -/
theorem claim10_status_fallthrough :
    ("Completed" ∈ initDbStatusNames ∧ "On Hold" ∈ initDbStatusNames ∧
      "Cancelled" ∈ initDbStatusNames ∧ "Complete" ∉ initDbStatusNames) ∧
    ∀ (t : Task) (c : TaskTree) (cs : List TaskTree),
      "In Progress" ∉ (statusF (c :: cs)).map (fun x => x.root.status) →
      ¬ (∀ st ∈ (statusF (c :: cs)).map (fun x => x.root.status), st = "Complete") →
      ¬ (∀ st ∈ (statusF (c :: cs)).map (fun x => x.root.status), st = "Not Started") →
      (statusT (.node t (c :: cs))).root.status = "In Progress" := by
  refine ⟨by decide, fun t c cs h1 h2 h3 => ?_⟩
  show (TaskTree.node _ (statusF (c :: cs))).root.status = "In Progress"
  show statusRule ((statusF (c :: cs)).map (fun x => x.root.status)) = "In Progress"
  exact statusRule_fallthrough _ h1 h2 h3

/-- Witness for C10: a parent whose two leaf children carry the seeded
statuses "Completed" and "On Hold" is set to "In Progress". -/
theorem claim10_witness :
    ("In Progress" ∉ (statusF [.node (mkSample 2 (some 1) 1 1 0 1 "Completed") [],
        .node (mkSample 3 (some 1) 1 2 0 1 "On Hold") []]).map (fun x => x.root.status) ∧
      ¬ (∀ st ∈ (statusF [.node (mkSample 2 (some 1) 1 1 0 1 "Completed") [],
        .node (mkSample 3 (some 1) 1 2 0 1 "On Hold") []]).map (fun x => x.root.status),
          st = "Complete") ∧
      ¬ (∀ st ∈ (statusF [.node (mkSample 2 (some 1) 1 1 0 1 "Completed") [],
        .node (mkSample 3 (some 1) 1 2 0 1 "On Hold") []]).map (fun x => x.root.status),
          st = "Not Started")) ∧
    (statusT (.node sampleTask [.node (mkSample 2 (some 1) 1 1 0 1 "Completed") [],
        .node (mkSample 3 (some 1) 1 2 0 1 "On Hold") []])).root.status = "In Progress" := by
  refine ⟨⟨?_, ?_, ?_⟩, ?_⟩
  · decide
  · decide
  · decide
  · exact (claim10_status_fallthrough.2 sampleTask _ _ (by decide) (by decide) (by decide))

mutual
/-- The WBS assigner establishes its postcondition at every node. -/
theorem wbsOKT_assign (pfx : String) (idx : Nat) (c : TaskTree) :
    wbsOKT (wbsCodeOf pfx idx) (assignWbsT pfx idx c) := by
  cases c with
  | node t cs =>
    cases cs with
    | nil => simp [assignWbsT, wbsOKT, wbsOKF]
    | cons c cs' =>
      refine ⟨rfl, rfl, ?_⟩
      exact wbsOKF_assign (wbsCodeOf pfx idx ++ ".") 1 (c :: cs')
/-- The WBS assigner establishes its postcondition along every sibling
list. -/
theorem wbsOKF_assign (pfx : String) (idx : Nat) (cs : List TaskTree) :
    wbsOKF pfx idx (assignWbsF pfx idx cs) := by
  cases cs with
  | nil => trivial
  | cons c cs' => exact ⟨wbsOKT_assign pfx idx c, wbsOKF_assign pfx (idx + 1) cs'⟩
end

/-- The root's code under the WBS postcondition. -/
theorem wbsOKT_root_code (code : String) (c : TaskTree) (h : wbsOKT code c) :
    c.root.wbs_code = code := by
  cases c; exact h.1

/-- Positional reading of `wbsOKF`: the `k`-th (0-based) sibling has code
`wbsCodeOf pfx (idx + k)`. -/
theorem wbsOKF_code_at (pfx : String) (idx : Nat) (cs : List TaskTree)
    (h : wbsOKF pfx idx cs) (k : Nat) (hk : k < cs.length) :
    (cs.get ⟨k, hk⟩).root.wbs_code = wbsCodeOf pfx (idx + k) := by
  induction cs generalizing idx k with
  | nil => exact absurd hk (by simp)
  | cons c cs' ih =>
    cases k with
    | zero => exact wbsOKT_root_code _ _ h.1
    | succ k =>
      have := ih (idx + 1) h.2 k (Nat.lt_of_succ_lt_succ hk)
      simpa [Nat.add_assoc, Nat.add_comm 1 k] using this

/-- A string extended with `"."` is nonempty. -/
theorem append_dot_ne_empty (a : String) : a ++ "." ≠ "" := by
  intro h
  have := congrArg String.length h
  simp [String.length_append] at this
  exact absurd this.2 (by decide)

/-- Code of a child sibling at a nonempty (dotted) prefix. -/
theorem wbsCodeOf_dotted (a : String) (n : Nat) :
    wbsCodeOf (a ++ ".") n = a ++ "." ++ toString n := by
  rw [wbsCodeOf, if_neg (append_dot_ne_empty a), String.append_assoc]

mutual
/-- Under the WBS postcondition, every subtree of a tree satisfies the
claim shape: `is_summary` reflects having children and the `k`-th (1-based)
child of a node coded `C` is coded `C.k`. -/
theorem wbsOK_subtrees_T (code : String) (c : TaskTree) (h : wbsOKT code c) :
    ∀ s ∈ subtreesT c,
      s.root.is_summary = !s.children.isEmpty ∧
      ∀ k (hk : k < s.children.length),
        (s.children.get ⟨k, hk⟩).root.wbs_code = s.root.wbs_code ++ "." ++ toString (k + 1) := by
  cases c with
  | node t cs =>
    intro s hs
    rw [subtreesT] at hs
    rcases List.mem_cons.mp hs with rfl | hs
    · refine ⟨h.2.1, ?_⟩
      intro k hk
      simp only [children_node] at hk ⊢
      simp only [root_node]
      have hok2 : wbsOKF (t.wbs_code ++ ".") 1 cs := by rw [h.1]; exact h.2.2
      have hc := wbsOKF_code_at (t.wbs_code ++ ".") 1 cs hok2 k hk
      rw [hc, wbsCodeOf_dotted, Nat.add_comm 1 k]
    · exact wbsOK_subtrees_F (code ++ ".") 1 cs h.2.2 s hs
/-- Under the WBS postcondition, every subtree of a sibling list satisfies
the claim shape. -/
theorem wbsOK_subtrees_F (pfx : String) (idx : Nat) (cs : List TaskTree)
    (h : wbsOKF pfx idx cs) :
    ∀ s ∈ subtreesF cs,
      s.root.is_summary = !s.children.isEmpty ∧
      ∀ k (hk : k < s.children.length),
        (s.children.get ⟨k, hk⟩).root.wbs_code = s.root.wbs_code ++ "." ++ toString (k + 1) := by
  cases cs with
  | nil => intro s hs; exact absurd hs (by simp [subtreesF])
  | cons c cs' =>
    intro s hs
    rw [subtreesF] at hs
    rcases List.mem_append.mp hs with hs | hs
    · exact wbsOK_subtrees_T (wbsCodeOf pfx idx) c h.1 s hs
    · exact wbsOK_subtrees_F pfx (idx + 1) cs' h.2 s hs
end

/-- Claim C2: after the WBS Code Assigner runs, with roots and sibling
lists ordered by current `order_index`, the k-th root (1-based) has
`wbs_code` `"k"` and the k-th child (1-based) of a task with code `C` has
code `C.k`; in the same pass `is_summary` is set to true exactly for the
tasks with at least one child. -/
theorem claim2_wbs_codes (f : TaskForest) :
    (∀ k (hk : k < (updateWbsForest f).length),
      ((updateWbsForest f).get ⟨k, hk⟩).root.wbs_code = toString (k + 1)) ∧
    ∀ s ∈ subtreesF (updateWbsForest f),
      (∀ k (hk : k < s.children.length),
        (s.children.get ⟨k, hk⟩).root.wbs_code = s.root.wbs_code ++ "." ++ toString (k + 1)) ∧
      s.root.is_summary = !s.children.isEmpty := by
  have hok : wbsOKF "" 1 (updateWbsForest f) := wbsOKF_assign "" 1 (sortForestByOrder f)
  constructor
  · intro k hk
    have := wbsOKF_code_at "" 1 (updateWbsForest f) hok k hk
    rw [this, wbsCodeOf, if_pos rfl, Nat.add_comm 1 k]
  · intro s hs
    have := wbsOK_subtrees_F "" 1 (updateWbsForest f) hok s hs
    exact ⟨this.2, this.1⟩

/-- Witness for C2 at a concrete two-root forest whose second root has one
child: codes are "1", "2", "2.1" and `is_summary` marks exactly the parent. -/
theorem claim2_witness :
    (0 < (updateWbsForest [.node (mkSample 1 none 0 0 0 1 "x") [],
        .node (mkSample 2 none 0 1 0 1 "x")
          [.node (mkSample 3 (some 2) 1 2 0 1 "x") []]]).length) ∧
    ((updateWbsForest [.node (mkSample 1 none 0 0 0 1 "x") [],
        .node (mkSample 2 none 0 1 0 1 "x")
          [.node (mkSample 3 (some 2) 1 2 0 1 "x") []]]).get
        ⟨0, by decide⟩).root.wbs_code = toString (0 + 1) := by
  refine ⟨by decide, ?_⟩
  exact (claim2_wbs_codes [.node (mkSample 1 none 0 0 0 1 "x") [],
    .node (mkSample 2 none 0 1 0 1 "x")
      [.node (mkSample 3 (some 2) 1 2 0 1 "x") []]]).1 0 (by decide)

/-!
## Claim C3 — order indexer
-/
/-- `numberFrom` distributes over append, shifting the counter by the
length of the first part. -/
theorem numberFrom_append (k : Nat) (l1 l2 : List Task) :
    numberFrom k (l1 ++ l2) = numberFrom k l1 ++ numberFrom (k + l1.length) l2 := by
  induction l1 generalizing k with
  | nil => simp [numberFrom]
  | cons t ts ih =>
    show { t with order_index := (k : Int) } :: numberFrom (k + 1) (ts ++ l2) =
      { t with order_index := (k : Int) } ::
        (numberFrom (k + 1) ts ++ numberFrom (k + (ts.length + 1)) l2)
    rw [ih (k + 1)]
    have he : k + 1 + ts.length = k + (ts.length + 1) := by omega
    rw [he]

mutual
/-- Length of the preorder flattening of a tree. -/
theorem flattenT_length (c : TaskTree) : (flattenT c).length = countT c := by
  cases c with
  | node t cs => simp [flattenT, countT, flattenF_length cs, Nat.add_comm]
/-- Length of the preorder flattening of a forest. -/
theorem flattenF_length (cs : TaskForest) : (flattenF cs).length = countF cs := by
  cases cs with
  | nil => rfl
  | cons c cs' => simp [flattenF, countF, flattenT_length c, flattenF_length cs']
end

mutual
/-- `assign_order` on one tree: the threaded counter advances by the tree
size and the flattened result is the input flattening renumbered from the
starting counter. -/
theorem assignOrderT_spec (c : TaskTree) (k : Nat) :
    (assignOrderT c k).2 = k + countT c ∧
    flattenT (assignOrderT c k).1 = numberFrom k (flattenT c) := by
  cases c with
  | node t cs =>
    cases cs with
    | nil => simp [assignOrderT, countT, countF, flattenT, flattenF, numberFrom]
    | cons c cs' =>
      have h := assignOrderF_spec (c :: cs') (k + 1)
      constructor
      · show (assignOrderF (c :: cs') (k + 1)).2 = k + countT (.node t (c :: cs'))
        rw [h.1, countT]; omega
      · show { t with order_index := (k : Int) } :: flattenF (assignOrderF (c :: cs') (k + 1)).1 =
          numberFrom k (t :: flattenF (c :: cs'))
        rw [h.2, numberFrom]
/-- `assign_order` on a sibling list: counter advances by the total size
and the flattening is renumbered from the starting counter. -/
theorem assignOrderF_spec (cs : TaskForest) (k : Nat) :
    (assignOrderF cs k).2 = k + countF cs ∧
    flattenF (assignOrderF cs k).1 = numberFrom k (flattenF cs) := by
  cases cs with
  | nil => simp [assignOrderF, countF, flattenF, numberFrom]
  | cons c cs' =>
    have h1 := assignOrderT_spec c k
    have h2 := assignOrderF_spec cs' (assignOrderT c k).2
    constructor
    · show (assignOrderF cs' (assignOrderT c k).2).2 = k + countF (c :: cs')
      rw [h2.1, h1.1, countF]; omega
    · show flattenT (assignOrderT c k).1 ++ flattenF (assignOrderF cs' (assignOrderT c k).2).1 =
        numberFrom k (flattenT c ++ flattenF cs')
      rw [h2.2, h1.1, h1.2, numberFrom_append, flattenT_length]
end

/-- The `order_index` values written by `numberFrom` are the consecutive
integers from the starting counter. -/
theorem numberFrom_map_order (k : Nat) (l : List Task) :
    (numberFrom k l).map Task.order_index = (List.range' k l.length).map (fun n => (n : Int)) := by
  induction l generalizing k with
  | nil => rfl
  | cons t ts ih => simp [numberFrom, List.range'_succ, ih (k + 1)]

/-- Sorting a sibling list preserves the task count. -/
theorem countF_insertTreeOrd (x : TaskTree) (l : List TaskTree) :
    countF (insertTreeOrd x l) = countT x + countF l := by
  induction l with
  | nil => simp [insertTreeOrd, countF]
  | cons y ys ih =>
    rw [insertTreeOrd]
    by_cases h : y.root.order_index < x.root.order_index
    · rw [if_pos h, countF, ih, countF]; omega
    · rw [if_neg h, countF, countF]

/-- Sorting preserves the task count of a forest. -/
theorem countF_sortTreesByOrder (l : List TaskTree) :
    countF (sortTreesByOrder l) = countF l := by
  induction l with
  | nil => rfl
  | cons x xs ih => rw [sortTreesByOrder, countF_insertTreeOrd, ih, countF]

mutual
/-- Recursively sorting a tree preserves its size. -/
theorem countT_sortTreeT (c : TaskTree) : countT (sortTreeT c) = countT c := by
  cases c with
  | node t cs =>
    rw [sortTreeT, countT, countT, countF_sortTreesByOrder, countF_sortTreeF cs]
/-- Recursively sorting the trees of a list preserves the total size. -/
theorem countF_sortTreeF (cs : List TaskTree) : countF (sortTreeF cs) = countF cs := by
  cases cs with
  | nil => rfl
  | cons c cs' => rw [sortTreeF, countF, countT_sortTreeT c, countF_sortTreeF cs', countF]
end

/-- Sorting a forest and its sibling lists preserves the task count. -/
theorem countF_sortForest (f : TaskForest) : countF (sortForestByOrder f) = countF f := by
  rw [sortForestByOrder, countF_sortTreesByOrder, countF_sortTreeF]

/-- Claim C3: after the Order Indexer runs, the preorder flattening of the
result is the flattening of the sorted input renumbered consecutively from
0 — so every task's `order_index` is its visit position in a preorder DFS
that keeps roots and siblings in previous `order_index` order — and the
multiset of assigned values is exactly `0..n-1` for the `n` tasks of the
forest. -/
theorem claim3_order_indexer (f : TaskForest) :
    flattenF (recalcOrderForest f) = numberFrom 0 (flattenF (sortForestByOrder f)) ∧
    (flattenF (recalcOrderForest f)).map Task.order_index =
      (List.range (countF f)).map (fun n => (n : Int)) := by
  have h := assignOrderF_spec (sortForestByOrder f) 0
  rw [recalcOrderForest]
  refine ⟨h.2, ?_⟩
  rw [h.2, numberFrom_map_order, flattenF_length, countF_sortForest,
    List.range_eq_range']

/-!
## Claim C1 — date and estimate aggregation
-/
/-- `mergeMin` with no accumulated value yet. -/
theorem mergeMin_none_left (x : Option Int) : mergeMin none x = x := by
  cases x <;> rfl

/-- `mergeMax` with no accumulated value yet. -/
theorem mergeMax_none_left (x : Option Int) : mergeMax none x = x := by
  cases x <;> rfl

/-- `mergeMin` is associative. -/
theorem mergeMin_assoc (a b c : Option Int) :
    mergeMin (mergeMin a b) c = mergeMin a (mergeMin b c) := by
  cases a <;> cases b <;> cases c <;> simp [mergeMin, min_assoc]

/-- `mergeMax` is associative. -/
theorem mergeMax_assoc (a b c : Option Int) :
    mergeMax (mergeMax a b) c = mergeMax a (mergeMax b c) := by
  cases a <;> cases b <;> cases c <;> simp [mergeMax, max_assoc]

/-- Head unfolding of `minOfList` through `mergeMin`. -/
theorem minOfList_cons (x : Int) (xs : List Int) :
    minOfList (x :: xs) = mergeMin (some x) (minOfList xs) := by
  rw [minOfList]; cases minOfList xs <;> rfl

/-- Head unfolding of `maxOfList` through `mergeMax`. -/
theorem maxOfList_cons (x : Int) (xs : List Int) :
    maxOfList (x :: xs) = mergeMax (some x) (maxOfList xs) := by
  rw [maxOfList]; cases maxOfList xs <;> rfl

/-- `minOfList` splits over append. -/
theorem minOfList_append (l1 l2 : List Int) :
    minOfList (l1 ++ l2) = mergeMin (minOfList l1) (minOfList l2) := by
  induction l1 with
  | nil => rw [List.nil_append, minOfList, mergeMin_none_left]
  | cons x xs ih =>
    rw [List.cons_append, minOfList_cons, ih, minOfList_cons, ← mergeMin_assoc]

/-- `maxOfList` splits over append. -/
theorem maxOfList_append (l1 l2 : List Int) :
    maxOfList (l1 ++ l2) = mergeMax (maxOfList l1) (maxOfList l2) := by
  induction l1 with
  | nil => rw [List.nil_append, maxOfList, mergeMax_none_left]
  | cons x xs ih =>
    rw [List.cons_append, maxOfList_cons, ih, maxOfList_cons, ← mergeMax_assoc]

/-- The accumulator's strict-less update is the min. -/
theorem minIf (s m : Int) : (if s < m then some s else some m) = some (min m s) := by
  rcases lt_or_le s m with h | h
  · rw [if_pos h, min_eq_right h.le]
  · rw [if_neg (not_lt.mpr h), min_eq_left h]

/-- The accumulator's strict-greater update is the max. -/
theorem maxIf (m e : Int) : (if m < e then some e else some m) = some (max m e) := by
  rcases lt_or_le m e with h | h
  · rw [if_pos h, max_eq_right h.le]
  · rw [if_neg (not_lt.mpr h), max_eq_left h]

/-- The source's accumulator update is exactly an optional min/max merge. -/
theorem rangeStep_eq (acc child : Option Int × Option Int) :
    rangeStep acc child = (mergeMin acc.1 child.1, mergeMax acc.2 child.2) := by
  obtain ⟨a1, a2⟩ := acc
  obtain ⟨c1, c2⟩ := child
  cases c1 <;> cases c2 <;> cases a1 <;> cases a2 <;>
    simp [rangeStep, mergeMin, mergeMax, minIf, maxIf]

mutual
/-- A tree always has at least one childless descendant. -/
theorem leavesT_ne_nil (c : TaskTree) : leavesT c ≠ [] := by
  cases c with
  | node t cs =>
    cases cs with
    | nil => simp [leavesT]
    | cons c cs' =>
      rw [leavesT]
      show leavesT c ++ leavesF cs' ≠ []
      intro h
      exact leavesT_ne_nil c (List.append_eq_nil.mp h).1
/-- A nonempty forest has at least one childless node. -/
theorem leavesF_ne_nil (c : TaskTree) (cs : List TaskTree) : leavesF (c :: cs) ≠ [] := by
  rw [leavesF]
  intro h
  exact leavesT_ne_nil c (List.append_eq_nil.mp h).1
end

/-- `minOfList` of a nonempty list is `some`. -/
theorem minOfList_isSome (l : List Int) (h : l ≠ []) : ∃ m, minOfList l = some m := by
  cases l with
  | nil => exact absurd rfl h
  | cons x xs =>
    rw [minOfList]
    cases minOfList xs with
    | none => exact ⟨x, rfl⟩
    | some m => exact ⟨min x m, rfl⟩

/-- `maxOfList` of a nonempty list is `some`. -/
theorem maxOfList_isSome (l : List Int) (h : l ≠ []) : ∃ m, maxOfList l = some m := by
  cases l with
  | nil => exact absurd rfl h
  | cons x xs =>
    rw [maxOfList]
    cases maxOfList xs with
    | none => exact ⟨x, rfl⟩
    | some m => exact ⟨max x m, rfl⟩

mutual
/-- `get_date_range` computes the min of the descendant leaves' start
dates and the max of their end dates. -/
theorem getDateRange_leaves (c : TaskTree) :
    getDateRange c = (minOfList ((leavesT c).map Task.start_date),
                      maxOfList ((leavesT c).map Task.end_date)) := by
  cases c with
  | node t cs =>
    cases cs with
    | nil => rfl
    | cons c cs' =>
      rw [getDateRange]
      show rangeFold (c :: cs') (none, none) = _
      rw [rangeFold_leaves (c :: cs')]
      show (mergeMin none _, mergeMax none _) = _
      rw [mergeMin_none_left, mergeMax_none_left]
      show _ = (minOfList ((leavesF (c :: cs')).map Task.start_date),
        maxOfList ((leavesF (c :: cs')).map Task.end_date))
      rfl
/-- The accumulator loop of `get_date_range` merges the leaves of the
remaining children into the accumulator. -/
theorem rangeFold_leaves (cs : List TaskTree) :
    ∀ acc, rangeFold cs acc =
      (mergeMin acc.1 (minOfList ((leavesF cs).map Task.start_date)),
       mergeMax acc.2 (maxOfList ((leavesF cs).map Task.end_date))) := by
  cases cs with
  | nil =>
    intro acc
    rw [rangeFold]
    simp [leavesF, minOfList, maxOfList, mergeMin, mergeMax]
  | cons c cs' =>
    intro acc
    rw [rangeFold, rangeFold_leaves cs', rangeStep_eq, getDateRange_leaves c]
    show (mergeMin (mergeMin acc.1 _) _, mergeMax (mergeMax acc.2 _) _) = _
    rw [mergeMin_assoc, mergeMax_assoc]
    show _ = (mergeMin acc.1 (minOfList ((leavesT c ++ leavesF cs').map Task.start_date)),
      mergeMax acc.2 (maxOfList ((leavesT c ++ leavesF cs').map Task.end_date)))
    rw [List.map_append, List.map_append, minOfList_append, maxOfList_append]
end

mutual
/-- `get_total_estimate` sums the descendant leaves' estimates. -/
theorem getTotalEstimate_leaves (c : TaskTree) :
    getTotalEstimate c = ((leavesT c).map Task.estimate).sum := by
  cases c with
  | node t cs =>
    cases cs with
    | nil => simp [getTotalEstimate, leavesT]
    | cons c cs' =>
      rw [getTotalEstimate]
      show estFold (c :: cs') 0 = _
      rw [estFold_leaves (c :: cs')]
      show 0 + ((leavesF (c :: cs')).map Task.estimate).sum = _
      rw [zero_add]
      rfl
/-- The accumulator loop of `get_total_estimate`. -/
theorem estFold_leaves (cs : List TaskTree) :
    ∀ acc, estFold cs acc = acc + ((leavesF cs).map Task.estimate).sum := by
  cases cs with
  | nil => intro acc; simp [estFold, leavesF]
  | cons c cs' =>
    intro acc
    rw [estFold, estFold_leaves cs', getTotalEstimate_leaves c]
    show acc + ((leavesT c).map Task.estimate).sum + ((leavesF cs').map Task.estimate).sum =
      acc + ((leavesT c ++ leavesF cs').map Task.estimate).sum
    rw [List.map_append, List.sum_append, add_assoc]
end

mutual
/-- The date pass leaves the childless nodes of a tree untouched. -/
theorem leavesT_recalcDatesT (c : TaskTree) : leavesT (recalcDatesT c) = leavesT c := by
  cases c with
  | node t cs =>
    cases cs with
    | nil => rfl
    | cons c cs' =>
      show leavesT (.node _ (recalcDatesT c :: recalcDatesF cs')) = _
      rw [leavesT]
      show leavesT (recalcDatesT c) ++ leavesF (recalcDatesF cs') = _
      rw [leavesT_recalcDatesT c, leavesF_recalcDatesF cs']
      rfl
/-- The date pass leaves the childless nodes of a forest untouched. -/
theorem leavesF_recalcDatesF (cs : TaskForest) : leavesF (recalcDatesF cs) = leavesF cs := by
  cases cs with
  | nil => rfl
  | cons c cs' =>
    rw [recalcDatesF, leavesF, leavesF, leavesT_recalcDatesT c, leavesF_recalcDatesF cs']
end

/-- Characterization of the date pass at a node with children: the
aggregated range is always present (a tree has a leaf), and the node's
dates, estimate and summary flag are overwritten accordingly. -/
theorem recalcDatesT_internal (t : Task) (c : TaskTree) (cs' : List TaskTree) :
    ∃ mn mx, getDateRange (.node t (c :: cs')) = (some mn, some mx) ∧
      recalcDatesT (.node t (c :: cs')) =
        .node { t with
                  start_date := mn
                  end_date := mx
                  estimate := getTotalEstimate (.node t (c :: cs'))
                  is_summary := true } (recalcDatesF (c :: cs')) := by
  have hne : leavesT (.node t (c :: cs')) ≠ [] := leavesT_ne_nil _
  obtain ⟨mn, hmn⟩ := minOfList_isSome ((leavesT (.node t (c :: cs'))).map Task.start_date)
    (by intro h; exact hne (List.map_eq_nil_iff.mp h))
  obtain ⟨mx, hmx⟩ := maxOfList_isSome ((leavesT (.node t (c :: cs'))).map Task.end_date)
    (by intro h; exact hne (List.map_eq_nil_iff.mp h))
  have hr : getDateRange (.node t (c :: cs')) = (some mn, some mx) := by
    rw [getDateRange_leaves, hmn, hmx]
  refine ⟨mn, mx, hr, ?_⟩
  rw [recalcDatesT]
  rw [hr]

mutual
/-- Every subtree of a date-passed tree with children has the claimed
aggregated dates, estimate and summary flag. -/
theorem recalcDatesT_claim (c : TaskTree) :
    ∀ s ∈ subtreesT (recalcDatesT c), s.children ≠ [] →
      minOfList ((leavesT s).map Task.start_date) = some s.root.start_date ∧
      maxOfList ((leavesT s).map Task.end_date) = some s.root.end_date ∧
      s.root.estimate = ((leavesT s).map Task.estimate).sum ∧
      s.root.is_summary = true := by
  cases c with
  | node t cs =>
    cases cs with
    | nil =>
      intro s hs hne
      rw [recalcDatesT, subtreesT] at hs
      rcases List.mem_cons.mp hs with rfl | hs
      · exact absurd rfl hne
      · exact absurd hs (by simp [subtreesF])
    | cons c cs' =>
      obtain ⟨mn, mx, hr, heq⟩ := recalcDatesT_internal t c cs'
      intro s hs hne
      rw [heq, subtreesT] at hs
      rcases List.mem_cons.mp hs with rfl | hs
      · simp only [root_node, children_node]
        have hL : leavesT (.node { t with
              start_date := mn
              end_date := mx
              estimate := getTotalEstimate (.node t (c :: cs'))
              is_summary := true }
            (recalcDatesF (c :: cs'))) = leavesT (.node t (c :: cs')) := by
          show leavesT (.node _ (recalcDatesT c :: recalcDatesF cs')) = _
          rw [leavesT]
          show leavesT (recalcDatesT c) ++ leavesF (recalcDatesF cs') = _
          rw [leavesT_recalcDatesT c, leavesF_recalcDatesF cs']
          rfl
        rw [hL]
        have hgd := getDateRange_leaves (.node t (c :: cs'))
        rw [hr] at hgd
        have h1 := congrArg Prod.fst hgd
        have h2 := congrArg Prod.snd hgd
        simp only at h1 h2
        exact ⟨h1.symm, h2.symm, getTotalEstimate_leaves (.node t (c :: cs')), trivial⟩
      · exact recalcDatesF_claim (c :: cs') s hs hne
/-- Every subtree of a date-passed forest with children has the claimed
aggregated dates, estimate and summary flag. -/
theorem recalcDatesF_claim (cs : TaskForest) :
    ∀ s ∈ subtreesF (recalcDatesF cs), s.children ≠ [] →
      minOfList ((leavesT s).map Task.start_date) = some s.root.start_date ∧
      maxOfList ((leavesT s).map Task.end_date) = some s.root.end_date ∧
      s.root.estimate = ((leavesT s).map Task.estimate).sum ∧
      s.root.is_summary = true := by
  cases cs with
  | nil => intro s hs; exact absurd hs (by simp [recalcDatesF, subtreesF])
  | cons c cs' =>
    intro s hs hne
    rw [recalcDatesF, subtreesF] at hs
    rcases List.mem_append.mp hs with hs | hs
    · exact recalcDatesT_claim c s hs hne
    · exact recalcDatesF_claim cs' s hs hne
end

/-- Claim C1: after the Date & Estimate Aggregator runs, every task with
at least one child has `start_date` the minimum start over its descendant
leaves, `end_date` the maximum end over them, `estimate` their summed
estimates, and `is_summary = true`; every childless task is left
unchanged. -/
theorem claim1_dates_aggregator (f : TaskForest) :
    (∀ s ∈ subtreesF (recalcDatesF f), s.children ≠ [] →
      minOfList ((leavesT s).map Task.start_date) = some s.root.start_date ∧
      maxOfList ((leavesT s).map Task.end_date) = some s.root.end_date ∧
      s.root.estimate = ((leavesT s).map Task.estimate).sum ∧
      s.root.is_summary = true) ∧
    leavesF (recalcDatesF f) = leavesF f :=
  ⟨recalcDatesF_claim f, leavesF_recalcDatesF f⟩

/-- A tree is one of its own subtrees. -/
theorem self_mem_subtreesT (x : TaskTree) : x ∈ subtreesT x := by
  cases x with
  | node t cs => rw [subtreesT]; exact List.mem_cons_self _ _

/-- The head tree is a subtree of the forest. -/
theorem head_mem_subtreesF (x : TaskTree) (xs : List TaskTree) :
    x ∈ subtreesF (x :: xs) := by
  rw [subtreesF]
  exact List.mem_append_left _ (self_mem_subtreesT x)

/-- Witness for C1 at the spec's example (a parent with leaves spanning
days 0–4 and 2–9 with estimates 4 and 6). -/
theorem claim1_witness :
    (recalcDatesT (.node sampleTask [.node (mkSample 2 (some 1) 1 1 0 4 "x") [],
        .node (mkSample 3 (some 1) 1 2 2 9 "x") []]) ∈
      subtreesF (recalcDatesF [.node sampleTask [.node (mkSample 2 (some 1) 1 1 0 4 "x") [],
        .node (mkSample 3 (some 1) 1 2 2 9 "x") []]]) ∧
      (recalcDatesT (.node sampleTask [.node (mkSample 2 (some 1) 1 1 0 4 "x") [],
        .node (mkSample 3 (some 1) 1 2 2 9 "x") []])).children ≠ []) ∧
    (minOfList ((leavesT (recalcDatesT (.node sampleTask
        [.node (mkSample 2 (some 1) 1 1 0 4 "x") [],
         .node (mkSample 3 (some 1) 1 2 2 9 "x") []]))).map Task.start_date) =
      some (recalcDatesT (.node sampleTask [.node (mkSample 2 (some 1) 1 1 0 4 "x") [],
        .node (mkSample 3 (some 1) 1 2 2 9 "x") []])).root.start_date ∧
     maxOfList ((leavesT (recalcDatesT (.node sampleTask
        [.node (mkSample 2 (some 1) 1 1 0 4 "x") [],
         .node (mkSample 3 (some 1) 1 2 2 9 "x") []]))).map Task.end_date) =
      some (recalcDatesT (.node sampleTask [.node (mkSample 2 (some 1) 1 1 0 4 "x") [],
        .node (mkSample 3 (some 1) 1 2 2 9 "x") []])).root.end_date ∧
     (recalcDatesT (.node sampleTask [.node (mkSample 2 (some 1) 1 1 0 4 "x") [],
        .node (mkSample 3 (some 1) 1 2 2 9 "x") []])).root.estimate =
      ((leavesT (recalcDatesT (.node sampleTask [.node (mkSample 2 (some 1) 1 1 0 4 "x") [],
        .node (mkSample 3 (some 1) 1 2 2 9 "x") []]))).map Task.estimate).sum ∧
     (recalcDatesT (.node sampleTask [.node (mkSample 2 (some 1) 1 1 0 4 "x") [],
        .node (mkSample 3 (some 1) 1 2 2 9 "x") []])).root.is_summary = true) := by
  have hmem : recalcDatesT (.node sampleTask [.node (mkSample 2 (some 1) 1 1 0 4 "x") [],
      .node (mkSample 3 (some 1) 1 2 2 9 "x") []]) ∈
      subtreesF (recalcDatesF [.node sampleTask [.node (mkSample 2 (some 1) 1 1 0 4 "x") [],
        .node (mkSample 3 (some 1) 1 2 2 9 "x") []]]) := by
    rw [recalcDatesF, recalcDatesF]
    exact head_mem_subtreesF _ _
  have hch : (recalcDatesT (.node sampleTask [.node (mkSample 2 (some 1) 1 1 0 4 "x") [],
      .node (mkSample 3 (some 1) 1 2 2 9 "x") []])).children ≠ [] := by
    obtain ⟨mn, mx, _, heq⟩ := recalcDatesT_internal sampleTask
      (.node (mkSample 2 (some 1) 1 1 0 4 "x") []) [.node (mkSample 3 (some 1) 1 2 2 9 "x") []]
    rw [heq, children_node, recalcDatesF]
    intro h
    exact List.noConfusion h
  exact ⟨⟨hmem, hch⟩,
    (claim1_dates_aggregator [.node sampleTask [.node (mkSample 2 (some 1) 1 1 0 4 "x") [],
      .node (mkSample 3 (some 1) 1 2 2 9 "x") []]]).1 _ hmem hch⟩

/-- The source's `statusRule` satisfies the claim's case analysis. -/
theorem statusRule_claimOK (l : List String) : statusClaimOK (statusRule l) l := by
  refine ⟨fun h => ?_, fun h hc => ?_, fun h hc hn => ?_, fun h hc hn => ?_⟩
  · rw [statusRule, if_pos h]
  · rw [statusRule, if_neg h, if_pos (by simp only [List.all_eq_true, decide_eq_true_eq]; exact hc)]
  · rw [statusRule, if_neg h,
      if_neg (by simp only [List.all_eq_true, decide_eq_true_eq]; exact hc),
      if_pos (by simp only [List.all_eq_true, decide_eq_true_eq]; exact hn)]
  · rw [statusRule, if_neg h,
      if_neg (by simp only [List.all_eq_true, decide_eq_true_eq]; exact hc),
      if_neg (by simp only [List.all_eq_true, decide_eq_true_eq]; exact hn)]

mutual
/-- Every subtree of a status-propagated tree with children carries the
status dictated by its children's resulting statuses. -/
theorem statusT_claim (c : TaskTree) :
    ∀ s ∈ subtreesT (statusT c), s.children ≠ [] →
      statusClaimOK s.root.status (s.children.map (fun x => x.root.status)) := by
  cases c with
  | node t cs =>
    cases cs with
    | nil =>
      intro s hs hne
      rw [statusT, subtreesT] at hs
      rcases List.mem_cons.mp hs with rfl | hs
      · exact absurd rfl hne
      · exact absurd hs (by simp [subtreesF])
    | cons c cs' =>
      intro s hs hne
      rw [statusT] at hs
      rw [subtreesT] at hs
      rcases List.mem_cons.mp hs with rfl | hs
      · simp only [root_node, children_node]
        exact statusRule_claimOK _
      · exact statusF_claim (c :: cs') s hs hne
/-- Every subtree of a status-propagated forest with children carries the
status dictated by its children's resulting statuses. -/
theorem statusF_claim (cs : TaskForest) :
    ∀ s ∈ subtreesF (statusF cs), s.children ≠ [] →
      statusClaimOK s.root.status (s.children.map (fun x => x.root.status)) := by
  cases cs with
  | nil => intro s hs; exact absurd hs (by simp [statusF, subtreesF])
  | cons c cs' =>
    intro s hs hne
    rw [statusF, subtreesF] at hs
    rcases List.mem_append.mp hs with hs | hs
    · exact statusT_claim c s hs hne
    · exact statusF_claim cs' s hs hne
end

mutual
/-- The status pass leaves the childless nodes of a tree untouched. -/
theorem leavesT_statusT (c : TaskTree) : leavesT (statusT c) = leavesT c := by
  cases c with
  | node t cs =>
    cases cs with
    | nil => rfl
    | cons c cs' =>
      show leavesT (.node _ (statusT c :: statusF cs')) = _
      rw [leavesT, leavesT]
      show leavesT (statusT c) ++ leavesF (statusF cs') = leavesT c ++ leavesF cs'
      rw [leavesT_statusT c, leavesF_statusF cs']
/-- The status pass leaves the childless nodes of a forest untouched. -/
theorem leavesF_statusF (cs : TaskForest) : leavesF (statusF cs) = leavesF cs := by
  cases cs with
  | nil => rfl
  | cons c cs' =>
    rw [statusF, leavesF, leavesF, leavesT_statusT c, leavesF_statusF cs']
end

mutual
/-- Up to the status field, the status pass changes nothing in a tree. -/
theorem flattenT_statusT_erase (c : TaskTree) :
    (flattenT (statusT c)).map eraseStatus = (flattenT c).map eraseStatus := by
  cases c with
  | node t cs =>
    cases cs with
    | nil => rfl
    | cons c cs' =>
      show (flattenT (.node { t with status := _ } (statusT c :: statusF cs'))).map eraseStatus = _
      rw [flattenT, flattenT]
      show eraseStatus { t with status := _ } :: (flattenF (statusT c :: statusF cs')).map eraseStatus =
        eraseStatus t :: (flattenF (c :: cs')).map eraseStatus
      have h1 : eraseStatus { t with status := statusRule ((statusF (c :: cs')).map (fun x => x.root.status)) } = eraseStatus t := rfl
      rw [h1]
      show eraseStatus t :: (flattenT (statusT c) ++ flattenF (statusF cs')).map eraseStatus =
        eraseStatus t :: (flattenT c ++ flattenF cs').map eraseStatus
      rw [List.map_append, List.map_append, flattenT_statusT_erase c, flattenF_statusF_erase cs']
/-- Up to the status field, the status pass changes nothing in a forest. -/
theorem flattenF_statusF_erase (cs : TaskForest) :
    (flattenF (statusF cs)).map eraseStatus = (flattenF cs).map eraseStatus := by
  cases cs with
  | nil => rfl
  | cons c cs' =>
    rw [statusF, flattenF, flattenF, List.map_append, List.map_append,
      flattenT_statusT_erase c, flattenF_statusF_erase cs']
end

/-- Claim C4: after the Status Propagator runs (children before parents),
every task with at least one child has the status dictated by its
children's resulting statuses — "In Progress" if any child is
"In Progress", else "Complete" if all are "Complete", else "Not Started" if
all are "Not Started", else "In Progress" — while childless tasks are kept
with all fields unchanged, and no field other than `status` changes
anywhere. -/
theorem claim4_status_propagator (f : TaskForest) :
    (∀ s ∈ subtreesF (statusF f), s.children ≠ [] →
      statusClaimOK s.root.status (s.children.map (fun x => x.root.status))) ∧
    leavesF (statusF f) = leavesF f ∧
    (flattenF (statusF f)).map eraseStatus = (flattenF f).map eraseStatus :=
  ⟨statusF_claim f, leavesF_statusF f, flattenF_statusF_erase f⟩

/-- Witness for C4: a parent of a "Complete" leaf and a "Not Started" leaf
(mixed, no "In Progress") is determined at a concrete forest. -/
theorem claim4_witness :
    ((TaskTree.node { sampleTask with status := "In Progress" }
        [.node (mkSample 2 (some 1) 1 1 0 1 "Complete") [],
         .node (mkSample 3 (some 1) 1 2 0 1 "Not Started") []]) ∈
      subtreesF (statusF [.node sampleTask
        [.node (mkSample 2 (some 1) 1 1 0 1 "Complete") [],
         .node (mkSample 3 (some 1) 1 2 0 1 "Not Started") []]]) ∧
      (TaskTree.node { sampleTask with status := "In Progress" }
        [.node (mkSample 2 (some 1) 1 1 0 1 "Complete") [],
         .node (mkSample 3 (some 1) 1 2 0 1 "Not Started") []]).children ≠ []) ∧
    statusClaimOK "In Progress" ["Complete", "Not Started"] := by
  constructor
  · constructor
    · decide
    · decide
  · have h := (claim4_status_propagator [.node sampleTask
        [.node (mkSample 2 (some 1) 1 1 0 1 "Complete") [],
         .node (mkSample 3 (some 1) 1 2 0 1 "Not Started") []]]).1
        (.node { sampleTask with status := "In Progress" }
          [.node (mkSample 2 (some 1) 1 1 0 1 "Complete") [],
           .node (mkSample 3 (some 1) 1 2 0 1 "Not Started") []])
        (by decide) (by decide)
    exact h

/-- Inserting into a sorted sibling list keeps it sorted. -/
theorem chain'_insertTreeOrd (x : TaskTree) (l : List TaskTree)
    (h : List.Chain' leOrd l) : List.Chain' leOrd (insertTreeOrd x l) := by
  induction l with
  | nil => simp [insertTreeOrd]
  | cons y ys ih =>
    rw [insertTreeOrd]
    by_cases hc : y.root.order_index < x.root.order_index
    · rw [if_pos hc]
      cases ys with
      | nil =>
        refine List.chain'_cons.mpr ⟨?_, List.chain'_singleton x⟩
        exact hc.le
      | cons z zs =>
        have hih := ih (List.Chain'.tail h)
        rw [insertTreeOrd] at hih ⊢
        by_cases hz : z.root.order_index < x.root.order_index
        · rw [if_pos hz] at hih ⊢
          exact List.chain'_cons.mpr ⟨(List.chain'_cons.mp h).1, hih⟩
        · rw [if_neg hz]
          exact List.chain'_cons.mpr ⟨hc.le,
            List.chain'_cons.mpr ⟨not_lt.mp hz, (List.chain'_cons.mp h).2⟩⟩
    · rw [if_neg hc]
      exact List.chain'_cons.mpr ⟨not_lt.mp hc, h⟩

/-- The sibling sort produces a sorted list. -/
theorem sortTreesByOrder_chain (l : List TaskTree) :
    List.Chain' leOrd (sortTreesByOrder l) := by
  induction l with
  | nil => simp [sortTreesByOrder]
  | cons x xs ih => exact chain'_insertTreeOrd x _ ih

/-- The sibling sort is the identity on a sorted list. -/
theorem sortTreesByOrder_of_sorted (l : List TaskTree) (h : List.Chain' leOrd l) :
    sortTreesByOrder l = l := by
  induction l with
  | nil => rfl
  | cons x xs ih =>
    rw [sortTreesByOrder, ih (List.Chain'.tail h)]
    cases xs with
    | nil => rfl
    | cons y ys =>
      rw [insertTreeOrd, if_neg (not_lt.mpr (List.chain'_cons.mp h).1)]

/-- Inserting a recursively sorted tree into a list of recursively sorted
trees. -/
theorem treesSorted_insertTreeOrd (x : TaskTree) (l : List TaskTree)
    (hx : treeSorted x) (hl : treesSorted l) : treesSorted (insertTreeOrd x l) := by
  induction l with
  | nil => exact ⟨hx, trivial⟩
  | cons y ys ih =>
    rw [insertTreeOrd]
    by_cases hc : y.root.order_index < x.root.order_index
    · rw [if_pos hc]
      exact ⟨hl.1, ih hl.2⟩
    · rw [if_neg hc]
      exact ⟨hx, hl⟩

/-- The sibling sort preserves recursive sortedness of the members. -/
theorem treesSorted_sortTreesByOrder (l : List TaskTree) (h : treesSorted l) :
    treesSorted (sortTreesByOrder l) := by
  induction l with
  | nil => trivial
  | cons x xs ih => exact treesSorted_insertTreeOrd x _ h.1 (ih h.2)

mutual
/-- Recursively sorting a tree yields a recursively sorted tree. -/
theorem treeSorted_sortTreeT (c : TaskTree) : treeSorted (sortTreeT c) := by
  cases c with
  | node t cs =>
    rw [sortTreeT]
    exact ⟨sortTreesByOrder_chain _, treesSorted_sortTreesByOrder _ (treesSorted_sortTreeF cs)⟩
/-- Recursively sorting the trees of a list yields recursively sorted
trees. -/
theorem treesSorted_sortTreeF (cs : List TaskTree) : treesSorted (sortTreeF cs) := by
  cases cs with
  | nil => trivial
  | cons c cs' =>
    rw [sortTreeF]
    exact ⟨treeSorted_sortTreeT c, treesSorted_sortTreeF cs'⟩
end

/-- The forest sort always produces a fully sorted forest. -/
theorem forestSorted_sortForest (f : TaskForest) : forestSorted (sortForestByOrder f) :=
  ⟨sortTreesByOrder_chain _, treesSorted_sortTreesByOrder _ (treesSorted_sortTreeF f)⟩

mutual
/-- The recursive sort is the identity on a recursively sorted tree. -/
theorem sortTreeT_of_sorted (c : TaskTree) (h : treeSorted c) : sortTreeT c = c := by
  cases c with
  | node t cs =>
    rw [sortTreeT, sortTreeF_of_sorted cs h.2, sortTreesByOrder_of_sorted cs h.1]
/-- The recursive sort is the identity on recursively sorted trees. -/
theorem sortTreeF_of_sorted (cs : List TaskTree) (h : treesSorted cs) : sortTreeF cs = cs := by
  cases cs with
  | nil => rfl
  | cons c cs' =>
    rw [sortTreeF, sortTreeT_of_sorted c h.1, sortTreeF_of_sorted cs' h.2]
end

/-- The forest sort is the identity on a fully sorted forest. -/
theorem sortForest_of_sorted (f : TaskForest) (h : forestSorted f) :
    sortForestByOrder f = f := by
  rw [sortForestByOrder, sortTreeF_of_sorted f h.2, sortTreesByOrder_of_sorted f h.1]

/-- The WBS assigner keeps every root's `order_index`. -/
theorem assignWbsT_root_order (pfx : String) (idx : Nat) (c : TaskTree) :
    (assignWbsT pfx idx c).root.order_index = c.root.order_index := by
  cases c with
  | node t cs => cases cs <;> simp [assignWbsT, root_node]

mutual
/-- The WBS assigner preserves recursive sortedness of a tree. -/
theorem treeSorted_assignWbsT (pfx : String) (idx : Nat) (c : TaskTree)
    (h : treeSorted c) : treeSorted (assignWbsT pfx idx c) := by
  cases c with
  | node t cs =>
    cases cs with
    | nil => exact ⟨List.chain'_nil, trivial⟩
    | cons c cs' =>
      have hf := sortedF_assignWbsF (wbsCodeOf pfx idx ++ ".") 1 (c :: cs') ⟨h.1, h.2⟩
      exact ⟨hf.1, hf.2⟩
/-- The WBS assigner preserves sortedness along a sibling list. -/
theorem sortedF_assignWbsF (pfx : String) (idx : Nat) (cs : List TaskTree)
    (h : List.Chain' leOrd cs ∧ treesSorted cs) :
    List.Chain' leOrd (assignWbsF pfx idx cs) ∧ treesSorted (assignWbsF pfx idx cs) := by
  cases cs with
  | nil => exact ⟨List.chain'_nil, trivial⟩
  | cons c cs' =>
    have hf := sortedF_assignWbsF pfx (idx + 1) cs' ⟨List.Chain'.tail h.1, h.2.2⟩
    refine ⟨?_, treeSorted_assignWbsT pfx idx c h.2.1, hf.2⟩
    rw [assignWbsF]
    cases cs' with
    | nil => simp [assignWbsF]
    | cons d ds =>
      refine List.chain'_cons.mpr ⟨?_, by rw [assignWbsF] at hf; exact hf.1⟩
      show (assignWbsT pfx idx c).root.order_index ≤
        (assignWbsT pfx (idx + 1) d).root.order_index
      rw [assignWbsT_root_order, assignWbsT_root_order]
      exact (List.chain'_cons.mp h.1).1
end

/-- The date pass keeps every root's `order_index`. -/
theorem recalcDatesT_root_order (c : TaskTree) :
    (recalcDatesT c).root.order_index = c.root.order_index := by
  cases c with
  | node t cs =>
    cases cs with
    | nil => rfl
    | cons c cs' =>
      obtain ⟨mn, mx, _, heq⟩ := recalcDatesT_internal t c cs'
      rw [heq, root_node, root_node]

mutual
/-- The date pass preserves recursive sortedness of a tree. -/
theorem treeSorted_recalcDatesT (c : TaskTree) (h : treeSorted c) :
    treeSorted (recalcDatesT c) := by
  cases c with
  | node t cs =>
    cases cs with
    | nil => exact ⟨List.chain'_nil, trivial⟩
    | cons c cs' =>
      obtain ⟨mn, mx, _, heq⟩ := recalcDatesT_internal t c cs'
      rw [heq]
      have hf := sortedF_recalcDatesF (c :: cs') ⟨h.1, h.2⟩
      exact ⟨hf.1, hf.2⟩
/-- The date pass preserves sortedness along a sibling list. -/
theorem sortedF_recalcDatesF (cs : List TaskTree)
    (h : List.Chain' leOrd cs ∧ treesSorted cs) :
    List.Chain' leOrd (recalcDatesF cs) ∧ treesSorted (recalcDatesF cs) := by
  cases cs with
  | nil => exact ⟨List.chain'_nil, trivial⟩
  | cons c cs' =>
    have hf := sortedF_recalcDatesF cs' ⟨List.Chain'.tail h.1, h.2.2⟩
    refine ⟨?_, treeSorted_recalcDatesT c h.2.1, hf.2⟩
    rw [recalcDatesF]
    cases cs' with
    | nil => simp [recalcDatesF]
    | cons d ds =>
      refine List.chain'_cons.mpr ⟨?_, by rw [recalcDatesF] at hf; exact hf.1⟩
      show (recalcDatesT c).root.order_index ≤ (recalcDatesT d).root.order_index
      rw [recalcDatesT_root_order, recalcDatesT_root_order]
      exact (List.chain'_cons.mp h.1).1
end

/-- The status pass keeps every root's `order_index`. -/
theorem statusT_root_order (c : TaskTree) :
    (statusT c).root.order_index = c.root.order_index := by
  cases c with
  | node t cs => cases cs <;> simp [statusT, root_node]

mutual
/-- The status pass preserves recursive sortedness of a tree. -/
theorem treeSorted_statusT (c : TaskTree) (h : treeSorted c) :
    treeSorted (statusT c) := by
  cases c with
  | node t cs =>
    cases cs with
    | nil => exact ⟨List.chain'_nil, trivial⟩
    | cons c cs' =>
      have hf := sortedF_statusF (c :: cs') ⟨h.1, h.2⟩
      refine ⟨?_, ?_⟩
      · show List.Chain' leOrd (statusF (c :: cs'))
        exact hf.1
      · show treesSorted (statusF (c :: cs'))
        exact hf.2
/-- The status pass preserves sortedness along a sibling list. -/
theorem sortedF_statusF (cs : List TaskTree)
    (h : List.Chain' leOrd cs ∧ treesSorted cs) :
    List.Chain' leOrd (statusF cs) ∧ treesSorted (statusF cs) := by
  cases cs with
  | nil => exact ⟨List.chain'_nil, trivial⟩
  | cons c cs' =>
    have hf := sortedF_statusF cs' ⟨List.Chain'.tail h.1, h.2.2⟩
    refine ⟨?_, treeSorted_statusT c h.2.1, hf.2⟩
    rw [statusF]
    cases cs' with
    | nil => simp [statusF]
    | cons d ds =>
      refine List.chain'_cons.mpr ⟨?_, by rw [statusF] at hf; exact hf.1⟩
      show (statusT c).root.order_index ≤ (statusT d).root.order_index
      rw [statusT_root_order, statusT_root_order]
      exact (List.chain'_cons.mp h.1).1
end

/-- A tree always counts at least one task. -/
theorem countT_pos (c : TaskTree) : 0 < countT c := by
  cases c with
  | node t cs => rw [countT]; omega

/-- The order pass stamps the starting counter on the root. -/
theorem assignOrderT_root_order (c : TaskTree) (k : Nat) :
    (assignOrderT c k).1.root.order_index = (k : Int) := by
  cases c with
  | node t cs => cases cs <;> simp [assignOrderT, root_node]

mutual
/-- The order pass produces a recursively sorted tree. -/
theorem treeSorted_assignOrderT (c : TaskTree) (k : Nat) :
    treeSorted (assignOrderT c k).1 := by
  cases c with
  | node t cs =>
    cases cs with
    | nil =>
      show treeSorted (.node _ [])
      exact ⟨List.chain'_nil, trivial⟩
    | cons c cs' =>
      have hf := sortedF_assignOrderF (c :: cs') (k + 1)
      show treeSorted (.node _ (assignOrderF (c :: cs') (k + 1)).1)
      exact ⟨hf.1, hf.2.1⟩
/-- The order pass produces a sorted sibling list whose members all carry
indices at least the starting counter. -/
theorem sortedF_assignOrderF (cs : List TaskTree) (k : Nat) :
    List.Chain' leOrd (assignOrderF cs k).1 ∧ treesSorted (assignOrderF cs k).1 ∧
    ∀ x ∈ (assignOrderF cs k).1, (k : Int) ≤ x.root.order_index := by
  cases cs with
  | nil =>
    refine ⟨List.chain'_nil, trivial, ?_⟩
    intro x hx
    exact absurd hx (by simp [assignOrderF])
  | cons c cs' =>
    have h1 := assignOrderT_spec c k
    have hf := sortedF_assignOrderF cs' (assignOrderT c k).2
    have hshow : (assignOrderF (c :: cs') k).1 =
        (assignOrderT c k).1 :: (assignOrderF cs' (assignOrderT c k).2).1 := by
      rw [assignOrderF]
    rw [hshow]
    have hk1 : (k : Int) ≤ ((assignOrderT c k).2 : Int) := by
      rw [h1.1]
      exact_mod_cast Nat.le_add_right k (countT c)
    refine ⟨?_, ⟨treeSorted_assignOrderT c k, hf.2.1⟩, ?_⟩
    · refine List.chain'_cons'.mpr ⟨?_, hf.1⟩
      intro y hy
      have hy' := List.mem_of_mem_head? hy
      have := hf.2.2 y hy'
      show (assignOrderT c k).1.root.order_index ≤ y.root.order_index
      rw [assignOrderT_root_order]
      exact le_trans hk1 this
    · intro x hx
      rcases List.mem_cons.mp hx with rfl | hx
      · rw [assignOrderT_root_order]
      · exact le_trans hk1 (hf.2.2 x hx)
end

/-- The order pass output is a fully sorted forest. -/
theorem forestSorted_recalcOrder (f : TaskForest) :
    forestSorted (recalcOrderForest f) := by
  rw [recalcOrderForest]
  have hf := sortedF_assignOrderF (sortForestByOrder f) 0
  exact ⟨hf.1, hf.2.1⟩

/-- The status pass preserves full sortedness of a forest. -/
theorem forestSorted_statusF (f : TaskForest) (h : forestSorted f) :
    forestSorted (statusF f) := by
  have hf := sortedF_statusF f ⟨h.1, h.2⟩
  exact ⟨hf.1, hf.2⟩

/-- Rewriting a task's WBS fields with their current values is the
identity. -/
theorem task_set_wbs_self (t : Task) (w : String) (b : Bool) (hw : t.wbs_code = w)
    (hb : t.is_summary = b) : ({ t with wbs_code := w, is_summary := b } : Task) = t := by
  subst hw hb; rfl

/-- Rewriting a task's aggregated fields with their current values is the
identity. -/
theorem task_set_dates_self (t : Task) (mn mx : Int) (e : Rat) (b : Bool)
    (h1 : t.start_date = mn) (h2 : t.end_date = mx) (h3 : t.estimate = e)
    (h4 : t.is_summary = b) :
    ({ t with start_date := mn, end_date := mx, estimate := e, is_summary := b } : Task) = t := by
  subst h1 h2 h3 h4; rfl

/-- Rewriting a task's order index with its current value is the
identity. -/
theorem task_set_order_self (t : Task) (k : Int) (h : t.order_index = k) :
    ({ t with order_index := k } : Task) = t := by
  subst h; rfl

/-- Rewriting a task's status with its current value is the identity. -/
theorem task_set_status_self (t : Task) (v : String) (h : t.status = v) :
    ({ t with status := v } : Task) = t := by
  subst h; rfl

mutual
/-- The WBS assigner is the identity on a tree already satisfying its
postcondition. -/
theorem assignWbsT_of_ok (pfx : String) (idx : Nat) (c : TaskTree)
    (h : wbsOKT (wbsCodeOf pfx idx) c) : assignWbsT pfx idx c = c := by
  cases c with
  | node t cs =>
    cases cs with
    | nil =>
      show TaskTree.node { t with wbs_code := wbsCodeOf pfx idx, is_summary := false } [] =
        TaskTree.node t []
      have hb : t.is_summary = false := h.2.1
      rw [task_set_wbs_self t _ _ h.1 hb]
    | cons c cs' =>
      show TaskTree.node { t with wbs_code := wbsCodeOf pfx idx, is_summary := true }
          (assignWbsF (wbsCodeOf pfx idx ++ ".") 1 (c :: cs')) = TaskTree.node t (c :: cs')
      have hb : t.is_summary = true := h.2.1
      rw [task_set_wbs_self t _ _ h.1 hb,
        assignWbsF_of_ok (wbsCodeOf pfx idx ++ ".") 1 (c :: cs') h.2.2]
/-- The WBS assigner is the identity on a sibling list already satisfying
its postcondition. -/
theorem assignWbsF_of_ok (pfx : String) (idx : Nat) (cs : List TaskTree)
    (h : wbsOKF pfx idx cs) : assignWbsF pfx idx cs = cs := by
  cases cs with
  | nil => rfl
  | cons c cs' =>
    rw [assignWbsF, assignWbsT_of_ok pfx idx c h.1, assignWbsF_of_ok pfx (idx + 1) cs' h.2]
end

mutual
/-- The date pass preserves the WBS postcondition of a tree. -/
theorem wbsOKT_recalcDatesT (code : String) (c : TaskTree) (h : wbsOKT code c) :
    wbsOKT code (recalcDatesT c) := by
  cases c with
  | node t cs =>
    cases cs with
    | nil => exact h
    | cons c cs' =>
      obtain ⟨mn, mx, _, heq⟩ := recalcDatesT_internal t c cs'
      rw [heq]
      refine ⟨h.1, ?_, ?_⟩
      · show (true : Bool) = !(recalcDatesF (c :: cs')).isEmpty
        rw [recalcDatesF]
        rfl
      · exact wbsOKF_recalcDatesF (code ++ ".") 1 (c :: cs') h.2.2
/-- The date pass preserves the WBS postcondition of a sibling list. -/
theorem wbsOKF_recalcDatesF (pfx : String) (idx : Nat) (cs : List TaskTree)
    (h : wbsOKF pfx idx cs) : wbsOKF pfx idx (recalcDatesF cs) := by
  cases cs with
  | nil => trivial
  | cons c cs' =>
    rw [recalcDatesF]
    exact ⟨wbsOKT_recalcDatesT _ c h.1, wbsOKF_recalcDatesF pfx (idx + 1) cs' h.2⟩
end

mutual
/-- The order pass preserves the WBS postcondition of a tree. -/
theorem wbsOKT_assignOrderT (code : String) (c : TaskTree) (k : Nat) (h : wbsOKT code c) :
    wbsOKT code (assignOrderT c k).1 := by
  cases c with
  | node t cs =>
    cases cs with
    | nil =>
      show wbsOKT code (.node { t with order_index := (k : Int) } [])
      exact ⟨h.1, h.2.1, trivial⟩
    | cons c cs' =>
      show wbsOKT code (.node { t with order_index := (k : Int) }
        (assignOrderF (c :: cs') (k + 1)).1)
      refine ⟨h.1, ?_, wbsOKF_assignOrderF (code ++ ".") 1 (c :: cs') (k + 1) h.2.2⟩
      show t.is_summary = !(assignOrderF (c :: cs') (k + 1)).1.isEmpty
      rw [assignOrderF]
      exact h.2.1
/-- The order pass preserves the WBS postcondition of a sibling list. -/
theorem wbsOKF_assignOrderF (pfx : String) (idx : Nat) (cs : List TaskTree) (k : Nat)
    (h : wbsOKF pfx idx cs) : wbsOKF pfx idx (assignOrderF cs k).1 := by
  cases cs with
  | nil => trivial
  | cons c cs' =>
    show wbsOKF pfx idx ((assignOrderT c k).1 :: (assignOrderF cs' (assignOrderT c k).2).1)
    exact ⟨wbsOKT_assignOrderT _ c k h.1,
      wbsOKF_assignOrderF pfx (idx + 1) cs' (assignOrderT c k).2 h.2⟩
end

mutual
/-- The status pass preserves the WBS postcondition of a tree. -/
theorem wbsOKT_statusT (code : String) (c : TaskTree) (h : wbsOKT code c) :
    wbsOKT code (statusT c) := by
  cases c with
  | node t cs =>
    cases cs with
    | nil => exact h
    | cons c cs' =>
      show wbsOKT code (.node { t with
        status := statusRule ((statusF (c :: cs')).map (fun x => x.root.status)) }
        (statusF (c :: cs')))
      refine ⟨h.1, ?_, wbsOKF_statusF (code ++ ".") 1 (c :: cs') h.2.2⟩
      show t.is_summary = !(statusF (c :: cs')).isEmpty
      rw [statusF]
      exact h.2.1
/-- The status pass preserves the WBS postcondition of a sibling list. -/
theorem wbsOKF_statusF (pfx : String) (idx : Nat) (cs : List TaskTree)
    (h : wbsOKF pfx idx cs) : wbsOKF pfx idx (statusF cs) := by
  cases cs with
  | nil => trivial
  | cons c cs' =>
    rw [statusF]
    exact ⟨wbsOKT_statusT _ c h.1, wbsOKF_statusF pfx (idx + 1) cs' h.2⟩
end

/-- Unfolding of the leaves of a node with children. -/
theorem leavesT_node_cons (t : Task) (c : TaskTree) (cs' : List TaskTree) :
    leavesT (.node t (c :: cs')) = leavesF (c :: cs') := by
  rw [leavesT]

/-- A projection unaffected by an erasure transfers equality of erased
lists to equality of projected lists. -/
theorem map_field_of_map_erase {α : Type} (g : Task → α) (e : Task → Task)
    (hg : ∀ t, g (e t) = g t) (l1 l2 : List Task) (h : l1.map e = l2.map e) :
    l1.map g = l2.map g := by
  have h1 := congrArg (List.map g) h
  rw [List.map_map, List.map_map] at h1
  have hge : g ∘ e = g := funext hg
  rwa [hge] at h1

mutual
/-- Up to `order_index`, the order pass keeps the leaves of a tree. -/
theorem leavesT_assignOrderT_erase (c : TaskTree) (k : Nat) :
    (leavesT (assignOrderT c k).1).map eraseOrder = (leavesT c).map eraseOrder := by
  cases c with
  | node t cs =>
    cases cs with
    | nil => rfl
    | cons c cs' =>
      show (leavesT (.node { t with order_index := (k : Int) }
        ((assignOrderT c (k + 1)).1 :: (assignOrderF cs' (assignOrderT c (k + 1)).2).1))).map
          eraseOrder = _
      rw [leavesT]
      show (leavesF ((assignOrderT c (k + 1)).1 ::
        (assignOrderF cs' (assignOrderT c (k + 1)).2).1)).map eraseOrder = _
      rw [leavesF, leavesT_node_cons, leavesF, List.map_append, List.map_append,
        leavesT_assignOrderT_erase c (k + 1),
        leavesF_assignOrderF_erase cs' (assignOrderT c (k + 1)).2]
/-- Up to `order_index`, the order pass keeps the leaves of a sibling
list. -/
theorem leavesF_assignOrderF_erase (cs : List TaskTree) (k : Nat) :
    (leavesF (assignOrderF cs k).1).map eraseOrder = (leavesF cs).map eraseOrder := by
  cases cs with
  | nil => rfl
  | cons c cs' =>
    show (leavesF ((assignOrderT c k).1 :: (assignOrderF cs' (assignOrderT c k).2).1)).map
      eraseOrder = _
    rw [leavesF, leavesF, List.map_append, List.map_append, leavesT_assignOrderT_erase c k,
      leavesF_assignOrderF_erase cs' (assignOrderT c k).2]
end

mutual
/-- The date pass is the identity on a tree already satisfying its
postcondition. -/
theorem recalcDatesT_of_ok (c : TaskTree) (h : datesOKT c) : recalcDatesT c = c := by
  cases c with
  | node t cs =>
    cases cs with
    | nil => rfl
    | cons c cs' =>
      obtain ⟨mn, mx, hr, heq⟩ := recalcDatesT_internal t c cs'
      rw [heq]
      have hgd := getDateRange_leaves (.node t (c :: cs'))
      rw [hr, leavesT_node_cons] at hgd
      have h1 := congrArg Prod.fst hgd
      have h2 := congrArg Prod.snd hgd
      simp only at h1 h2
      have hd := h.1 (by simp)
      have hmn : t.start_date = mn := by
        have := h1.trans hd.1
        exact (Option.some.inj this).symm
      have hmx : t.end_date = mx := by
        have := h2.trans hd.2.1
        exact (Option.some.inj this).symm
      have hest : t.estimate = getTotalEstimate (.node t (c :: cs')) := by
        rw [getTotalEstimate_leaves, leavesT_node_cons]
        exact hd.2.2.1
      rw [task_set_dates_self t mn mx _ true hmn hmx hest hd.2.2.2,
        recalcDatesF_of_ok (c :: cs') h.2]
/-- The date pass is the identity on a sibling list already satisfying its
postcondition. -/
theorem recalcDatesF_of_ok (cs : List TaskTree) (h : datesOKF cs) :
    recalcDatesF cs = cs := by
  cases cs with
  | nil => rfl
  | cons c cs' =>
    rw [recalcDatesF, recalcDatesT_of_ok c h.1, recalcDatesF_of_ok cs' h.2]
end

mutual
/-- The date pass establishes its postcondition on every tree. -/
theorem datesOKT_recalcDatesT (c : TaskTree) : datesOKT (recalcDatesT c) := by
  cases c with
  | node t cs =>
    cases cs with
    | nil => exact ⟨fun hne => absurd rfl hne, trivial⟩
    | cons c cs' =>
      obtain ⟨mn, mx, hr, heq⟩ := recalcDatesT_internal t c cs'
      rw [heq]
      constructor
      · intro _
        have hlv : leavesF (recalcDatesF (c :: cs')) = leavesF (c :: cs') :=
          leavesF_recalcDatesF _
        rw [hlv]
        have hgd := getDateRange_leaves (.node t (c :: cs'))
        rw [hr, leavesT_node_cons] at hgd
        have h1 := congrArg Prod.fst hgd
        have h2 := congrArg Prod.snd hgd
        simp only at h1 h2
        refine ⟨h1.symm, h2.symm, ?_, rfl⟩
        show getTotalEstimate (.node t (c :: cs')) = _
        rw [getTotalEstimate_leaves, leavesT_node_cons]
      · exact datesOKF_recalcDatesF (c :: cs')
/-- The date pass establishes its postcondition on every sibling list. -/
theorem datesOKF_recalcDatesF (cs : List TaskTree) : datesOKF (recalcDatesF cs) := by
  cases cs with
  | nil => trivial
  | cons c cs' =>
    rw [recalcDatesF]
    exact ⟨datesOKT_recalcDatesT c, datesOKF_recalcDatesF cs'⟩
end

mutual
/-- The order pass preserves the date postcondition of a tree. -/
theorem datesOKT_assignOrderT (c : TaskTree) (k : Nat) (h : datesOKT c) :
    datesOKT (assignOrderT c k).1 := by
  cases c with
  | node t cs =>
    cases cs with
    | nil =>
      show datesOKT (.node { t with order_index := (k : Int) } [])
      exact ⟨fun hne => absurd rfl hne, trivial⟩
    | cons c cs' =>
      show datesOKT (.node { t with order_index := (k : Int) }
        (assignOrderF (c :: cs') (k + 1)).1)
      constructor
      · intro _
        have herase := leavesF_assignOrderF_erase (c :: cs') (k + 1)
        have hstart := map_field_of_map_erase Task.start_date eraseOrder (fun t => rfl) _ _ herase
        have hend := map_field_of_map_erase Task.end_date eraseOrder (fun t => rfl) _ _ herase
        have hest := map_field_of_map_erase Task.estimate eraseOrder (fun t => rfl) _ _ herase
        rw [hstart, hend, hest]
        exact h.1 (by simp)
      · exact datesOKF_assignOrderF (c :: cs') (k + 1) h.2
/-- The order pass preserves the date postcondition of a sibling list. -/
theorem datesOKF_assignOrderF (cs : List TaskTree) (k : Nat) (h : datesOKF cs) :
    datesOKF (assignOrderF cs k).1 := by
  cases cs with
  | nil => trivial
  | cons c cs' =>
    show datesOKF ((assignOrderT c k).1 :: (assignOrderF cs' (assignOrderT c k).2).1)
    exact ⟨datesOKT_assignOrderT c k h.1,
      datesOKF_assignOrderF cs' (assignOrderT c k).2 h.2⟩
end

mutual
/-- The status pass preserves the date postcondition of a tree. -/
theorem datesOKT_statusT (c : TaskTree) (h : datesOKT c) : datesOKT (statusT c) := by
  cases c with
  | node t cs =>
    cases cs with
    | nil => exact h
    | cons c cs' =>
      show datesOKT (.node { t with
        status := statusRule ((statusF (c :: cs')).map (fun x => x.root.status)) }
        (statusF (c :: cs')))
      constructor
      · intro _
        rw [leavesF_statusF]
        exact h.1 (by simp)
      · exact datesOKF_statusF (c :: cs') h.2
/-- The status pass preserves the date postcondition of a sibling list. -/
theorem datesOKF_statusF (cs : List TaskTree) (h : datesOKF cs) :
    datesOKF (statusF cs) := by
  cases cs with
  | nil => trivial
  | cons c cs' =>
    rw [statusF]
    exact ⟨datesOKT_statusT c h.1, datesOKF_statusF cs' h.2⟩
end

mutual
/-- The order pass preserves the size of a tree. -/
theorem countT_assignOrderT (c : TaskTree) (k : Nat) :
    countT (assignOrderT c k).1 = countT c := by
  cases c with
  | node t cs =>
    cases cs with
    | nil => rfl
    | cons c cs' =>
      show countT (.node _ (assignOrderF (c :: cs') (k + 1)).1) = _
      rw [countT, countT, countF_assignOrderF (c :: cs') (k + 1)]
/-- The order pass preserves the size of a sibling list. -/
theorem countF_assignOrderF (cs : List TaskTree) (k : Nat) :
    countF (assignOrderF cs k).1 = countF cs := by
  cases cs with
  | nil => rfl
  | cons c cs' =>
    show countF ((assignOrderT c k).1 :: (assignOrderF cs' (assignOrderT c k).2).1) = _
    rw [countF, countF, countT_assignOrderT c k,
      countF_assignOrderF cs' (assignOrderT c k).2]
end

mutual
/-- The status pass preserves the size of a tree. -/
theorem countT_statusT (c : TaskTree) : countT (statusT c) = countT c := by
  cases c with
  | node t cs =>
    cases cs with
    | nil => rfl
    | cons c cs' =>
      show countT (.node _ (statusF (c :: cs'))) = _
      rw [countT, countT, countF_statusF (c :: cs')]
/-- The status pass preserves the size of a sibling list. -/
theorem countF_statusF (cs : List TaskTree) : countF (statusF cs) = countF cs := by
  cases cs with
  | nil => rfl
  | cons c cs' =>
    rw [statusF, countF, countF, countT_statusT c, countF_statusF cs']
end

mutual
/-- The order pass is the identity on a tree already carrying its
numbering. -/
theorem assignOrderT_of_ok (c : TaskTree) (k : Nat) (h : orderOKT k c) :
    (assignOrderT c k).1 = c := by
  cases c with
  | node t cs =>
    cases cs with
    | nil =>
      show TaskTree.node { t with order_index := (k : Int) } [] = .node t []
      rw [task_set_order_self t _ h.1]
    | cons c cs' =>
      show TaskTree.node { t with order_index := (k : Int) }
        (assignOrderF (c :: cs') (k + 1)).1 = .node t (c :: cs')
      rw [task_set_order_self t _ h.1, assignOrderF_of_ok (c :: cs') (k + 1) h.2]
/-- The order pass is the identity on a sibling list already carrying its
numbering. -/
theorem assignOrderF_of_ok (cs : List TaskTree) (k : Nat) (h : orderOKF k cs) :
    (assignOrderF cs k).1 = cs := by
  cases cs with
  | nil => rfl
  | cons c cs' =>
    show (assignOrderT c k).1 :: (assignOrderF cs' (assignOrderT c k).2).1 = c :: cs'
    have h2 : (assignOrderT c k).2 = k + countT c := (assignOrderT_spec c k).1
    rw [assignOrderT_of_ok c k h.1, h2, assignOrderF_of_ok cs' (k + countT c) h.2]
end

mutual
/-- The order pass establishes its numbering postcondition on a tree. -/
theorem orderOKT_assignOrderT (c : TaskTree) (k : Nat) :
    orderOKT k (assignOrderT c k).1 := by
  cases c with
  | node t cs =>
    cases cs with
    | nil =>
      show orderOKT k (.node { t with order_index := (k : Int) } [])
      exact ⟨rfl, trivial⟩
    | cons c cs' =>
      show orderOKT k (.node { t with order_index := (k : Int) }
        (assignOrderF (c :: cs') (k + 1)).1)
      exact ⟨rfl, orderOKF_assignOrderF (c :: cs') (k + 1)⟩
/-- The order pass establishes its numbering postcondition on a sibling
list. -/
theorem orderOKF_assignOrderF (cs : List TaskTree) (k : Nat) :
    orderOKF k (assignOrderF cs k).1 := by
  cases cs with
  | nil => trivial
  | cons c cs' =>
    show orderOKF k ((assignOrderT c k).1 :: (assignOrderF cs' (assignOrderT c k).2).1)
    refine ⟨orderOKT_assignOrderT c k, ?_⟩
    show orderOKF (k + countT (assignOrderT c k).1) (assignOrderF cs' (assignOrderT c k).2).1
    rw [countT_assignOrderT c k, ← (assignOrderT_spec c k).1]
    exact orderOKF_assignOrderF cs' (assignOrderT c k).2
end

mutual
/-- The status pass preserves the order-numbering postcondition of a
tree. -/
theorem orderOKT_statusT (c : TaskTree) (k : Nat) (h : orderOKT k c) :
    orderOKT k (statusT c) := by
  cases c with
  | node t cs =>
    cases cs with
    | nil => exact h
    | cons c cs' =>
      show orderOKT k (.node { t with
        status := statusRule ((statusF (c :: cs')).map (fun x => x.root.status)) }
        (statusF (c :: cs')))
      exact ⟨h.1, orderOKF_statusF (c :: cs') (k + 1) h.2⟩
/-- The status pass preserves the order-numbering postcondition of a
sibling list. -/
theorem orderOKF_statusF (cs : List TaskTree) (k : Nat) (h : orderOKF k cs) :
    orderOKF k (statusF cs) := by
  cases cs with
  | nil => trivial
  | cons c cs' =>
    rw [statusF]
    refine ⟨orderOKT_statusT c k h.1, ?_⟩
    show orderOKF (k + countT (statusT c)) (statusF cs')
    rw [countT_statusT c]
    exact orderOKF_statusF cs' (k + countT c) h.2
end

mutual
/-- The status pass is the identity on a tree already carrying its derived
statuses. -/
theorem statusT_of_ok (c : TaskTree) (h : statusOKT c) : statusT c = c := by
  cases c with
  | node t cs =>
    cases cs with
    | nil => rfl
    | cons c cs' =>
      show TaskTree.node { t with
          status := statusRule ((statusF (c :: cs')).map (fun x => x.root.status)) }
        (statusF (c :: cs')) = .node t (c :: cs')
      rw [statusF_of_ok (c :: cs') h.2]
      rw [task_set_status_self t _ (h.1 (by simp))]
/-- The status pass is the identity on a sibling list already carrying its
derived statuses. -/
theorem statusF_of_ok (cs : List TaskTree) (h : statusOKF cs) : statusF cs = cs := by
  cases cs with
  | nil => rfl
  | cons c cs' =>
    rw [statusF, statusT_of_ok c h.1, statusF_of_ok cs' h.2]
end

mutual
/-- The status pass establishes its postcondition on every tree. -/
theorem statusOKT_statusT (c : TaskTree) : statusOKT (statusT c) := by
  cases c with
  | node t cs =>
    cases cs with
    | nil => exact ⟨fun hne => absurd rfl hne, trivial⟩
    | cons c cs' =>
      show statusOKT (.node { t with
        status := statusRule ((statusF (c :: cs')).map (fun x => x.root.status)) }
        (statusF (c :: cs')))
      exact ⟨fun _ => rfl, statusOKF_statusF (c :: cs')⟩
/-- The status pass establishes its postcondition on every sibling
list. -/
theorem statusOKF_statusF (cs : List TaskTree) : statusOKF (statusF cs) := by
  cases cs with
  | nil => trivial
  | cons c cs' =>
    rw [statusF]
    exact ⟨statusOKT_statusT c, statusOKF_statusF cs'⟩
end

/-- The order indexer skips its initial sort on an already sorted
forest. -/
theorem recalcOrder_of_sorted (x : TaskForest) (h : forestSorted x) :
    recalcOrderForest x = (assignOrderF x 0).1 := by
  rw [recalcOrderForest, sortForest_of_sorted x h]

/-- Claim C6: running the recalculation pipeline (WBS codes, date/estimate
aggregation, order indices, status propagation) a second time on the
output of a first run changes no task field - each stage is the identity
on the already-consistent forest. -/
theorem claim6_pipeline_idempotent (f : TaskForest) :
    runPipeline (runPipeline f) = runPipeline f := by
  have hsw : forestSorted (updateWbsForest f) := by
    have h0 := forestSorted_sortForest f
    have := sortedF_assignWbsF "" 1 (sortForestByOrder f) ⟨h0.1, h0.2⟩
    exact ⟨this.1, this.2⟩
  have hsd : forestSorted (recalcDatesF (updateWbsForest f)) := by
    have := sortedF_recalcDatesF (updateWbsForest f) ⟨hsw.1, hsw.2⟩
    exact ⟨this.1, this.2⟩
  have hordg : recalcOrderForest (recalcDatesF (updateWbsForest f)) =
      (assignOrderF (recalcDatesF (updateWbsForest f)) 0).1 :=
    recalcOrder_of_sorted _ hsd
  have hg : runPipeline f =
      statusF (assignOrderF (recalcDatesF (updateWbsForest f)) 0).1 := by
    rw [runPipeline, hordg]
  -- sortedness of the pipeline output
  have hgs : forestSorted (runPipeline f) := by
    rw [runPipeline]
    exact forestSorted_statusF _ (forestSorted_recalcOrder _)
  -- WBS postcondition of the pipeline output
  have hgw : wbsOKF "" 1 (runPipeline f) := by
    rw [hg]
    exact wbsOKF_statusF "" 1 _ (wbsOKF_assignOrderF "" 1 _ 0
      (wbsOKF_recalcDatesF "" 1 _ (wbsOKF_assign "" 1 (sortForestByOrder f))))
  -- date postcondition of the pipeline output
  have hgd : datesOKF (runPipeline f) := by
    rw [hg]
    exact datesOKF_statusF _ (datesOKF_assignOrderF _ 0
      (datesOKF_recalcDatesF (updateWbsForest f)))
  -- order postcondition of the pipeline output
  have hgo : orderOKF 0 (runPipeline f) := by
    rw [hg]
    exact orderOKF_statusF _ 0 (orderOKF_assignOrderF _ 0)
  -- status postcondition of the pipeline output
  have hgst : statusOKF (runPipeline f) := by
    rw [runPipeline]
    exact statusOKF_statusF _
  -- the second run is the identity, stage by stage
  conv_lhs => rw [runPipeline, updateWbsForest]
  rw [sortForest_of_sorted _ hgs, assignWbsF_of_ok "" 1 _ hgw,
    recalcDatesF_of_ok _ hgd, recalcOrder_of_sorted _ hgs,
    assignOrderF_of_ok _ 0 hgo, statusF_of_ok _ hgst]

/-- Setting the status of tasks that agree up to status makes them
equal. -/
theorem set_status_eq_of_erase (t u : Task) (s : String)
    (h : eraseStatus t = eraseStatus u) :
    ({ t with status := s } : Task) = { u with status := s } :=
  congrArg (fun x => ({ x with status := s } : Task)) h

mutual
/-- Trees agreeing up to internal statuses have the same leaves. -/
theorem leavesT_of_almostEq (x y : TaskTree) (h : almostEq x y) :
    leavesT x = leavesT y := by
  cases x with
  | node t cs =>
    cases y with
    | node u ds =>
      cases cs with
      | nil =>
        cases ds with
        | nil => rw [leavesT, leavesT, h.2.1 rfl]
        | cons d ds' => exact absurd h.2.2 (by intro hf; exact hf)
      | cons c cs' =>
        cases ds with
        | nil => exact absurd h.2.2 (by intro hf; exact hf)
        | cons d ds' =>
          rw [leavesT_node_cons, leavesT_node_cons]
          exact leavesF_of_almostEq _ _ h.2.2
/-- Sibling lists agreeing up to internal statuses have the same
leaves. -/
theorem leavesF_of_almostEq (xs ys : List TaskTree) (h : almostEqF xs ys) :
    leavesF xs = leavesF ys := by
  cases xs with
  | nil =>
    cases ys with
    | nil => rfl
    | cons d ds => exact absurd h (by intro hf; exact hf)
  | cons c cs =>
    cases ys with
    | nil => exact absurd h (by intro hf; exact hf)
    | cons d ds =>
      rw [leavesF, leavesF, leavesT_of_almostEq c d h.1, leavesF_of_almostEq cs ds h.2]
end

mutual
/-- The date pass preserves agreement up to internal statuses. -/
theorem almostEq_recalcDatesT (x y : TaskTree) (h : almostEq x y) :
    almostEq (recalcDatesT x) (recalcDatesT y) := by
  cases x with
  | node t cs =>
    cases y with
    | node u ds =>
      cases cs with
      | nil =>
        cases ds with
        | nil => exact h
        | cons d ds' => exact absurd h.2.2 (by intro hf; exact hf)
      | cons c cs' =>
        cases ds with
        | nil => exact absurd h.2.2 (by intro hf; exact hf)
        | cons d ds' =>
          obtain ⟨mn, mx, hr, heq⟩ := recalcDatesT_internal t c cs'
          obtain ⟨mn', mx', hr', heq'⟩ := recalcDatesT_internal u d ds'
          have hlv : leavesT (.node t (c :: cs')) = leavesT (.node u (d :: ds')) :=
            leavesT_of_almostEq _ _ h
          have hrr : getDateRange (.node t (c :: cs')) = getDateRange (.node u (d :: ds')) := by
            rw [getDateRange_leaves, getDateRange_leaves, hlv]
          have hee : getTotalEstimate (.node t (c :: cs')) =
              getTotalEstimate (.node u (d :: ds')) := by
            rw [getTotalEstimate_leaves, getTotalEstimate_leaves, hlv]
          rw [hr, hr'] at hrr
          have hmn : mn = mn' := Option.some.inj (congrArg Prod.fst hrr)
          have hmx : mx = mx' := Option.some.inj (congrArg Prod.snd hrr)
          rw [heq, heq']
          subst hmn hmx
          refine ⟨?_, ?_, almostEqF_recalcDatesF _ _ h.2.2⟩
          · rw [hee]
            have hcong := congrArg (fun z : Task => eraseStatus { z with
                start_date := mn
                end_date := mx
                estimate := getTotalEstimate (TaskTree.node u (d :: ds'))
                is_summary := true }) h.1
            exact hcong
          · intro hemp
            exact absurd hemp (by simp [recalcDatesF])
/-- The date pass preserves agreement up to internal statuses along
sibling lists. -/
theorem almostEqF_recalcDatesF (xs ys : List TaskTree) (h : almostEqF xs ys) :
    almostEqF (recalcDatesF xs) (recalcDatesF ys) := by
  cases xs with
  | nil =>
    cases ys with
    | nil => trivial
    | cons d ds => exact absurd h (by intro hf; exact hf)
  | cons c cs =>
    cases ys with
    | nil => exact absurd h (by intro hf; exact hf)
    | cons d ds =>
      rw [recalcDatesF, recalcDatesF]
      exact ⟨almostEq_recalcDatesT c d h.1, almostEqF_recalcDatesF cs ds h.2⟩
end

mutual
/-- The status pass maps trees agreeing up to internal statuses to the
same tree. -/
theorem statusT_of_almostEq (x y : TaskTree) (h : almostEq x y) :
    statusT x = statusT y := by
  cases x with
  | node t cs =>
    cases y with
    | node u ds =>
      cases cs with
      | nil =>
        cases ds with
        | nil => rw [h.2.1 rfl]
        | cons d ds' => exact absurd h.2.2 (by intro hf; exact hf)
      | cons c cs' =>
        cases ds with
        | nil => exact absurd h.2.2 (by intro hf; exact hf)
        | cons d ds' =>
          have hcs : statusF (c :: cs') = statusF (d :: ds') :=
            statusF_of_almostEq _ _ h.2.2
          show TaskTree.node { t with
              status := statusRule ((statusF (c :: cs')).map (fun x => x.root.status)) }
              (statusF (c :: cs')) =
            TaskTree.node { u with
              status := statusRule ((statusF (d :: ds')).map (fun x => x.root.status)) }
              (statusF (d :: ds'))
          rw [hcs, set_status_eq_of_erase t u _ h.1]
/-- The status pass maps sibling lists agreeing up to internal statuses to
the same list. -/
theorem statusF_of_almostEq (xs ys : List TaskTree) (h : almostEqF xs ys) :
    statusF xs = statusF ys := by
  cases xs with
  | nil =>
    cases ys with
    | nil => rfl
    | cons d ds => exact absurd h (by intro hf; exact hf)
  | cons c cs =>
    cases ys with
    | nil => exact absurd h (by intro hf; exact hf)
    | cons d ds =>
      rw [statusF, statusF, statusT_of_almostEq c d h.1, statusF_of_almostEq cs ds h.2]
end

mutual
/-- Replacing the task at the nodes with a given id by either of two
tasks agreeing up to status yields trees agreeing up to internal statuses,
provided no childless node carries that id. -/
theorem almostEq_setTaskT (tid : Nat) (a b : Task) (hab : eraseStatus a = eraseStatus b)
    (x : TaskTree) (hx : ∀ s ∈ subtreesT x, s.root.id = tid → s.children ≠ []) :
    almostEq (setTaskT tid (fun _ => a) x) (setTaskT tid (fun _ => b) x) := by
  cases x with
  | node t cs =>
    show almostEq (.node (if t.id == tid then a else t) (setTaskF tid (fun _ => a) cs))
      (.node (if t.id == tid then b else t) (setTaskF tid (fun _ => b) cs))
    refine ⟨?_, ?_, almostEqF_setTaskF tid a b hab cs ?_⟩
    · by_cases hid : t.id == tid
      · rw [if_pos hid, if_pos hid]; exact hab
      · rw [if_neg hid, if_neg hid]
    · intro hemp
      by_cases hid : t.id == tid
      · exfalso
        have hcs : cs = [] := by
          cases hsf : setTaskF tid (fun _ => a) cs
          · cases cs with
            | nil => rfl
            | cons c cs' => rw [setTaskF] at hsf; exact List.noConfusion hsf
          · rw [hsf] at hemp; exact List.noConfusion hemp
        have := hx (.node t cs) (self_mem_subtreesT _) (by simpa using hid)
        rw [children_node] at this
        exact this hcs
      · rw [if_neg hid, if_neg hid]
    · intro s hs hsid
      refine hx s ?_ hsid
      rw [subtreesT]
      exact List.mem_cons_of_mem _ hs
/-- Forest version of `almostEq_setTaskT`. -/
theorem almostEqF_setTaskF (tid : Nat) (a b : Task) (hab : eraseStatus a = eraseStatus b)
    (cs : List TaskTree) (hx : ∀ s ∈ subtreesF cs, s.root.id = tid → s.children ≠ []) :
    almostEqF (setTaskF tid (fun _ => a) cs) (setTaskF tid (fun _ => b) cs) := by
  cases cs with
  | nil => trivial
  | cons c cs' =>
    rw [setTaskF, setTaskF]
    refine ⟨almostEq_setTaskT tid a b hab c ?_, almostEqF_setTaskF tid a b hab cs' ?_⟩
    · intro s hs hsid
      refine hx s ?_ hsid
      rw [subtreesF]
      exact List.mem_append_left _ hs
    · intro s hs hsid
      refine hx s ?_ hsid
      rw [subtreesF]
      exact List.mem_append_right _ hs
end

/-- The two update results of `applyUpdateFields` on bodies differing only
in the supplied status value agree up to status, with identical
date/estimate-change flags. -/
theorem applyUpdateFields_status_erase (d : UpdateData) (v w : String) (t0 : Task) :
    eraseStatus (applyUpdateFields { d with status := some v } t0).1 =
      eraseStatus (applyUpdateFields { d with status := some w } t0).1 ∧
    (applyUpdateFields { d with status := some v } t0).2 =
      (applyUpdateFields { d with status := some w } t0).2 := by
  unfold applyUpdateFields
  cases d.task_type <;> cases d.parent_ids <;> cases d.progress <;>
    cases d.order_index <;> cases d.expanded <;> exact ⟨rfl, rfl⟩

mutual
/-- Every subtree with children of a status-passed tree carries exactly
the rule-derived status. -/
theorem statusT_rule (c : TaskTree) :
    ∀ s ∈ subtreesT (statusT c), s.children ≠ [] →
      s.root.status = statusRule (s.children.map (fun x => x.root.status)) := by
  cases c with
  | node t cs =>
    cases cs with
    | nil =>
      intro s hs hne
      rw [statusT, subtreesT] at hs
      rcases List.mem_cons.mp hs with rfl | hs
      · exact absurd rfl hne
      · exact absurd hs (by simp [subtreesF])
    | cons c cs' =>
      intro s hs hne
      rw [statusT] at hs
      rw [subtreesT] at hs
      rcases List.mem_cons.mp hs with rfl | hs
      · simp only [root_node, children_node]
      · exact statusF_rule (c :: cs') s hs hne
/-- Every subtree with children of a status-passed forest carries exactly
the rule-derived status. -/
theorem statusF_rule (cs : TaskForest) :
    ∀ s ∈ subtreesF (statusF cs), s.children ≠ [] →
      s.root.status = statusRule (s.children.map (fun x => x.root.status)) := by
  cases cs with
  | nil => intro s hs; exact absurd hs (by simp [statusF, subtreesF])
  | cons c cs' =>
    intro s hs hne
    rw [statusF, subtreesF] at hs
    rcases List.mem_append.mp hs with hs | hs
    · exact statusT_rule c s hs hne
    · exact statusF_rule cs' s hs hne
end

/-- Counterexample to C8 as stated: supplying `"Complete"` for a parent
whose only child is `"Complete"` stores exactly the supplied value (the
request is accepted, the planted value is overwritten by the derived one —
which coincides with it). -/
theorem claim8_counterexample : ¬ updateStatusNeverStored := by
  intro h
  have := h [.node (mkSample 1 none 0 0 0 1 "Not Started")
      [.node (mkSample 2 (some 1) 1 1 0 1 "Complete") []]] 1
    { status := some "Complete" } "Complete"
    [.node { mkSample 1 none 0 0 0 1 "Not Started" with status := "Complete" }
      [.node (mkSample 2 (some 1) 1 1 0 1 "Complete") []]]
    ⟨.node (mkSample 1 none 0 0 0 1 "Not Started")
      [.node (mkSample 2 (some 1) 1 1 0 1 "Complete") []], by decide, rfl, by decide⟩
    rfl rfl
  exact this rfl

/-- Claim C8, amended: for a task with at least one child (and a forest in
which every node carrying its id has children), an `update_task` request
that includes a status value is accepted, and the resulting stored state is
independent of the supplied status — two requests differing only in that
value produce identical stores — with the task's stored status equal to the
status derived from its children by the propagation rule; the supplied
value is therefore stored only when it coincides with the derived one. -/
theorem claim8_amended (f : TaskForest) (tid : Nat) (d : UpdateData) (v w : String)
    (r r' : TaskForest)
    (hch : ∀ s ∈ subtreesF f, s.root.id = tid → s.children ≠ [])
    (hok : updateTaskForest f tid { d with status := some v } = .ok r)
    (hok' : updateTaskForest f tid { d with status := some w } = .ok r') :
    r = r' ∧
    ∀ s ∈ subtreesF r, s.children ≠ [] →
      s.root.status = statusRule (s.children.map (fun x => x.root.status)) := by
  cases hf : findTaskF tid f with
  | none =>
    rw [updateTaskForest, hf] at hok
    exact absurd hok (by simp)
  | some t0 =>
    rw [updateTaskForest, hf] at hok hok'
    have hae := applyUpdateFields_status_erase d v w t0
    dsimp only at hok hok'
    split at hok
    · exact absurd hok (by simp)
    · split at hok'
      · exact absurd hok' (by simp)
      · have hr := Except.ok.inj hok
        have hr' := Except.ok.inj hok'
        have h1 : almostEqF
            (setTaskF tid (fun _ => (applyUpdateFields { d with status := some v } t0).1) f)
            (setTaskF tid (fun _ => (applyUpdateFields { d with status := some w } t0).1) f) :=
          almostEqF_setTaskF tid _ _ hae.1 f hch
        have h2 : almostEqF
            (if ((applyUpdateFields { d with status := some v } t0).2.1 ||
                (applyUpdateFields { d with status := some v } t0).2.2) = true then
              recalcDatesF
                (setTaskF tid (fun _ => (applyUpdateFields { d with status := some v } t0).1) f)
            else
              setTaskF tid (fun _ => (applyUpdateFields { d with status := some v } t0).1) f)
            (if ((applyUpdateFields { d with status := some w } t0).2.1 ||
                (applyUpdateFields { d with status := some w } t0).2.2) = true then
              recalcDatesF
                (setTaskF tid (fun _ => (applyUpdateFields { d with status := some w } t0).1) f)
            else
              setTaskF tid (fun _ => (applyUpdateFields { d with status := some w } t0).1) f) := by
          rw [← hae.2]
          by_cases hfl : ((applyUpdateFields { d with status := some v } t0).2.1 ||
              (applyUpdateFields { d with status := some v } t0).2.2) = true
          · rw [if_pos hfl, if_pos hfl]
            exact almostEqF_recalcDatesF _ _ h1
          · rw [if_neg hfl, if_neg hfl]
            exact h1
        have hreq : r = r' := by
          rw [← hr, ← hr']
          exact statusF_of_almostEq _ _ h2
        refine ⟨hreq, ?_⟩
        rw [← hr]
        intro s hs hne
        exact statusF_rule _ s hs hne

/-- Witness for the amended C8 at a concrete one-parent/one-child forest
with two different supplied statuses. -/
theorem claim8_witness :
    ((∀ s ∈ subtreesF [TaskTree.node (mkSample 1 none 0 0 0 1 "Not Started")
        [.node (mkSample 2 (some 1) 1 1 0 1 "Complete") []]],
        s.root.id = 1 → s.children ≠ []) ∧
      updateTaskForest [.node (mkSample 1 none 0 0 0 1 "Not Started")
        [.node (mkSample 2 (some 1) 1 1 0 1 "Complete") []]] 1
        { status := some "On Hold" } =
        .ok [.node { mkSample 1 none 0 0 0 1 "Not Started" with status := "Complete" }
          [.node (mkSample 2 (some 1) 1 1 0 1 "Complete") []]] ∧
      updateTaskForest [.node (mkSample 1 none 0 0 0 1 "Not Started")
        [.node (mkSample 2 (some 1) 1 1 0 1 "Complete") []]] 1
        { status := some "Cancelled" } =
        .ok [.node { mkSample 1 none 0 0 0 1 "Not Started" with status := "Complete" }
          [.node (mkSample 2 (some 1) 1 1 0 1 "Complete") []]]) ∧
    (([.node { mkSample 1 none 0 0 0 1 "Not Started" with status := "Complete" }
        [.node (mkSample 2 (some 1) 1 1 0 1 "Complete") []]] : TaskForest) =
      [.node { mkSample 1 none 0 0 0 1 "Not Started" with status := "Complete" }
        [.node (mkSample 2 (some 1) 1 1 0 1 "Complete") []]] ∧
     ∀ s ∈ subtreesF [TaskTree.node
        { mkSample 1 none 0 0 0 1 "Not Started" with status := "Complete" }
        [.node (mkSample 2 (some 1) 1 1 0 1 "Complete") []]],
       s.children ≠ [] →
       s.root.status = statusRule (s.children.map (fun x => x.root.status))) := by
  refine ⟨⟨by decide, rfl, rfl⟩, ?_⟩
  exact claim8_amended [.node (mkSample 1 none 0 0 0 1 "Not Started")
      [.node (mkSample 2 (some 1) 1 1 0 1 "Complete") []]] 1
    {} "On Hold" "Cancelled"
    [.node { mkSample 1 none 0 0 0 1 "Not Started" with status := "Complete" }
      [.node (mkSample 2 (some 1) 1 1 0 1 "Complete") []]]
    [.node { mkSample 1 none 0 0 0 1 "Not Started" with status := "Complete" }
      [.node (mkSample 2 (some 1) 1 1 0 1 "Complete") []]]
    (by decide) rfl rfl

/-!
## Claim C9 — progress clamping (code bug in `create_task`)
-/
/-- Claim C9 is a code bug: `update_task` stores the clamped
`max(0, min(100, p))`, but `create_task` stores the raw request value
(`progress=data.get('progress', 0)`, app.py 468) with no clamping, so a
created task's progress can land outside `[0, 100]`.  At the failing input
`progress = 150` the created row stores 150 while the claim (and the
model's own `# Progress percentage 0-100` column comment) require the
clamped value 100, which is what the update path stores. -/
theorem claim9_create_progress_not_clamped :
    (createTaskFlat "MIG" 1 7 [] { start_date := 0, end_date := 1, progress := some 150 }).map
        (fun l => l.map (fun t => t.progress)) = .ok [150] ∧
    max 0 (min 100 (150 : Int)) = 100 ∧ ((150 : Int) < 0 ∨ 100 < (150 : Int)) ∧
    (applyUpdateFields { progress := some 150 } sampleTask).1.progress = 100 := by
  refine ⟨rfl, by decide, by decide, rfl⟩

/-- A successful lookup returns a member row carrying the looked-up id. -/
theorem lookupTask_mem (s : List Task) (x : Nat) (t : Task)
    (h : lookupTask s x = some t) : t ∈ s ∧ t.id = x := by
  refine ⟨List.mem_of_find?_eq_some h, ?_⟩
  have h2 := List.find?_some h
  simpa using h2

/-- A store containing a row with id `x` looks `x` up successfully. -/
theorem lookupTask_isSome (s : List Task) (x : Nat) (t : Task) (ht : t ∈ s)
    (hx : t.id = x) : ∃ u, lookupTask s x = some u := by
  have h : (lookupTask s x).isSome := by
    rw [lookupTask, List.find?_isSome]
    exact ⟨t, ht, by simp [hx]⟩
  exact Option.isSome_iff_exists.mp h

/-- In a store with unique ids, rows are determined by their id. -/
theorem id_inj_of_nodup : ∀ (s : List Task), (s.map Task.id).Nodup →
    ∀ a ∈ s, ∀ b ∈ s, a.id = b.id → a = b := by
  intro s
  induction s with
  | nil => intro _ a ha; exact absurd ha (List.not_mem_nil a)
  | cons x xs ih =>
    intro hn a ha b hb hab
    rw [List.map_cons, List.nodup_cons] at hn
    rcases List.mem_cons.mp ha with ha' | ha'
    · rcases List.mem_cons.mp hb with hb' | hb'
      · rw [ha', hb']
      · exfalso
        apply hn.1
        refine List.mem_map.mpr ⟨b, hb', ?_⟩
        rw [← hab, ha']
    · rcases List.mem_cons.mp hb with hb' | hb'
      · exfalso
        apply hn.1
        refine List.mem_map.mpr ⟨a, ha', ?_⟩
        rw [hab, hb']
      · exact ih hn.2 a ha' b hb' hab

/-- In a store with unique ids, looking up a member's id returns it. -/
theorem lookupTask_self (s : List Task) (hn : (s.map Task.id).Nodup)
    (t : Task) (ht : t ∈ s) : lookupTask s t.id = some t := by
  rcases lookupTask_isSome s t.id t ht rfl with ⟨u, hu⟩
  rcases lookupTask_mem s t.id u hu with ⟨hus, hui⟩
  rw [hu, id_inj_of_nodup s hn u hus t ht hui]

/-- Folding `updateById` over a duplicate-free list of ids rewrites exactly
the rows whose id is listed. -/
theorem foldl_updateById_eq (g : Task → Task) (hid : ∀ t, (g t).id = t.id) :
    ∀ (C : List Nat) (s : List Task), C.Nodup →
      C.foldl (fun acc i => updateById acc i g) s
        = s.map (fun t => if t.id ∈ C then g t else t) := by
  intro C
  induction C with
  | nil =>
    intro s _
    simp
  | cons c C ih =>
    intro s hn
    rw [List.nodup_cons] at hn
    rw [List.foldl_cons, ih _ hn.2, updateById, List.map_map]
    refine List.map_congr_left ?_
    intro t _
    by_cases h1 : t.id = c
    · simp [Function.comp_def, h1, hid, hn.1]
    · simp [Function.comp_def, h1]

/-- Membership of an id among the mapped ids of a filtered duplicate-free
store is membership of the row satisfying the filter. -/
theorem mem_filter_map_id (s : List Task) (hn : (s.map Task.id).Nodup)
    (p : Task → Bool) (t : Task) (ht : t ∈ s) :
    t.id ∈ ((s.filter p).map Task.id) ↔ p t = true := by
  constructor
  · intro h
    rcases List.mem_map.mp h with ⟨c, hc, hcid⟩
    rcases List.mem_filter.mp hc with ⟨hcs, hcp⟩
    rwa [id_inj_of_nodup s hn c hcs t ht hcid] at hcp
  · intro hp
    exact List.mem_map.mpr ⟨t, List.mem_filter.mpr ⟨ht, hp⟩, rfl⟩

/-- The child-promotion loop of `delete_task` rewrites exactly the rows
whose parent reference is the deleted id. -/
theorem foldl_children_update (s : List Task) (tid : Nat) (g : Task → Task)
    (hid : ∀ t, (g t).id = t.id) (hn : (s.map Task.id).Nodup) :
    (s.filter (fun t => t.parent_id == some tid)).foldl
        (fun acc c => updateById acc c.id g) s
      = s.map (fun t => if t.parent_id == some tid then g t else t) := by
  have h1 : (s.filter (fun t => t.parent_id == some tid)).foldl
      (fun acc c => updateById acc c.id g) s
      = ((s.filter (fun t => t.parent_id == some tid)).map Task.id).foldl
        (fun acc i => updateById acc i g) s :=
    (List.foldl_map Task.id (fun acc i => updateById acc i g)
      (s.filter (fun t => t.parent_id == some tid)) s).symm
  have hnC : (((s.filter (fun t => t.parent_id == some tid)).map Task.id)).Nodup :=
    hn.sublist (List.Sublist.map Task.id (List.filter_sublist s))
  rw [h1, foldl_updateById_eq g hid _ s hnC]
  refine List.map_congr_left ?_
  intro t ht
  by_cases hp : t.parent_id = some tid
  · have hm : t.id ∈ (s.filter (fun t => t.parent_id == some tid)).map Task.id :=
      (mem_filter_map_id s hn _ t ht).mpr (by simp [hp])
    simp [hm, hp]
  · have hm : t.id ∉ (s.filter (fun t => t.parent_id == some tid)).map Task.id := by
      intro hmem
      exact hp (by simpa using (mem_filter_map_id s hn _ t ht).mp hmem)
    simp [hm, hp]

/-- Mapped ids commute with erasing the row of a given id. -/
theorem eraseP_map_id (l : List Task) (tid : Nat) :
    (l.eraseP (fun t => t.id == tid)).map Task.id
      = (l.map Task.id).eraseP (fun i => i == tid) := by
  induction l with
  | nil => rfl
  | cons x xs ih =>
    by_cases h : x.id = tid
    · simp [List.eraseP_cons, h]
    · simp [List.eraseP_cons, h, ih]

/-- After erasing the row of id `tid` from a duplicate-free store, no row
carries that id any more. -/
theorem eraseP_id_ne : ∀ (l : List Task) (tid : Nat),
    (l.map Task.id).Nodup →
    ∀ u ∈ l.eraseP (fun t => t.id == tid), u.id ≠ tid := by
  intro l
  induction l with
  | nil => intro tid _ u hu; exact absurd hu (List.not_mem_nil u)
  | cons x xs ih =>
    intro tid hn u hu
    rw [List.map_cons, List.nodup_cons] at hn
    rw [List.eraseP_cons] at hu
    by_cases h : x.id = tid
    · rw [beq_iff_eq.mpr h, cond_true] at hu
      intro huid
      refine hn.1 (List.mem_map.mpr ⟨u, hu, ?_⟩)
      rw [huid, h]
    · rw [beq_eq_false_iff_ne.mpr h, cond_false] at hu
      rcases List.mem_cons.mp hu with hu' | hu'
      · rw [hu']; exact h
      · exact ih tid hn.2 u hu'

/-- Rows with a different id survive erasing the row of id `tid`. -/
theorem mem_eraseP_of_id_ne : ∀ (l : List Task) (tid : Nat),
    ∀ u ∈ l, u.id ≠ tid → u ∈ l.eraseP (fun t => t.id == tid) := by
  intro l
  induction l with
  | nil => intro tid u hu; exact absurd hu (List.not_mem_nil u)
  | cons x xs ih =>
    intro tid u hu hne
    rw [List.eraseP_cons]
    by_cases h : x.id = tid
    · rw [beq_iff_eq.mpr h, cond_true]
      rcases List.mem_cons.mp hu with hu' | hu'
      · exact absurd (by rw [hu']; exact h) hne
      · exact hu'
    · rw [beq_eq_false_iff_ne.mpr h, cond_false]
      rcases List.mem_cons.mp hu with hu' | hu'
      · rw [hu']; exact List.mem_cons_self x _
      · exact List.mem_cons_of_mem x (ih tid u hu' hne)

/-- A single `updateById` whose rewriter keeps the non-derived fields keeps
the `eraseDerived`-image of the store. -/
theorem updateById_eraseD (s : List Task) (i : Nat) (g : Task → Task)
    (hg : ∀ t, eraseDerived (g t) = eraseDerived t) :
    (updateById s i g).map eraseDerived = s.map eraseDerived := by
  rw [updateById, List.map_map]
  refine List.map_congr_left ?_
  intro t _
  by_cases h : t.id = i
  · simp [Function.comp_def, h, hg]
  · simp [Function.comp_def, h]

/-- Writing a WBS code keeps the `eraseDerived`-image of the store. -/
theorem updateById_wbs_eraseD (s : List Task) (i : Nat) (w : String) :
    (updateById s i (fun u => { u with wbs_code := w })).map eraseDerived
      = s.map eraseDerived :=
  updateById_eraseD s i _ (fun _ => rfl)

/-- Writing the summary flag keeps the `eraseDerived`-image of the store. -/
theorem updateById_sum_eraseD (s : List Task) (i : Nat) (b : Bool) :
    (updateById s i (fun u => { u with is_summary := b })).map eraseDerived
      = s.map eraseDerived :=
  updateById_eraseD s i _ (fun _ => rfl)

/-- Writing an order index keeps the `eraseDerived`-image of the store. -/
theorem updateById_ord_eraseD (s : List Task) (i : Nat) (k : Int) :
    (updateById s i (fun u => { u with order_index := k })).map eraseDerived
      = s.map eraseDerived :=
  updateById_eraseD s i _ (fun _ => rfl)

/-- Writing the aggregated dates keeps the `eraseDerived`-image. -/
theorem updateById_dates_eraseD (s : List Task) (i : Nat) (mn mx : Int) :
    (updateById s i (fun u => { u with start_date := mn, end_date := mx })).map
        eraseDerived = s.map eraseDerived :=
  updateById_eraseD s i _ (fun _ => rfl)

/-- Writing the aggregated estimate and summary flag keeps the
`eraseDerived`-image. -/
theorem updateById_est_eraseD (s : List Task) (i : Nat) (e : Rat) (b : Bool) :
    (updateById s i (fun u => { u with estimate := e, is_summary := b })).map
        eraseDerived = s.map eraseDerived :=
  updateById_eraseD s i _ (fun _ => rfl)

/-- One sibling step of the WBS recursion, threading the store. -/
theorem wbsAssign_cons (fuel : Nat) (q : List Task) (t : Task) (wl : List Task)
    (pfx : String) (idx : Nat) (s : List Task) :
    wbsAssign (fuel + 1) q (t :: wl) pfx idx s
      = wbsAssign (fuel + 1) q wl pfx (idx + 1)
          (match childTasksOf q t.id with
           | [] => updateById (updateById s t.id
               (fun u => { u with wbs_code := wbsCodeOf pfx idx })) t.id
               (fun u => { u with is_summary := false })
           | c :: cs =>
             wbsAssign fuel q (c :: cs) (wbsCodeOf pfx idx ++ ".") 1
               (updateById (updateById s t.id
                   (fun u => { u with wbs_code := wbsCodeOf pfx idx })) t.id
                 (fun u => { u with is_summary := true }))) := rfl

/-- The WBS pass writes only `wbs_code` and `is_summary`. -/
theorem wbsAssign_eraseD (fuel : Nat) :
    ∀ (q wl : List Task) (pfx : String) (idx : Nat) (s : List Task),
      (wbsAssign fuel q wl pfx idx s).map eraseDerived = s.map eraseDerived := by
  induction fuel with
  | zero => intro q wl pfx idx s; rfl
  | succ fuel ih =>
    intro q wl
    induction wl with
    | nil => intro pfx idx s; rfl
    | cons t wl ihw =>
      intro pfx idx s
      rw [wbsAssign_cons, ihw]
      cases hc : childTasksOf q t.id with
      | nil =>
        dsimp only
        rw [updateById_sum_eraseD, updateById_wbs_eraseD]
      | cons c cs =>
        dsimp only
        rw [ih q (c :: cs) _ 1 _, updateById_sum_eraseD, updateById_wbs_eraseD]

/-- One sibling step of the order recursion, threading store and counter. -/
theorem orderAssign_cons (fuel : Nat) (q : List Task) (t : Task) (wl : List Task)
    (k : Nat) (s : List Task) :
    orderAssign (fuel + 1) q (t :: wl) k s
      = orderAssign (fuel + 1) q wl
          (match sortTasksByOrder (childTasksOf q t.id) with
           | [] => (updateById s t.id (fun u => { u with order_index := (k : Int) }), k + 1)
           | c :: cs =>
             orderAssign fuel q (c :: cs) (k + 1)
               (updateById s t.id (fun u => { u with order_index := (k : Int) }))).2
          (match sortTasksByOrder (childTasksOf q t.id) with
           | [] => (updateById s t.id (fun u => { u with order_index := (k : Int) }), k + 1)
           | c :: cs =>
             orderAssign fuel q (c :: cs) (k + 1)
               (updateById s t.id (fun u => { u with order_index := (k : Int) }))).1 := rfl

/-- The order pass writes only `order_index`. -/
theorem orderAssign_eraseD (fuel : Nat) :
    ∀ (q wl : List Task) (k : Nat) (s : List Task),
      ((orderAssign fuel q wl k s).1).map eraseDerived = s.map eraseDerived := by
  induction fuel with
  | zero => intro q wl k s; rfl
  | succ fuel ih =>
    intro q wl
    induction wl with
    | nil => intro k s; rfl
    | cons t wl ihw =>
      intro k s
      rw [orderAssign_cons, ihw]
      cases hc : sortTasksByOrder (childTasksOf q t.id) with
      | nil =>
        dsimp only
        rw [updateById_ord_eraseD]
      | cons c cs =>
        dsimp only
        rw [ih q (c :: cs) (k + 1) _, updateById_ord_eraseD]

/-- One summary row of the dates pass writes only dates, estimate and the
summary flag. -/
theorem datesApplyOne_eraseD (s acc : List Task) (sid : Nat) :
    (datesApplyOne s acc sid).map eraseDerived = acc.map eraseDerived := by
  rw [datesApplyOne]
  cases lookupTask s sid with
  | none => rfl
  | some t =>
    dsimp only
    cases getDateRangeFlat (s.length + 1) s sid with
    | mk a b =>
      cases a with
      | none =>
        dsimp only
        rw [updateById_est_eraseD]
      | some mn =>
        cases b with
        | none =>
          dsimp only
          rw [updateById_est_eraseD]
        | some mx =>
          dsimp only
          rw [updateById_est_eraseD, updateById_dates_eraseD]

/-- The dates pass writes only dates, estimates and summary flags. -/
theorem recalcDatesFlat_eraseD (s : List Task) :
    (recalcDatesFlat s).map eraseDerived = s.map eraseDerived := by
  rw [recalcDatesFlat]
  have aux : ∀ (ids : List Nat) (acc : List Task),
      (ids.foldl (datesApplyOne s) acc).map eraseDerived = acc.map eraseDerived := by
    intro ids
    induction ids with
    | nil => intro acc; rfl
    | cons i ids ih =>
      intro acc
      rw [List.foldl_cons, ih, datesApplyOne_eraseD]
  exact aux (summaryIdsOf s) s

/-- The WBS pass keeps the non-derived fields of every row. -/
theorem updateWbsFlat_eraseD (s : List Task) :
    (updateWbsFlat s).map eraseDerived = s.map eraseDerived :=
  wbsAssign_eraseD (s.length + 1) (sortTasksByOrder s)
    (rootTasksOf (sortTasksByOrder s)) "" 1 s

/-- The order pass keeps the non-derived fields of every row. -/
theorem recalcOrderFlat_eraseD (s : List Task) :
    (recalcOrderFlat s).map eraseDerived = s.map eraseDerived :=
  orderAssign_eraseD (s.length + 1) (sortTasksByOrder s)
    (sortTasksByOrder (rootTasksOf (sortTasksByOrder s))) 0 s

/-- The full recalculation pipeline keeps the non-derived fields (ids,
parents, levels, statuses, progress, descriptions) of every row. -/
theorem pipelineFlat_eraseD (s : List Task) :
    (recalcOrderFlat (recalcDatesFlat (updateWbsFlat s))).map eraseDerived
      = s.map eraseDerived := by
  rw [recalcOrderFlat_eraseD, recalcDatesFlat_eraseD, updateWbsFlat_eraseD]

/-- Positionwise skeleton equality transfers membership: a row of one store
has a mate in the other with the same id, parent and level. -/
theorem mem_trip_transfer (l1 l2 : List Task) (h : l1.map trip = l2.map trip)
    (u : Task) (hu : u ∈ l1) :
    ∃ v ∈ l2, v.id = u.id ∧ v.parent_id = u.parent_id ∧ v.level = u.level := by
  have hm : trip u ∈ l2.map trip := by
    rw [← h]
    exact List.mem_map_of_mem trip hu
  rcases List.mem_map.mp hm with ⟨v, hv, htv⟩
  rw [trip, trip, Prod.mk.injEq, Prod.mk.injEq] at htv
  exact ⟨v, hv, htv.1, htv.2.1, htv.2.2⟩

/-- The pipeline keeps the skeleton (id, parent, level) of every row. -/
theorem pipelineFlat_trip (s : List Task) :
    (recalcOrderFlat (recalcDatesFlat (updateWbsFlat s))).map trip = s.map trip :=
  map_field_of_map_erase trip eraseDerived (fun _ => rfl) _ _ (pipelineFlat_eraseD s)

/-- The pipeline keeps the id column of the store. -/
theorem pipelineFlat_ids (s : List Task) :
    (recalcOrderFlat (recalcDatesFlat (updateWbsFlat s))).map Task.id = s.map Task.id :=
  map_field_of_map_erase Task.id eraseDerived (fun _ => rfl) _ _ (pipelineFlat_eraseD s)

/-- Packaging of `WFStore` from a decidable description (the parent id is
read back with `getD`, keeping every quantifier list-bounded). -/
theorem WFStore_of_forall (s : List Task)
    (h1 : (s.map Task.id).Nodup)
    (h2 : ∀ t ∈ s, t.id ≠ 0)
    (h3 : ∀ t ∈ s, t.parent_id = none ∨
      (t.parent_id.getD 0 ≠ 0 ∧ (∃ v ∈ s, v.id = t.parent_id.getD 0) ∧
        ∀ v ∈ s, v.id = t.parent_id.getD 0 → t.level = v.level + 1))
    (h4 : ∀ t ∈ s, t.parent_id = none → t.level = 0) :
    WFStore s := by
  refine ⟨h1, h2, ?_, ?_, h4⟩
  · intro t ht p hp
    rcases h3 t ht with hnone | ⟨hnz, hex, _⟩
    · rw [hnone] at hp; exact absurd hp (by simp)
    · have hgd : t.parent_id.getD 0 = p := by rw [hp]; rfl
      rw [hgd] at hnz hex
      exact ⟨hnz, hex⟩
  · intro t ht p hp v hv hvid
    rcases h3 t ht with hnone | ⟨_, _, hlev⟩
    · rw [hnone] at hp; exact absurd hp (by simp)
    · have hgd : t.parent_id.getD 0 = p := by rw [hp]; rfl
      exact hlev v hv (by rw [hgd]; exact hvid)

/-- The promotion rewriter keeps the id of the rewritten row or leaves the
row alone. -/
theorem promote_if_id (T : Task) (tid : Nat) (w : Task) :
    (if w.parent_id == some tid then promoteChild T w else w).id = w.id := by
  by_cases h : w.parent_id = some tid <;> simp [h, promoteChild]

/-- Claim C5, with the corrected promoted level: deleting task `T`
re-parents each of its children to `T`'s former parent at level `T.level`
(not `T.parent.level`) when `T` had a parent and at level 0 otherwise,
removes exactly `T`'s row, and leaves a store with no dangling parent
reference and no parent cycle. -/
theorem claim5_delete_promotes (s : List Task) (tid : Nat) (T : Task)
    (hw : WFStore s) (hT : lookupTask s tid = some T) :
    ∃ s', deleteTaskFlat s tid = .ok s' ∧
      s'.map Task.id = (s.map Task.id).eraseP (fun i => i == tid) ∧
      (∀ u ∈ s', u.id ≠ tid) ∧
      (∀ c ∈ s, c.parent_id = some tid →
        ∃ c', lookupTask s' c.id = some c' ∧
          c'.parent_id = T.parent_id ∧
          c'.level = (if optTruthy T.parent_id then T.level else 0)) ∧
      (∀ u ∈ s', ∀ p, u.parent_id = some p → ∃ v ∈ s', v.id = p) ∧
      (∀ u, ¬ Relation.TransGen (parentStep s') u u) := by
  obtain ⟨hTs, hTid⟩ := lookupTask_mem s tid T hT
  have hnod := hw.nodup
  have hTnp : T.parent_id ≠ some tid := by
    intro hp
    have h2 := hw.childLevel T hTs tid hp T hTs hTid
    omega
  set S1 := (s.filter (fun t => t.parent_id == some tid)).foldl
      (fun acc c => updateById acc c.id (promoteChild T)) s with hS1
  set S2 := S1.eraseP (fun t => t.id == tid) with hS2
  set S' := recalcOrderFlat (recalcDatesFlat (updateWbsFlat S2)) with hS'
  have hdel : deleteTaskFlat s tid = .ok S' := by
    rw [deleteTaskFlat, hT]
    rfl
  have hS1eq : S1 = s.map
      (fun t => if t.parent_id == some tid then promoteChild T t else t) :=
    foldl_children_update s tid (promoteChild T) (fun _ => rfl) hnod
  have hids1 : S1.map Task.id = s.map Task.id := by
    rw [hS1eq, List.map_map]
    refine List.map_congr_left ?_
    intro t _
    exact promote_if_id T tid t
  have hnod1 : (S1.map Task.id).Nodup := by rw [hids1]; exact hnod
  have hids2 : S2.map Task.id = (s.map Task.id).eraseP (fun i => i == tid) := by
    rw [hS2, eraseP_map_id, hids1]
  have hnod2 : (S2.map Task.id).Nodup := by
    rw [hS2]
    exact hnod1.sublist (List.Sublist.map Task.id (List.eraseP_sublist S1))
  have hcore : S'.map eraseDerived = S2.map eraseDerived := by
    rw [hS']
    exact pipelineFlat_eraseD S2
  have htrip : S'.map trip = S2.map trip :=
    map_field_of_map_erase trip eraseDerived (fun _ => rfl) _ _ hcore
  have hids' : S'.map Task.id = S2.map Task.id :=
    map_field_of_map_erase Task.id eraseDerived (fun _ => rfl) _ _ hcore
  have hnod' : (S'.map Task.id).Nodup := by rw [hids']; exact hnod2
  have hmemS' : ∀ u ∈ S', ∃ v ∈ S2,
      v.id = u.id ∧ v.parent_id = u.parent_id ∧ v.level = u.level :=
    fun u hu => mem_trip_transfer S' S2 htrip u hu
  have hmemS2 : ∀ v ∈ S2, ∃ u ∈ S',
      u.id = v.id ∧ u.parent_id = v.parent_id ∧ u.level = v.level :=
    fun v hv => mem_trip_transfer S2 S' htrip.symm v hv
  have hS2sub1 : ∀ v ∈ S2, v ∈ S1 := by
    intro v hv
    rw [hS2] at hv
    exact (List.eraseP_sublist S1).subset hv
  have hS1mem : ∀ v ∈ S1, ∃ w ∈ s,
      v = (if w.parent_id == some tid then promoteChild T w else w) := by
    intro v hv
    rw [hS1eq] at hv
    rcases List.mem_map.mp hv with ⟨w, hws, hvw⟩
    exact ⟨w, hws, hvw.symm⟩
  have hS2ne : ∀ v ∈ S2, v.id ≠ tid := by
    intro v hv
    rw [hS2] at hv
    exact eraseP_id_ne S1 tid hnod1 v hv
  have hkeep : ∀ v ∈ S1, v.id ≠ tid → v ∈ S2 := by
    intro v hv hne
    rw [hS2]
    exact mem_eraseP_of_id_ne S1 tid v hv hne
  have hsurvive : ∀ p : Nat, p ≠ tid → (∃ z ∈ s, z.id = p) →
      ∃ v' ∈ S', v'.id = p := by
    rintro p hpne ⟨z, hzs, hzid⟩
    have hz1 : (if z.parent_id == some tid then promoteChild T z else z) ∈ S1 := by
      rw [hS1eq]
      exact List.mem_map.mpr ⟨z, hzs, rfl⟩
    have hz2 : (if z.parent_id == some tid then promoteChild T z else z) ∈ S2 := by
      refine hkeep _ hz1 ?_
      rw [promote_if_id, hzid]
      exact hpne
    rcases hmemS2 _ hz2 with ⟨z', hz's, hz'id, _, _⟩
    refine ⟨z', hz's, ?_⟩
    rw [hz'id, promote_if_id, hzid]
  refine ⟨S', hdel, hids'.trans hids2, ?_, ?_, ?_, ?_⟩
  · -- no row of the result carries the deleted id
    intro u hu
    rcases hmemS' u hu with ⟨v, hv, hvid, _, _⟩
    rw [← hvid]
    exact hS2ne v hv
  · -- each child of T is promoted
    intro c hcs hcp
    have hcid : c.id ≠ tid := by
      intro hcid
      have hceq : c = T := id_inj_of_nodup s hnod c hcs T hTs (by rw [hcid, hTid])
      rw [hceq] at hcp
      exact hTnp hcp
    have hc1 : promoteChild T c ∈ S1 := by
      rw [hS1eq]
      refine List.mem_map.mpr ⟨c, hcs, ?_⟩
      simp [hcp]
    have hc2 : promoteChild T c ∈ S2 := hkeep _ hc1 hcid
    rcases hmemS2 _ hc2 with ⟨u, huS', hui, hup, hul⟩
    rcases lookupTask_isSome S' c.id u huS' hui with ⟨c', hc'⟩
    rcases lookupTask_mem S' c.id c' hc' with ⟨hc's, hc'id⟩
    have hcu : c' = u :=
      id_inj_of_nodup S' hnod' c' hc's u huS' (hc'id.trans hui.symm)
    refine ⟨c', hc', ?_, ?_⟩
    · rw [hcu]; exact hup
    · rw [hcu]; exact hul
  · -- no dangling parent reference
    intro u huS' p hup
    rcases hmemS' u huS' with ⟨v, hvS2, _, hvp, _⟩
    have hvp' : v.parent_id = some p := by rw [hvp, hup]
    rcases hS1mem v (hS2sub1 v hvS2) with ⟨w, hws, hvw⟩
    by_cases hwp : w.parent_id = some tid
    · rw [if_pos (by simp [hwp])] at hvw
      have hTp : T.parent_id = some p := by
        have h2 : (promoteChild T w).parent_id = some p := by rw [← hvw]; exact hvp'
        exact h2
      rcases hw.parentClosed T hTs p hTp with ⟨hpnz, z, hzs, hzid⟩
      have hpne : p ≠ tid := by
        intro h2
        rw [h2] at hTp
        exact hTnp hTp
      exact hsurvive p hpne ⟨z, hzs, hzid⟩
    · rw [if_neg (by simp [hwp])] at hvw
      have hwp' : w.parent_id = some p := by rw [← hvw]; exact hvp'
      rcases hw.parentClosed w hws p hwp' with ⟨hpnz, z, hzs, hzid⟩
      have hpne : p ≠ tid := by
        intro h2
        rw [h2] at hwp'
        exact hwp hwp'
      exact hsurvive p hpne ⟨z, hzs, hzid⟩
  · -- no parent cycle: levels of the original rows strictly descend along
    -- every parent step of the result
    intro u hcyc
    have hsteplt : ∀ a b, parentStep S' a b →
        (((lookupTask s b.id).map Task.level).getD 0)
          < (((lookupTask s a.id).map Task.level).getD 0) := by
      rintro a b ⟨hab, haS, hbS⟩
      rcases hmemS' a haS with ⟨va, hva2, hvaid, hvap, _⟩
      rcases hS1mem va (hS2sub1 _ hva2) with ⟨wa, hwas, hvawa⟩
      rcases hmemS' b hbS with ⟨vb, hvb2, hvbid, _, _⟩
      rcases hS1mem vb (hS2sub1 _ hvb2) with ⟨wb, hwbs, hvbwb⟩
      have hwaid : wa.id = a.id := by rw [← hvaid, hvawa, promote_if_id]
      have hwbid : wb.id = b.id := by rw [← hvbid, hvbwb, promote_if_id]
      have hla : lookupTask s a.id = some wa := by
        rw [← hwaid]
        exact lookupTask_self s hnod wa hwas
      have hlb : lookupTask s b.id = some wb := by
        rw [← hwbid]
        exact lookupTask_self s hnod wb hwbs
      rw [hla, hlb]
      simp only [Option.map_some', Option.getD_some]
      have hvap' : va.parent_id = some b.id := by rw [hvap, hab]
      by_cases hwap : wa.parent_id = some tid
      · rw [if_pos (by simp [hwap])] at hvawa
        have hTp : T.parent_id = some b.id := by
          have h2 : (promoteChild T wa).parent_id = some b.id := by
            rw [← hvawa]
            exact hvap'
          exact h2
        have h3 : wa.level = T.level + 1 :=
          hw.childLevel wa hwas tid hwap T hTs hTid
        have h4 : T.level = wb.level + 1 :=
          hw.childLevel T hTs b.id hTp wb hwbs hwbid
        omega
      · rw [if_neg (by simp [hwap])] at hvawa
        have h2 : wa.parent_id = some b.id := by
          rw [← hvawa]
          exact hvap'
        have h3 : wa.level = wb.level + 1 :=
          hw.childLevel wa hwas b.id h2 wb hwbs hwbid
        omega
    have hlt : ∀ a b, Relation.TransGen (parentStep S') a b →
        (((lookupTask s b.id).map Task.level).getD 0)
          < (((lookupTask s a.id).map Task.level).getD 0) := by
      intro a b h2
      induction h2 with
      | single h3 => exact hsteplt _ _ h3
      | tail h3 h4 ih => exact lt_trans (hsteplt _ _ h4) ih
    exact absurd (hlt u u hcyc) (lt_irrefl _)

/-- Claim C5 as stated is false: deleting the middle task of the chain
1 ← 2 ← 3 leaves task 3 at level 1 (the deleted task's own level, which is
what app.py 561-567 writes), not at level 0 (the deleted task's parent's
level) as the claim demands. -/
theorem claim5_counterexample : ¬ deleteClaimAsStated := by
  intro h
  obtain ⟨s', hs'⟩ : ∃ s',
      deleteTaskFlat [chainA, chainB, chainC] 2 = .ok s' := ⟨_, rfl⟩
  have hero : levelAfterDelete [chainA, chainB, chainC] 2 3 = some 1 := by decide
  rw [levelAfterDelete, hs'] at hero
  dsimp only at hero
  cases hl : lookupTask s' 3 with
  | none =>
    rw [hl] at hero
    exact absurd hero (by simp)
  | some c' =>
    rw [hl] at hero
    have hlev : c'.level = 1 := by simpa using hero
    have h0 := h [chainA, chainB, chainC] 2 chainB chainA s'
      (WFStore_of_forall _ (by decide) (by decide) (by decide) (by decide))
      rfl rfl (List.mem_cons_self chainA _) hs'
      chainC (by decide) rfl c' hl
    rw [hlev] at h0
    exact absurd h0 (by decide)

/-- Witness for the corrected C5 at the chain 1 ← 2 ← 3 with task 2
deleted. -/
theorem claim5_witness :
    ∃ s', deleteTaskFlat [chainA, chainB, chainC] 2 = .ok s' ∧
      s'.map Task.id = ([chainA, chainB, chainC].map Task.id).eraseP (fun i => i == 2) ∧
      (∀ u ∈ s', u.id ≠ 2) ∧
      (∀ c ∈ [chainA, chainB, chainC], c.parent_id = some 2 →
        ∃ c', lookupTask s' c.id = some c' ∧
          c'.parent_id = chainB.parent_id ∧
          c'.level = (if optTruthy chainB.parent_id then chainB.level else 0)) ∧
      (∀ u ∈ s', ∀ p, u.parent_id = some p → ∃ v ∈ s', v.id = p) ∧
      (∀ u, ¬ Relation.TransGen (parentStep s') u u) :=
  claim5_delete_promotes [chainA, chainB, chainC] 2 chainB
    (WFStore_of_forall _ (by decide) (by decide) (by decide) (by decide)) rfl

/-- Unfolding of `deeperThan`. -/
theorem deeperThan_iff (s : List Task) (lvl : Int) (x : Nat) :
    deeperThan s lvl x = true ↔ ∃ v, lookupTask s x = some v ∧ lvl < v.level := by
  rw [deeperThan]
  cases h : lookupTask s x <;> simp

/-- The stable insertion keeps the multiset of rows. -/
theorem insertTaskOrd_perm (x : Task) : ∀ (l : List Task),
    (insertTaskOrd x l).Perm (x :: l) := by
  intro l
  induction l with
  | nil => exact List.Perm.refl _
  | cons y ys ih =>
    rw [insertTaskOrd]
    by_cases h : y.order_index < x.order_index
    · rw [if_pos h]
      exact (List.Perm.cons y ih).trans (List.Perm.swap x y ys)
    · rw [if_neg h]

/-- The order-sort is a permutation of the store. -/
theorem sortTasksByOrder_perm : ∀ (l : List Task), (sortTasksByOrder l).Perm l := by
  intro l
  induction l with
  | nil => exact List.Perm.refl _
  | cons x xs ih =>
    rw [sortTasksByOrder]
    exact (insertTaskOrd_perm x (sortTasksByOrder xs)).trans (ih.cons x)

/-- Members of the sorted store are members of the store. -/
theorem mem_of_sorted (l : List Task) (u : Task) (h : u ∈ sortTasksByOrder l) :
    u ∈ l :=
  (sortTasksByOrder_perm l).subset h

/-- Sorting keeps the ids duplicate-free. -/
theorem nodup_sorted_ids (l : List Task) (hn : (l.map Task.id).Nodup) :
    ((sortTasksByOrder l).map Task.id).Nodup :=
  (((sortTasksByOrder_perm l).map Task.id).nodup_iff).mpr hn

/-- Generalization of the found-index property over the running start
index of the scan. -/
theorem findIdx?_aux (p : Task → Bool) : ∀ (l : List Task) (st i : Nat),
    List.findIdx? p l st = some i →
    st ≤ i ∧ ∃ x, l.get? (i - st) = some x ∧ p x = true := by
  intro l
  induction l with
  | nil => intro st i h; exact absurd h (by simp)
  | cons x xs ih =>
    intro st i h
    rw [List.findIdx?_cons] at h
    by_cases hp : p x = true
    · rw [if_pos hp] at h
      cases h
      exact ⟨le_refl st, x, by simp, hp⟩
    · rw [if_neg hp] at h
      rcases ih (st + 1) i h with ⟨hle, y, hy, hpy⟩
      refine ⟨by omega, y, ?_, hpy⟩
      have he : i - st = (i - (st + 1)) + 1 := by omega
      rw [he, List.get?_cons_succ]
      exact hy

/-- A found index points at an element satisfying the predicate. -/
theorem findIdx?_get (p : Task → Bool) (l : List Task) (i : Nat)
    (h : l.findIdx? p = some i) : ∃ x, l.get? i = some x ∧ p x = true := by
  rcases findIdx?_aux p l 0 i h with ⟨_, x, hx, hp⟩
  rw [Nat.sub_zero] at hx
  exact ⟨x, hx, hp⟩

/-- The backward parent scan returns an element strictly above the start
position. -/
theorem fpp_mem (tasks : List Task) (lvl : Int) : ∀ (j : Nat) (u : Task),
    findPotentialParent tasks j lvl = some u →
    ∃ k, k < j ∧ tasks.get? k = some u := by
  intro j
  induction j with
  | zero => intro u h; exact absurd h (by rw [findPotentialParent]; simp)
  | succ j ih =>
    intro u h
    rw [findPotentialParent] at h
    cases hg : tasks.get? j with
    | none => rw [hg] at h; exact absurd h (by simp)
    | some u' =>
      rw [hg] at h
      dsimp only at h
      by_cases hle : u'.level ≤ lvl
      · rw [if_pos hle] at h
        cases h
        exact ⟨j, Nat.lt_succ_self j, hg⟩
      · rw [if_neg hle] at h
        rcases ih u h with ⟨k, hk, hgk⟩
        exact ⟨k, hk.trans (Nat.lt_succ_self j), hgk⟩

/-- Distinct positions of a store with duplicate-free ids carry distinct
ids. -/
theorem nodup_get?_id_ne : ∀ (l : List Task), (l.map Task.id).Nodup →
    ∀ (i j : Nat) (a b : Task), i < j → l.get? i = some a → l.get? j = some b →
      a.id ≠ b.id := by
  intro l
  induction l with
  | nil => intro _ i j a b _ ha; exact absurd ha (by simp)
  | cons x xs ih =>
    intro hn i j a b hij ha hb
    rw [List.map_cons, List.nodup_cons] at hn
    cases i with
    | zero =>
      cases j with
      | zero => exact absurd hij (lt_irrefl 0)
      | succ j =>
        rw [List.get?_cons_zero] at ha
        cases ha
        rw [List.get?_cons_succ] at hb
        intro he
        exact hn.1 (List.mem_map.mpr ⟨b, List.get?_mem hb, he.symm⟩)
    | succ i =>
      cases j with
      | zero => exact absurd hij (by omega)
      | succ j =>
        rw [List.get?_cons_succ] at ha hb
        exact ih hn.2 i j a b (by omega) ha hb

/-- The list minimum bounds every element. -/
theorem minOfList_le : ∀ (l : List Int) (m : Int), minOfList l = some m →
    ∀ x ∈ l, m ≤ x := by
  intro l
  induction l with
  | nil => intro m _ x hx; exact absurd hx (List.not_mem_nil x)
  | cons y ys ih =>
    intro m hm x hx
    rw [minOfList] at hm
    cases hys : minOfList ys with
    | none =>
      rw [hys] at hm
      cases hm
      cases ys with
      | nil =>
        rcases List.mem_cons.mp hx with hx' | hx'
        · rw [hx']
        · exact absurd hx' (List.not_mem_nil x)
      | cons z zs => exact absurd hys (by rw [minOfList]; cases minOfList zs <;> simp)
    | some m' =>
      rw [hys] at hm
      cases hm
      rcases List.mem_cons.mp hx with hx' | hx'
      · rw [hx']
        exact min_le_left y m'
      · exact (min_le_right y m').trans (ih m' hys x hx')

/-- The list minimum is an element. -/
theorem minOfList_mem : ∀ (l : List Int) (m : Int), minOfList l = some m →
    m ∈ l := by
  intro l
  induction l with
  | nil => intro m hm; exact absurd hm (by rw [minOfList]; simp)
  | cons y ys ih =>
    intro m hm
    rw [minOfList] at hm
    cases hys : minOfList ys with
    | none =>
      rw [hys] at hm
      cases hm
      exact List.mem_cons_self y ys
    | some m' =>
      rw [hys] at hm
      cases hm
      rcases le_total y m' with h | h
      · rw [min_eq_left h]
        exact List.mem_cons_self y ys
      · rw [min_eq_right h]
        exact List.mem_cons_of_mem y (ih m' hys)

/-- Levels of a well-formed store are nonnegative: a row of minimal level
cannot have a parent, hence is a root at level 0. -/
theorem WF_level_nonneg (s : List Task) (hw : WFStore s) :
    ∀ t ∈ s, 0 ≤ t.level := by
  intro t ht
  have hne : s.map Task.level ≠ [] := by
    intro h
    rw [List.map_eq_nil_iff] at h
    rw [h] at ht
    exact absurd ht (List.not_mem_nil t)
  rcases minOfList_isSome (s.map Task.level) hne with ⟨m, hm⟩
  rcases List.mem_map.mp (minOfList_mem _ m hm) with ⟨u, hu, hul⟩
  have hm0 : m = 0 := by
    cases hp : u.parent_id with
    | none => rw [← hul, hw.rootLevel u hu hp]
    | some p =>
      exfalso
      rcases hw.parentClosed u hu p hp with ⟨_, v, hv, hvid⟩
      have h1 : u.level = v.level + 1 := hw.childLevel u hu p hp v hv hvid
      have h2 : m ≤ v.level := minOfList_le _ m hm v.level (List.mem_map_of_mem _ hv)
      omega
  have h3 : m ≤ t.level := minOfList_le _ m hm t.level (List.mem_map_of_mem _ ht)
  omega

/-- The image of a row under a single `updateById`. -/
theorem mem_updateById_image (s : List Task) (i : Nat) (g : Task → Task)
    (x : Task) (hx : x ∈ s) :
    (if x.id == i then g x else x) ∈ updateById s i g :=
  List.mem_map.mpr ⟨x, hx, rfl⟩

/-- A row whose id is not targeted survives `updateById` unchanged. -/
theorem mem_updateById_of_ne (s : List Task) (i : Nat) (g : Task → Task)
    (x : Task) (hx : x ∈ s) (hne : x.id ≠ i) : x ∈ updateById s i g := by
  have h := mem_updateById_image s i g x hx
  rwa [if_neg (by simp [hne])] at h

/-- Every row of an updated store is the image of a row of the store. -/
theorem updateById_inv (s : List Task) (i : Nat) (g : Task → Task) :
    ∀ y ∈ updateById s i g, ∃ x ∈ s, y = if x.id == i then g x else x := by
  intro y hy
  rcases List.mem_map.mp hy with ⟨x, hx, he⟩
  exact ⟨x, hx, he.symm⟩

/-- An id-preserving `updateById` keeps the id column. -/
theorem updateById_map_id (s : List Task) (i : Nat) (g : Task → Task)
    (hid : ∀ t, (g t).id = t.id) :
    (updateById s i g).map Task.id = s.map Task.id := by
  rw [updateById, List.map_map]
  refine List.map_congr_left ?_
  intro t _
  by_cases h : t.id = i
  · simp [Function.comp_def, h, hid]
  · simp [Function.comp_def, h]

/-- Masking keeps the id of a row. -/
theorem maskB_id (B : Nat → Bool) (t : Task) : (maskB B t).id = t.id := by
  rw [maskB]
  by_cases h : B t.id = true <;> simp [h, eraseLvl]

/-- Masking keeps the id and parent of a row. -/
theorem maskB_idpar (B : Nat → Bool) (t : Task) : idpar (maskB B t) = idpar t := by
  rw [maskB]
  by_cases h : B t.id = true <;> simp [h, eraseLvl, idpar]

/-- A row not selected by `B` survives into any store with the same
`maskB`-image. -/
theorem mem_of_maskB_eq (B : Nat → Bool) (l1 l2 : List Task)
    (h : l1.map (maskB B) = l2.map (maskB B)) (u : Task) (hu : u ∈ l1)
    (hB : B u.id = false) : u ∈ l2 := by
  have hm : maskB B u ∈ l2.map (maskB B) := by
    rw [← h]
    exact List.mem_map_of_mem _ hu
  rcases List.mem_map.mp hm with ⟨v, hv, hvu⟩
  have hmu : maskB B u = u := by rw [maskB, hB]; simp
  have hvid : v.id = u.id := by
    have := congrArg Task.id hvu
    rwa [maskB_id, maskB_id] at this
  have hmv : maskB B v = v := by rw [maskB, hvid, hB]; simp
  rw [hmv, hmu] at hvu
  rwa [← hvu]

/-- Equal `maskB`-images give equal id columns. -/
theorem ids_of_maskB_eq (B : Nat → Bool) (l1 l2 : List Task)
    (h : l1.map (maskB B) = l2.map (maskB B)) :
    l1.map Task.id = l2.map Task.id :=
  map_field_of_map_erase Task.id (maskB B) (maskB_id B) l1 l2 h

/-- Equal `maskB`-images give equal id-and-parent columns. -/
theorem idpar_of_maskB_eq (B : Nat → Bool) (l1 l2 : List Task)
    (h : l1.map (maskB B) = l2.map (maskB B)) :
    l1.map idpar = l2.map idpar :=
  map_field_of_map_erase idpar (maskB B) (maskB_idpar B) l1 l2 h

/-- Equal id-and-parent columns transfer membership up to id and parent. -/
theorem mem_idpar_transfer (l1 l2 : List Task) (h : l1.map idpar = l2.map idpar)
    (u : Task) (hu : u ∈ l1) :
    ∃ v ∈ l2, v.id = u.id ∧ v.parent_id = u.parent_id := by
  have hm : idpar u ∈ l2.map idpar := by
    rw [← h]
    exact List.mem_map_of_mem idpar hu
  rcases List.mem_map.mp hm with ⟨v, hv, htv⟩
  rw [idpar, idpar, Prod.mk.injEq] at htv
  exact ⟨v, hv, htv.1, htv.2⟩

/-- One store row at the head of a `childIds` computation. -/
theorem childIds_cons (x : Task) (xs : List Task) (pid : Nat) :
    childIds (x :: xs) pid
      = if x.parent_id = some pid then x.id :: childIds xs pid
        else childIds xs pid := by
  rw [childIds, childIds, List.filter_cons]
  by_cases h : x.parent_id = some pid
  · rw [if_pos h, if_pos (by simp [h]), List.map_cons]
  · rw [if_neg h, if_neg (by simp [h])]

/-- Equal `maskB`-images give the same children lists (the recursion reads
only ids and parents). -/
theorem childIds_eq_of_maskB (B : Nat → Bool) : ∀ (l1 l2 : List Task),
    l1.map (maskB B) = l2.map (maskB B) → ∀ pid,
    childIds l1 pid = childIds l2 pid := by
  intro l1
  induction l1 with
  | nil =>
    intro l2 h pid
    rw [List.map_nil] at h
    rw [List.map_eq_nil_iff.mp h.symm]
  | cons x xs ih =>
    intro l2 h pid
    cases l2 with
    | nil => exact absurd h (by simp)
    | cons y ys =>
      rw [List.map_cons, List.map_cons] at h
      injection h with h1 h2
      have hip : idpar x = idpar y := by
        have := congrArg idpar h1
        rwa [maskB_idpar, maskB_idpar] at this
      rw [idpar, idpar, Prod.mk.injEq] at hip
      rw [childIds_cons, childIds_cons, hip.1, hip.2, ih ys h2 pid]

/-- Rebasing the level of a `B`-row keeps the `maskB`-image. -/
theorem updateById_lvl_maskB (B : Nat → Bool) (s : List Task) (i : Nat) (lv : Int)
    (hB : B i = true) :
    (updateById s i (fun u => { u with level := lv })).map (maskB B)
      = s.map (maskB B) := by
  rw [updateById, List.map_map]
  refine List.map_congr_left ?_
  intro t _
  simp only [Function.comp_apply]
  by_cases h : (t.id == i) = true
  · rw [if_pos h, maskB, maskB]
    dsimp only
    have hB' : B t.id = true := by rw [beq_iff_eq.mp h]; exact hB
    rw [if_pos hB', if_pos hB']
    rfl
  · rw [if_neg h]

/-- The descendant-rebasing recursion writes only levels, and only of rows
whose id is selected by `B`, provided `B` covers the starting children and
is closed under taking children in the reference store. -/
theorem updateDescendants_maskB (B : Nat → Bool) (s0 : List Task)
    (hcl : ∀ x, B x = true → ∀ c ∈ childIds s0 x, B c = true) :
    ∀ (fuel : Nat) (s : List Task) (pid : Nat) (plvl : Int),
      s.map (maskB B) = s0.map (maskB B) →
      (∀ c ∈ childIds s pid, B c = true) →
      (updateDescendants fuel s pid plvl).map (maskB B) = s0.map (maskB B) := by
  intro fuel
  induction fuel with
  | zero => intro s pid plvl hmap _; exact hmap
  | succ fuel ih =>
    intro s pid plvl hmap hseed
    have aux : ∀ (cids : List Nat) (acc : List Task),
        acc.map (maskB B) = s0.map (maskB B) →
        (∀ c ∈ cids, B c = true) →
        (cids.foldl (fun acc2 cid =>
            updateDescendants fuel
              (updateById acc2 cid (fun u => { u with level := plvl + 1 })) cid
              (plvl + 1)) acc).map (maskB B)
          = s0.map (maskB B) := by
      intro cids
      induction cids with
      | nil => intro acc hacc _; exact hacc
      | cons c rest ihc =>
        intro acc hacc hall
        rw [List.foldl_cons]
        have hBc : B c = true := hall c (List.mem_cons_self c rest)
        have hacc1 : (updateById acc c (fun u => { u with level := plvl + 1 })).map
            (maskB B) = s0.map (maskB B) := by
          rw [updateById_lvl_maskB B acc c (plvl + 1) hBc]
          exact hacc
        refine ihc _ ?_ (fun d hd => hall d (List.mem_cons_of_mem c hd))
        refine ih _ c (plvl + 1) hacc1 ?_
        intro d hd
        have hch : childIds (updateById acc c (fun u => { u with level := plvl + 1 })) c
            = childIds s0 c := childIds_eq_of_maskB B _ _ hacc1 c
        rw [hch] at hd
        exact hcl c hBc d hd
    exact aux (childIds s pid) s hmap hseed

/-- The is-summary write of the capture loop keeps id, parent and level. -/
theorem sum_image_trip (x : Task) (tid : Nat) :
    (if x.id == tid then { x with is_summary := true } else x).id = x.id ∧
    (if x.id == tid then { x with is_summary := true } else x).parent_id = x.parent_id ∧
    (if x.id == tid then { x with is_summary := true } else x).level = x.level := by
  by_cases h : (x.id == tid) = true
  · rw [if_pos h]
    exact ⟨rfl, rfl, rfl⟩
  · rw [if_neg h]
    exact ⟨rfl, rfl, rfl⟩

/-- A row that no walked entry of its id can capture keeps its id, parent
and level through the capture loop (the loop may still flip its summary
flag). -/
theorem captureLoop_keep (tid opId : Nat) (nl ol : Int) :
    ∀ (walk s : List Task) (x : Task), x ∈ s →
      (∀ u ∈ walk, u.id = x.id → (u.parent_id == some opId) = false) →
      ∃ x' ∈ captureLoop tid opId nl ol walk s,
        x'.id = x.id ∧ x'.parent_id = x.parent_id ∧ x'.level = x.level := by
  intro walk
  induction walk with
  | nil => intro s x hx _; exact ⟨x, hx, rfl, rfl, rfl⟩
  | cons u rest ih =>
    intro s x hx hfail
    rw [captureLoop]
    by_cases hcap : (u.parent_id == some opId) = true
    · rw [if_pos hcap]
      have hune : u.id ≠ x.id := by
        intro he
        have h2 := hfail u (List.mem_cons_self u rest) he
        rw [h2] at hcap
        exact Bool.false_ne_true hcap
      have hx1 : x ∈ updateById s u.id
          (fun t => { t with parent_id := some tid, level := nl + 1 }) :=
        mem_updateById_of_ne _ _ _ x hx (Ne.symm hune)
      have hx2 : (if x.id == tid then { x with is_summary := true } else x) ∈
          updateById (updateById s u.id
            (fun t => { t with parent_id := some tid, level := nl + 1 })) tid
            (fun t => { t with is_summary := true }) := by
        have h3 := mem_updateById_image (updateById s u.id
          (fun t => { t with parent_id := some tid, level := nl + 1 })) tid
          (fun t => { t with is_summary := true }) x hx1
        exact h3
      obtain ⟨hid2, hpar2, hlvl2⟩ := sum_image_trip x tid
      rcases ih _ _ hx2 (fun u' hu' he' =>
        hfail u' (List.mem_cons_of_mem u hu') (he'.trans hid2)) with ⟨x', hx', h1, h2, h3⟩
      exact ⟨x', hx', h1.trans hid2, h2.trans hpar2, h3.trans hlvl2⟩
    · rw [if_neg hcap]
      by_cases hstop : u.level ≤ ol
      · rw [if_pos hstop]
        exact ⟨x, hx, rfl, rfl, rfl⟩
      · rw [if_neg hstop]
        exact ih s x hx (fun u' hu' => hfail u' (List.mem_cons_of_mem u hu'))

/-- Every row after the capture loop traces back to a row of the incoming
store with the same id; its parent and level are either unchanged or the
row was captured: its parent became the task and some walked entry of its
id was a child of the old parent. -/
theorem captureLoop_parents (tid opId : Nat) (nl ol : Int) :
    ∀ (walk s : List Task), ∀ x' ∈ captureLoop tid opId nl ol walk s,
      ∃ x ∈ s, x.id = x'.id ∧
        ((x'.parent_id = x.parent_id ∧ x'.level = x.level) ∨
          (x'.parent_id = some tid ∧
            ∃ u ∈ walk, u.id = x'.id ∧ (u.parent_id == some opId) = true)) := by
  intro walk
  induction walk with
  | nil => intro s x' hx'; exact ⟨x', hx', rfl, .inl ⟨rfl, rfl⟩⟩
  | cons u rest ih =>
    intro s x' hx'
    rw [captureLoop] at hx'
    by_cases hcap : (u.parent_id == some opId) = true
    · rw [if_pos hcap] at hx'
      rcases ih _ x' hx' with ⟨x2, hx2, hid2, hrel2⟩
      rcases updateById_inv _ _ _ x2 hx2 with ⟨x1, hx1, he1⟩
      rcases updateById_inv _ _ _ x1 hx1 with ⟨x0, hx0, he0⟩
      -- the summary write keeps id, parent and level
      have h1id : x1.id = x2.id := by
        rw [he1]
        by_cases h : (x1.id == tid) = true
        · rw [if_pos h]
        · rw [if_neg h]
      have h1par : x2.parent_id = x1.parent_id := by
        rw [he1]
        by_cases h : (x1.id == tid) = true
        · rw [if_pos h]
        · rw [if_neg h]
      have h1lvl : x2.level = x1.level := by
        rw [he1]
        by_cases h : (x1.id == tid) = true
        · rw [if_pos h]
        · rw [if_neg h]
      by_cases h0 : (x0.id == u.id) = true
      · -- x1 is the captured image of x0
        rw [if_pos h0] at he0
        have h0id : x0.id = x2.id := by rw [← h1id, he0]
        have h0par : x1.parent_id = some tid := by rw [he0]
        refine ⟨x0, hx0, h0id.trans hid2, ?_⟩
        rcases hrel2 with ⟨hp2, hl2⟩ | ⟨hp2, u', hu', hrel'⟩
        · refine .inr ⟨by rw [hp2, h1par, h0par], u, List.mem_cons_self u rest, ?_, hcap⟩
          rw [beq_iff_eq.mp h0] at h0id
          rw [h0id, hid2]
        · exact .inr ⟨hp2, u', List.mem_cons_of_mem u hu', hrel'⟩
      · rw [if_neg h0] at he0
        refine ⟨x0, hx0, by rw [← he0, h1id, hid2], ?_⟩
        rcases hrel2 with ⟨hp2, hl2⟩ | ⟨hp2, u', hu', hrel'⟩
        · exact .inl ⟨by rw [hp2, h1par, he0], by rw [hl2, h1lvl, he0]⟩
        · exact .inr ⟨hp2, u', List.mem_cons_of_mem u hu', hrel'⟩
    · rw [if_neg hcap] at hx'
      by_cases hstop : u.level ≤ ol
      · rw [if_pos hstop] at hx'
        exact ⟨x', hx', rfl, .inl ⟨rfl, rfl⟩⟩
      · rw [if_neg hstop] at hx'
        rcases ih s x' hx' with ⟨x, hx, hid, hrel⟩
        refine ⟨x, hx, hid, ?_⟩
        rcases hrel with hl | ⟨hp, u', hu', hrel'⟩
        · exact .inl hl
        · exact .inr ⟨hp, u', List.mem_cons_of_mem u hu', hrel'⟩

/-- Writing the summary flag keeps the id column. -/
theorem updateById_sumflag_map_id (s : List Task) (i : Nat) (b : Bool) :
    (updateById s i (fun t => { t with is_summary := b })).map Task.id
      = s.map Task.id :=
  updateById_map_id s i _ (fun _ => rfl)

/-- Re-parenting and re-leveling a row keeps the id column. -/
theorem updateById_parlvl_map_id (s : List Task) (i : Nat) (pid : Option Nat)
    (lv : Int) :
    (updateById s i (fun t => { t with parent_id := pid, level := lv })).map Task.id
      = s.map Task.id :=
  updateById_map_id s i _ (fun _ => rfl)

/-- The capture loop keeps the id column of the store. -/
theorem captureLoop_ids (tid opId : Nat) (nl ol : Int) :
    ∀ (walk s : List Task),
      (captureLoop tid opId nl ol walk s).map Task.id = s.map Task.id := by
  intro walk
  induction walk with
  | nil => intro s; rfl
  | cons u rest ih =>
    intro s
    rw [captureLoop]
    by_cases hcap : (u.parent_id == some opId) = true
    · rw [if_pos hcap, ih, updateById_sumflag_map_id, updateById_parlvl_map_id]
    · rw [if_neg hcap]
      by_cases hstop : u.level ≤ ol
      · rw [if_pos hstop]
      · rw [if_neg hstop, ih]

/-- A member of a children list is a row with that parent. -/
theorem childIds_decode (l : List Task) (x c : Nat) (hc : c ∈ childIds l x) :
    ∃ r ∈ l, r.id = c ∧ r.parent_id = some x := by
  rcases List.mem_map.mp hc with ⟨r, hrf, hrid⟩
  rcases List.mem_filter.mp hrf with ⟨hrs, hrp⟩
  exact ⟨r, hrs, hrid, by simpa using hrp⟩

/-- A store row strictly below `lvl` makes its id `deeperThan`. -/
theorem deeperThan_of_row (s : List Task) (hn : (s.map Task.id).Nodup) (lvl : Int)
    (r0 : Task) (h0 : r0 ∈ s) (hlt : lvl < r0.level) :
    deeperThan s lvl r0.id = true := by
  rw [deeperThan, lookupTask_self s hn r0 h0]
  simp [hlt]

/-- Row characterization after the two targeted writes of `indent_task`
(re-parent the task, flag the new parent): the task's row gets the new
parent and level, every other row keeps its parent and level. -/
theorem indent_core_rows (s : List Task) (tid ppid : Nat) (lv : Int) (b : Bool) :
    ∀ r ∈ updateById (updateById s tid
        (fun u => { u with parent_id := some ppid, level := lv })) ppid
        (fun u => { u with is_summary := b }),
      ∃ r0 ∈ s, r0.id = r.id ∧
        ((r.id = tid ∧ r.parent_id = some ppid ∧ r.level = lv) ∨
          (r.id ≠ tid ∧ r.parent_id = r0.parent_id ∧ r.level = r0.level)) := by
  intro r hr
  rcases updateById_inv _ _ _ r hr with ⟨r1, hr1, he1⟩
  rcases updateById_inv _ _ _ r1 hr1 with ⟨r0, hr0, he0⟩
  have h1id : r.id = r1.id := by
    rw [he1]
    by_cases h : (r1.id == ppid) = true
    · rw [if_pos h]
    · rw [if_neg h]
  have h1par : r.parent_id = r1.parent_id := by
    rw [he1]
    by_cases h : (r1.id == ppid) = true
    · rw [if_pos h]
    · rw [if_neg h]
  have h1lvl : r.level = r1.level := by
    rw [he1]
    by_cases h : (r1.id == ppid) = true
    · rw [if_pos h]
    · rw [if_neg h]
  by_cases h0 : (r0.id == tid) = true
  · rw [if_pos h0] at he0
    refine ⟨r0, hr0, ?_, .inl ⟨?_, ?_, ?_⟩⟩
    · rw [h1id, he0]
    · rw [h1id, he0]
      exact beq_iff_eq.mp h0
    · rw [h1par, he0]
    · rw [h1lvl, he0]
  · rw [if_neg h0] at he0
    refine ⟨r0, hr0, ?_, .inr ⟨?_, ?_, ?_⟩⟩
    · rw [h1id, he0]
    · rw [h1id, he0]
      exact beq_eq_false_iff_ne.mp (Bool.of_not_eq_true h0)
    · rw [h1par, he0]
    · rw [h1lvl, he0]

set_option maxHeartbeats 2000000 in
/-- Claim C7: if the backward scan of `indent_task` finds a potential
parent `pp` that is a sibling of task `T` at the same level, indenting `T`
and then immediately outdenting it restores `T`'s parent reference and
level to their pre-indent values. -/
theorem claim7_indent_outdent (s : List Task) (tid : Nat) (task pp : Task) (i : Nat)
    (hw : WFStore s)
    (hlk : lookupTask s tid = some task)
    (hfi : (sortTasksByOrder s).findIdx? (fun t => t.id == tid) = some i)
    (hi0 : i ≠ 0)
    (hfpp : findPotentialParent (sortTasksByOrder s) i task.level = some pp)
    (hppp : pp.parent_id = task.parent_id)
    (hppl : pp.level = task.level) :
    ∃ s1, indentTaskFlat s tid = .ok s1 ∧
      ∃ s2, outdentTaskFlat s1 tid = .ok s2 ∧
        ∃ t2, lookupTask s2 tid = some t2 ∧
          t2.parent_id = task.parent_id ∧ t2.level = task.level := by
  obtain ⟨htasks, htid⟩ := lookupTask_mem s tid task hlk
  have hnod := hw.nodup
  have hnodq : ((sortTasksByOrder s).map Task.id).Nodup := nodup_sorted_ids s hnod
  -- the found potential parent is a row of the store distinct from the task
  obtain ⟨w, hwget, hwp⟩ := findIdx?_get (fun t => t.id == tid) (sortTasksByOrder s) i hfi
  obtain ⟨k, hki, hkget⟩ := fpp_mem (sortTasksByOrder s) task.level i pp hfpp
  have hppmem : pp ∈ s := mem_of_sorted s pp (List.get?_mem hkget)
  have hppne : pp.id ≠ tid := by
    have h2 := nodup_get?_id_ne (sortTasksByOrder s) hnodq k i pp w hki hkget hwget
    rw [beq_iff_eq.mp hwp] at h2
    exact h2
  have htasknp : task.parent_id ≠ some tid := by
    intro hp
    have h2 := hw.childLevel task htasks tid hp task htasks htid
    omega
  have htasknpp : task.parent_id ≠ some pp.id := by
    intro hp
    rw [← hppp] at hp
    have h2 := hw.childLevel pp hppmem pp.id hp pp hppmem rfl
    omega
  have hpplnn : (0 : Int) ≤ pp.level := WF_level_nonneg s hw pp hppmem
  have hlkpp : lookupTask s pp.id = some pp := lookupTask_self s hnod pp hppmem
  have hBtid : deeperThan s task.level tid = false := by
    rw [deeperThan, hlk]
    simp
  have hBpp : deeperThan s task.level pp.id = false := by
    rw [deeperThan, hlkpp]
    simp [hppl]
  -- the indent handler's intermediate stores
  set st1 := updateById s tid
    (fun u => { u with parent_id := some pp.id, level := pp.level + 1 }) with hst1
  set st2 := updateById st1 pp.id (fun u => { u with is_summary := true }) with hst2
  set st3 := updateDescendants (s.length + 1) st2 tid (pp.level + 1) with hst3
  set S1 := recalcOrderFlat (recalcDatesFlat (updateWbsFlat st3)) with hS1
  have hdel1 : indentTaskFlat s tid = .ok S1 := by
    rw [indentTaskFlat, hlk]
    dsimp only
    rw [hfi]
    dsimp only
    rw [if_neg hi0, hfpp]
  -- the descendant rebase writes only levels of rows strictly below the
  -- task's original level
  have hst2rows := indent_core_rows s tid pp.id (pp.level + 1) true
  have hclose1 : ∀ x, deeperThan s task.level x = true →
      ∀ c ∈ childIds st2 x, deeperThan s task.level c = true := by
    intro x hBx c hc
    rcases childIds_decode st2 x c hc with ⟨r, hrs, hrid, hrpar⟩
    rcases hst2rows r hrs with ⟨r0, hr0, h0id, hcase⟩
    rcases hcase with ⟨_, hrp, _⟩ | ⟨_, hrp, _⟩
    · rw [hrpar] at hrp
      have hx : x = pp.id := Option.some.inj hrp
      rw [hx] at hBx
      rw [hBpp] at hBx
      exact absurd hBx (by simp)
    · rcases (deeperThan_iff s task.level x).mp hBx with ⟨vx, hvx, hlt⟩
      obtain ⟨hvxs, hvxid⟩ := lookupTask_mem s x vx hvx
      have hr0p : r0.parent_id = some x := by rw [← hrp, hrpar]
      have h2 := hw.childLevel r0 hr0 x hr0p vx hvxs hvxid
      have h3 : deeperThan s task.level r0.id = true :=
        deeperThan_of_row s hnod task.level r0 hr0 (by omega)
      rw [h0id, hrid] at h3
      exact h3
  have hseed1 : ∀ c ∈ childIds st2 tid, deeperThan s task.level c = true := by
    intro c hc
    rcases childIds_decode st2 tid c hc with ⟨r, hrs, hrid, hrpar⟩
    rcases hst2rows r hrs with ⟨r0, hr0, h0id, hcase⟩
    rcases hcase with ⟨_, hrp, _⟩ | ⟨_, hrp, _⟩
    · rw [hrpar] at hrp
      exact absurd (Option.some.inj hrp).symm hppne
    · have hr0p : r0.parent_id = some tid := by rw [← hrp, hrpar]
      have h2 := hw.childLevel r0 hr0 tid hr0p task htasks htid
      have h3 : deeperThan s task.level r0.id = true :=
        deeperThan_of_row s hnod task.level r0 hr0 (by omega)
      rw [h0id, hrid] at h3
      exact h3
  have hmask3 : st3.map (maskB (deeperThan s task.level))
      = st2.map (maskB (deeperThan s task.level)) := by
    rw [hst3]
    exact updateDescendants_maskB (deeperThan s task.level) st2 hclose1
      (s.length + 1) st2 tid (pp.level + 1) rfl hseed1
  -- the moved task's row and the new parent's row inside the indent stores
  have htA1 : (fun u => { u with parent_id := some pp.id, level := pp.level + 1 }) task
      ∈ st1 := by
    have h2 := mem_updateById_image s tid
      (fun u => { u with parent_id := some pp.id, level := pp.level + 1 }) task htasks
    rwa [if_pos (beq_iff_eq.mpr htid)] at h2
  have htA2 : (fun u => { u with parent_id := some pp.id, level := pp.level + 1 }) task
      ∈ st2 := by
    refine mem_updateById_of_ne st1 pp.id _ _ htA1 ?_
    intro h2
    exact hppne (h2.symm.trans htid)
  have htA3 : (fun u => { u with parent_id := some pp.id, level := pp.level + 1 }) task
      ∈ st3 :=
    mem_of_maskB_eq (deeperThan s task.level) st2 st3 hmask3.symm _ htA2
      (by dsimp only; rw [htid]; exact hBtid)
  have hpB1 : pp ∈ st1 := mem_updateById_of_ne s tid _ pp hppmem hppne
  have hpB2 : (fun u => { u with is_summary := true }) pp ∈ st2 := by
    have h2 := mem_updateById_image st1 pp.id (fun u => { u with is_summary := true })
      pp hpB1
    rwa [if_pos (by simp)] at h2
  have hpB3 : (fun u => { u with is_summary := true }) pp ∈ st3 :=
    mem_of_maskB_eq (deeperThan s task.level) st2 st3 hmask3.symm _ hpB2
      (by dsimp only; exact hBpp)
  -- id bookkeeping
  have hidst1 : st1.map Task.id = s.map Task.id :=
    updateById_parlvl_map_id s tid (some pp.id) (pp.level + 1)
  have hidst2 : st2.map Task.id = st1.map Task.id :=
    updateById_sumflag_map_id st1 pp.id true
  have hidst3 : st3.map Task.id = st2.map Task.id :=
    ids_of_maskB_eq _ _ _ hmask3
  have hidS1 : S1.map Task.id = st3.map Task.id := pipelineFlat_ids st3
  have hnodS1 : (S1.map Task.id).Nodup := by
    rw [hidS1, hidst3, hidst2, hidst1]
    exact hnod
  have htripS1 : S1.map trip = st3.map trip := pipelineFlat_trip st3
  -- the task's row in the indented store
  rcases mem_trip_transfer st3 S1 htripS1.symm _ htA3 with
    ⟨task1, htask1S1, h1id, h1par, h1lvl⟩
  have h1id' : task1.id = tid := h1id.trans htid
  have h1par' : task1.parent_id = some pp.id := h1par
  have h1lvl' : task1.level = pp.level + 1 := h1lvl
  have hlk1 : lookupTask S1 tid = some task1 := by
    have h2 := lookupTask_self S1 hnodS1 task1 htask1S1
    rwa [h1id'] at h2
  -- the new parent's row in the indented store
  rcases mem_trip_transfer st3 S1 htripS1.symm _ hpB3 with
    ⟨op1, hop1S1, hoid, hopar, holvl⟩
  have hoid' : op1.id = pp.id := hoid
  have hopar' : op1.parent_id = pp.parent_id := hopar
  have holvl' : op1.level = pp.level := holvl
  have hlkop : lookupTask S1 pp.id = some op1 := by
    have h2 := lookupTask_self S1 hnodS1 op1 hop1S1
    rwa [hoid'] at h2
  -- outdent: the early checks pass
  have hc1 : (task1.level == 0) = false := by
    rw [h1lvl']
    exact beq_eq_false_iff_ne.mpr (by omega)
  have hc2 : task1.parent_id.isNone = false := by
    rw [h1par']
    rfl
  have hnotc : ¬ ((task1.level == 0 || task1.parent_id.isNone) = true) := by
    rw [hc1, hc2]
    exact Bool.false_ne_true
  -- the outdent handler's intermediate stores
  set u1 := updateById S1 tid
    (fun u => { u with parent_id := op1.parent_id, level := op1.level }) with hu1
  set allx := sortTasksByOrder u1 with hallx
  set u2 := captureLoop tid pp.id op1.level op1.level
    (allx.drop (dropStart allx tid)) u1 with hu2
  set u3 := updateDescendants (S1.length + 1) u2 tid op1.level with hu3
  set u4 := (if (u3.filter (fun t => t.parent_id == some pp.id)).length = 0 then
      updateById u3 pp.id (fun u => { u with is_summary := false })
    else u3) with hu4
  set S2 := recalcOrderFlat (recalcDatesFlat (updateWbsFlat u4)) with hS2
  have hdel2 : outdentTaskFlat S1 tid = .ok S2 := by
    rw [outdentTaskFlat, hlk1]
    dsimp only
    rw [if_neg hnotc, h1par']
    dsimp only
    rw [hlkop]
  -- characterize rows of the indented store by id and parent
  have hS1rows : ∀ r ∈ S1, (r.id = tid ∧ r.parent_id = some pp.id) ∨
      (∃ r0 ∈ s, r0.id = r.id ∧ r.id ≠ tid ∧ r.parent_id = r0.parent_id) := by
    intro r hr
    rcases mem_trip_transfer S1 st3 htripS1 r hr with ⟨v3, hv3, h3id, h3par, _⟩
    rcases mem_idpar_transfer st3 st2 (idpar_of_maskB_eq _ _ _ hmask3) v3 hv3 with
      ⟨v2, hv2, h2id, h2par⟩
    rcases hst2rows v2 hv2 with ⟨r0, hr0, h0id, hcase⟩
    rcases hcase with ⟨hidt, hpar2, _⟩ | ⟨hidt, hpar2, _⟩
    · refine .inl ⟨?_, ?_⟩
      · rw [← h3id, ← h2id]
        exact hidt
      · rw [← h3par, ← h2par]
        exact hpar2
    · refine .inr ⟨r0, hr0, ?_, ?_, ?_⟩
      · rw [h0id, h2id, h3id]
      · rw [← h3id, ← h2id]
        exact hidt
      · rw [← h3par, ← h2par]
        exact hpar2
  -- characterize rows after the outdent's first write
  have hu1rows : ∀ r ∈ u1, (r.id = tid ∧ r.parent_id = task.parent_id) ∨
      (∃ r0 ∈ s, r0.id = r.id ∧ r.id ≠ tid ∧ r.parent_id = r0.parent_id) := by
    intro r hr
    rcases updateById_inv _ _ _ r hr with ⟨rS, hrS, heS⟩
    by_cases h : (rS.id == tid) = true
    · rw [if_pos h] at heS
      refine .inl ⟨?_, ?_⟩
      · rw [heS]
        exact beq_iff_eq.mp h
      · rw [heS]
        show op1.parent_id = task.parent_id
        rw [hopar', hppp]
    · rw [if_neg h] at heS
      rcases hS1rows rS hrS with ⟨hidt, _⟩ | ⟨r0, hr0, h0id, hne, hpar0⟩
      · exact absurd (beq_iff_eq.mpr hidt) h
      · refine .inr ⟨r0, hr0, ?_, ?_, ?_⟩
        · rw [heS]
          exact h0id
        · rw [heS]
          exact hne
        · rw [heS]
          exact hpar0
  -- no walked row of the task's id is still a child of the old parent
  have hwalkfail : ∀ ux ∈ allx.drop (dropStart allx tid), ux.id = tid →
      (ux.parent_id == some pp.id) = false := by
    intro ux hux hid
    have huxu1 : ux ∈ u1 := mem_of_sorted u1 ux (hallx ▸ List.drop_subset _ _ hux)
    rcases hu1rows ux huxu1 with ⟨_, hpart⟩ | ⟨r0, _, _, hne, _⟩
    · rw [hpart]
      exact beq_eq_false_iff_ne.mpr htasknpp
    · exact absurd hid hne
  -- the task's row survives the capture loop with the restored skeleton
  have htAAu1 : (fun u => { u with parent_id := op1.parent_id, level := op1.level }) task1
      ∈ u1 := by
    have h2 := mem_updateById_image S1 tid
      (fun u => { u with parent_id := op1.parent_id, level := op1.level }) task1 htask1S1
    rwa [if_pos (beq_iff_eq.mpr h1id')] at h2
  rcases captureLoop_keep tid pp.id op1.level op1.level (allx.drop (dropStart allx tid)) u1 _ htAAu1
      (fun ux hux hid => hwalkfail ux hux (hid.trans h1id')) with
    ⟨tB, htBu2', htBid, htBpar, htBlvl⟩
  have htBu2 : tB ∈ u2 := by
    rw [hu2]
    exact htBu2'
  -- characterize rows after the capture loop
  have hu2rows : ∀ r ∈ u2, (r.id = tid ∧ r.parent_id = task.parent_id) ∨
      (r.parent_id = some tid ∧ r.id ≠ tid ∧
        ∃ r0 ∈ s, r0.id = r.id ∧ r0.parent_id = some pp.id) ∨
      (∃ r0 ∈ s, r0.id = r.id ∧ r.id ≠ tid ∧ r.parent_id = r0.parent_id) := by
    intro r hr
    rcases captureLoop_parents tid pp.id op1.level op1.level (allx.drop (dropStart allx tid)) u1 r
      (hu2 ▸ hr) with ⟨r1, hr1u1, h1idr, hrel⟩
    rcases hrel with ⟨hpar1, _⟩ | ⟨hparT, uw, huw, huwid, huwcap⟩
    · rcases hu1rows r1 hr1u1 with ⟨hidt, hpart⟩ | ⟨r0, hr0, h0id, hne, hpar0⟩
      · refine .inl ⟨?_, ?_⟩
        · rw [← h1idr]
          exact hidt
        · rw [hpar1]
          exact hpart
      · refine .inr (.inr ⟨r0, hr0, ?_, ?_, ?_⟩)
        · rw [h0id, h1idr]
        · rw [← h1idr]
          exact hne
        · rw [hpar1]
          exact hpar0
    · have huwu1 : uw ∈ u1 := mem_of_sorted u1 uw (hallx ▸ List.drop_subset _ _ huw)
      rcases hu1rows uw huwu1 with ⟨_, hpart⟩ | ⟨r0, hr0, h0id, hne, hpar0⟩
      · rw [hpart, beq_eq_false_iff_ne.mpr htasknpp] at huwcap
        exact absurd huwcap (by simp)
      · refine .inr (.inl ⟨hparT, ?_, r0, hr0, ?_, ?_⟩)
        · rw [← huwid]
          exact hne
        · rw [h0id, huwid]
        · rw [← hpar0]
          exact beq_iff_eq.mp huwcap
  -- closure and seeds for the outdent's descendant rebase
  have hclose2 : ∀ x, deeperThan s task.level x = true →
      ∀ c ∈ childIds u2 x, deeperThan s task.level c = true := by
    intro x hBx c hc
    rcases childIds_decode u2 x c hc with ⟨r, hrs, hrid, hrpar⟩
    rcases (deeperThan_iff s task.level x).mp hBx with ⟨vx, hvx, hlt⟩
    obtain ⟨hvxs, hvxid⟩ := lookupTask_mem s x vx hvx
    rcases hu2rows r hrs with ⟨hidt, hpart⟩ |
      ⟨hparT, hne, r0, hr0, h0id, hp0pp⟩ | ⟨r0, hr0, h0id, hne, hpar0⟩
    · have hxp : task.parent_id = some x := hpart.symm.trans hrpar
      have h2 := hw.childLevel task htasks x hxp vx hvxs hvxid
      exact absurd h2 (by omega)
    · have hxt : x = tid := (Option.some.inj (hparT.symm.trans hrpar)).symm
      rw [hxt, hBtid] at hBx
      exact absurd hBx (by simp)
    · have hr0p : r0.parent_id = some x := by rw [← hpar0, hrpar]
      have h2 := hw.childLevel r0 hr0 x hr0p vx hvxs hvxid
      have h3 := deeperThan_of_row s hnod task.level r0 hr0 (by omega)
      rw [h0id, hrid] at h3
      exact h3
  have hseed2 : ∀ c ∈ childIds u2 tid, deeperThan s task.level c = true := by
    intro c hc
    rcases childIds_decode u2 tid c hc with ⟨r, hrs, hrid, hrpar⟩
    rcases hu2rows r hrs with ⟨hidt, hpart⟩ |
      ⟨hparT, hne, r0, hr0, h0id, hp0pp⟩ | ⟨r0, hr0, h0id, hne, hpar0⟩
    · exact absurd (hpart.symm.trans hrpar) htasknp
    · have h2 := hw.childLevel r0 hr0 pp.id hp0pp pp hppmem rfl
      have h3 := deeperThan_of_row s hnod task.level r0 hr0 (by rw [h2, hppl]; omega)
      rw [h0id, hrid] at h3
      exact h3
    · have hr0p : r0.parent_id = some tid := by rw [← hpar0, hrpar]
      have h2 := hw.childLevel r0 hr0 tid hr0p task htasks htid
      have h3 := deeperThan_of_row s hnod task.level r0 hr0 (by omega)
      rw [h0id, hrid] at h3
      exact h3
  have hmasku3 : u3.map (maskB (deeperThan s task.level))
      = u2.map (maskB (deeperThan s task.level)) := by
    rw [hu3]
    exact updateDescendants_maskB (deeperThan s task.level) u2 hclose2
      (S1.length + 1) u2 tid op1.level rfl hseed2
  have htBid' : tB.id = tid := htBid.trans h1id'
  have htBu3 : tB ∈ u3 :=
    mem_of_maskB_eq _ u2 u3 hmasku3.symm tB htBu2 (by rw [htBid']; exact hBtid)
  have htBu4 : tB ∈ u4 := by
    rw [hu4]
    by_cases hcond : (u3.filter (fun t => t.parent_id == some pp.id)).length = 0
    · rw [if_pos hcond]
      refine mem_updateById_of_ne u3 pp.id _ tB htBu3 ?_
      rw [htBid']
      intro h2
      exact hppne h2.symm
    · rw [if_neg hcond]
      exact htBu3
  -- id bookkeeping for the final store
  have hidu1 : u1.map Task.id = S1.map Task.id := by
    rw [hu1]
    exact updateById_parlvl_map_id S1 tid op1.parent_id op1.level
  have hidu2 : u2.map Task.id = u1.map Task.id := by
    rw [hu2]
    exact captureLoop_ids tid pp.id op1.level op1.level _ u1
  have hidu3 : u3.map Task.id = u2.map Task.id := ids_of_maskB_eq _ _ _ hmasku3
  have hidu4 : u4.map Task.id = u3.map Task.id := by
    rw [hu4]
    by_cases hcond : (u3.filter (fun t => t.parent_id == some pp.id)).length = 0
    · rw [if_pos hcond]
      exact updateById_sumflag_map_id u3 pp.id false
    · rw [if_neg hcond]
  have hnodS2 : (S2.map Task.id).Nodup := by
    rw [hS2, pipelineFlat_ids, hidu4, hidu3, hidu2, hidu1]
    exact hnodS1
  -- transfer the task's row into the final store
  rcases mem_trip_transfer u4 S2 (by rw [hS2]; exact (pipelineFlat_trip u4).symm) tB htBu4
    with ⟨t2, ht2S2, ht2id, ht2par, ht2lvl⟩
  have ht2id' : t2.id = tid := ht2id.trans htBid'
  have hlk2 : lookupTask S2 tid = some t2 := by
    have h2 := lookupTask_self S2 hnodS2 t2 ht2S2
    rwa [ht2id'] at h2
  refine ⟨S1, hdel1, S2, hdel2, t2, hlk2, ?_, ?_⟩
  · rw [ht2par, htBpar]
    show op1.parent_id = task.parent_id
    rw [hopar', hppp]
  · rw [ht2lvl, htBlvl]
    show op1.level = task.level
    rw [holvl', hppl]

/-- Witness for C7 at two root siblings: indenting the second under the
first and outdenting it again restores its parent (none) and level (0). -/
theorem claim7_witness :
    ∃ s1, indentTaskFlat [sibA, sibB] 2 = .ok s1 ∧
      ∃ s2, outdentTaskFlat s1 2 = .ok s2 ∧
        ∃ t2, lookupTask s2 2 = some t2 ∧
          t2.parent_id = sibB.parent_id ∧ t2.level = sibB.level :=
  claim7_indent_outdent [sibA, sibB] 2 sibB sibA 1
    (WFStore_of_forall _ (by decide) (by decide) (by decide) (by decide))
    rfl rfl (by decide) rfl rfl rfl

end OptiFlow

